import Mathlib

/-!
A verification development for the pylox tree-walking Lox interpreter
(scanner, parser, resolver, environment chain, evaluator).

Each definition is a shallow embedding of the corresponding Python
function; source strings are `List Char`, machine doubles are modelled as
rationals (`ℚ`) — every property proved here depends only on value tags,
zero tests and exact arithmetic, never on rounding.
-/

namespace Pylox

/-! ## Token model (token.py) -/

/-- Token kinds, mirroring `TokenType` in token.py. -/
inductive TokenType where
  | LEFT_PAREN | RIGHT_PAREN | LEFT_BRACE | RIGHT_BRACE | COMMA | DOT
  | MINUS | PLUS | SEMICOLON | SLASH | STAR
  | BANG | BANG_EQ | EQ | EQ_EQ | GT | GT_EQ | LT | LT_EQ
  | IDENTIFIER | STRING | NUMBER
  | AND | CLASS | ELSE | FALSE | FUN | FOR | IF | NIL | OR
  | PRINT | RETURN | SUPER | THIS | TRUE | VAR | WHILE
  | EOF
deriving DecidableEq, Repr

/-- A scanned literal payload (`Token.literal` in token.py): a number or a
string; `Option Lit` stands for the possibly-`None` payload. -/
inductive Lit where
  | num (q : ℚ)
  | str (s : List Char)
deriving DecidableEq, Repr

/-- `Token` from token.py: kind, exact source slice, optional literal
payload, source offset and lexeme length. -/
structure Token where
  type : TokenType
  lexeme : List Char
  literal : Option Lit
  offset : Nat
  length : Nat
deriving DecidableEq, Repr

/-! ## Scanner (scanner.py) -/

/-- `_isdigit` from scanner.py. -/
def isDigitC (c : Char) : Bool := decide ('0' ≤ c ∧ c ≤ '9')

/-- `_isalpha` from scanner.py. -/
def isAlphaC (c : Char) : Bool :=
  decide (('a' ≤ c ∧ c ≤ 'z') ∨ ('A' ≤ c ∧ c ≤ 'Z') ∨ c = '_')

/-- `_isalnum` from scanner.py. -/
def isAlnumC (c : Char) : Bool := isAlphaC c || isDigitC c

/-- `Scanner._peek`: the character at `pos`, or `'\x00'` past the end. -/
def peekC (s : List Char) (pos : Nat) : Char := s.getD pos '\x00'

/-- `Scanner._match`: does the character at `pos` exist and equal
`expected`?  (The caller advances by one when it does.) -/
def matchC (s : List Char) (pos : Nat) (expected : Char) : Bool :=
  if s.length ≤ pos then false else peekC s pos == expected

/-- A scan loop of the shape `while cond(peek) and not at_end: advance`,
with the remaining input length as structural fuel (the loop advances by
one position per iteration, so `s.length - pos` iterations always suffice,
see `consumeWhile_eq`). -/
def consumeWhileAux (p : Char → Bool) (s : List Char) : Nat → Nat → Nat
  | 0, pos => pos
  | k + 1, pos => if p (peekC s pos) then consumeWhileAux p s k (pos + 1) else pos

/-- The first position at or after `pos` where the loop condition fails or
the input ends: the string, number, identifier and comment loops of
scanner.py. -/
def consumeWhile (p : Char → Bool) (s : List Char) (pos : Nat) : Nat :=
  consumeWhileAux p s (s.length - pos) pos

/-- `consumeWhile` satisfies the defining equation of the source loop. -/
theorem consumeWhile_eq (p : Char → Bool) (s : List Char) (pos : Nat) :
    consumeWhile p s pos =
      if s.length ≤ pos then pos
      else if p (peekC s pos) then consumeWhile p s (pos + 1) else pos := by
  unfold consumeWhile
  rcases h : s.length - pos with _ | k
  · rw [if_pos (by omega)]
    rfl
  · rw [if_neg (by omega)]
    have hk : s.length - (pos + 1) = k := by omega
    rw [hk]
    rfl

/-- `Scanner._token`: build a token whose lexeme is `source[start:pos]`.
Note the source stores `self._pos` — the position one past the lexeme —
in the token's `offset` field. -/
def mkToken (s : List Char) (ty : TokenType) (lit : Option Lit)
    (start pos : Nat) : Token :=
  { type := ty
    lexeme := (s.drop start).take (pos - start)
    literal := lit
    offset := pos
    length := pos - start }

/-- Numeric value of a digit character. -/
def digitVal (c : Char) : ℚ := ((c.toNat - '0'.toNat : Nat) : ℚ)

/-- Value of the integer part of a numeric lexeme. -/
def intVal (ds : List Char) : ℚ := ds.foldl (fun a c => 10 * a + digitVal c) 0

/-- Value of the fractional part of a numeric lexeme. -/
def fracVal (ds : List Char) : ℚ := ds.foldr (fun c a => (digitVal c + a) / 10) 0

/-- `float(...)` applied to a numeric lexeme (digits, optionally followed
by `.` and digits), modelled exactly over ℚ. -/
def floatOfChars (cs : List Char) : ℚ :=
  intVal (cs.takeWhile (· ≠ '.')) +
    (match cs.dropWhile (· ≠ '.') with
      | [] => 0
      | _ :: fs => fracVal fs)

/-- The keyword table `_KEYWORD_TOKENS` from scanner.py. -/
def keywordTable : List (List Char × TokenType) :=
  [("and".toList, .AND), ("class".toList, .CLASS), ("else".toList, .ELSE),
   ("false".toList, .FALSE), ("for".toList, .FOR), ("fun".toList, .FUN),
   ("if".toList, .IF), ("nil".toList, .NIL), ("or".toList, .OR),
   ("print".toList, .PRINT), ("return".toList, .RETURN), ("super".toList, .SUPER),
   ("this".toList, .THIS), ("true".toList, .TRUE), ("var".toList, .VAR),
   ("while".toList, .WHILE)]

/-- `_KEYWORD_TOKENS.get(ident, T.IDENTIFIER)` (`Scanner._identifier`). -/
def keywordOrIdent (cs : List Char) : TokenType :=
  ((keywordTable.find? (fun kv => kv.1 == cs)).map Prod.snd).getD .IDENTIFIER

/-- Result of one `Scanner._scan_token` step: the produced token (if any),
the new scan position, and the reported scan error (if any). -/
def ScanStepRes := Option Token × Nat × Option (List Char)

/-- `Scanner._string`: consume up to the closing quote; on end of input
report `Unterminated string` and produce no token, otherwise produce a
`STRING` token whose payload is the source between the quotes. -/
def stringTok (s : List Char) (start pos : Nat) : ScanStepRes :=
  let p := consumeWhile (fun ch => ch != '"') s pos
  if s.length ≤ p then
    (none, p, some "Unterminated string".toList)
  else
    (some (mkToken s .STRING
        (some (.str ((s.drop (start + 1)).take (p - (start + 1))))) start (p + 1)),
      p + 1, none)

/-- `Scanner._number`: digits, optionally followed by `.` and at least one
digit (a trailing `.` is not consumed). -/
def numberTok (s : List Char) (start pos : Nat) : ScanStepRes :=
  let p1 := consumeWhile isDigitC s pos
  let p2 := if peekC s p1 = '.' ∧ isDigitC (peekC s (p1 + 1)) then
      consumeWhile isDigitC s (p1 + 1)
    else p1
  (some (mkToken s .NUMBER
      (some (.num (floatOfChars ((s.drop start).take (p2 - start))))) start p2),
    p2, none)

/-- `Scanner._identifier`: alphanumeric tail, then the keyword lookup. -/
def identTok (s : List Char) (start pos : Nat) : ScanStepRes :=
  let p := consumeWhile isAlnumC s pos
  (some (mkToken s (keywordOrIdent ((s.drop start).take (p - start))) none start p),
    p, none)

/-- `self._token(TWO if self._match('=') else ONE)`: the two-character
operator recognition of scanner.py. -/
def opEqTok (s : List Char) (start : Nat) (two one : TokenType) : ScanStepRes :=
  if matchC s (start + 1) '=' then
    (some (mkToken s two none start (start + 2)), start + 2, none)
  else
    (some (mkToken s one none start (start + 1)), start + 1, none)

/-- The `'/'` case of `_scan_token`: a `//` line comment produces no token,
otherwise a `SLASH` token. -/
def slashTok (s : List Char) (start : Nat) : ScanStepRes :=
  if matchC s (start + 1) '/' then
    (none, consumeWhile (fun ch => ch != '\n') s (start + 2), none)
  else
    (some (mkToken s .SLASH none start (start + 1)), start + 1, none)

/-- `Scanner._scan_token`: advance over one character and dispatch. -/
def scanStep (s : List Char) (start : Nat) : ScanStepRes :=
  let pos := start + 1
  match s.getD start '\x00' with
  | '(' => (some (mkToken s .LEFT_PAREN none start pos), pos, none)
  | ')' => (some (mkToken s .RIGHT_PAREN none start pos), pos, none)
  | '{' => (some (mkToken s .LEFT_BRACE none start pos), pos, none)
  | '}' => (some (mkToken s .RIGHT_BRACE none start pos), pos, none)
  | ',' => (some (mkToken s .COMMA none start pos), pos, none)
  | '.' => (some (mkToken s .DOT none start pos), pos, none)
  | '-' => (some (mkToken s .MINUS none start pos), pos, none)
  | '+' => (some (mkToken s .PLUS none start pos), pos, none)
  | ';' => (some (mkToken s .SEMICOLON none start pos), pos, none)
  | '*' => (some (mkToken s .STAR none start pos), pos, none)
  | '!' => opEqTok s start .BANG_EQ .BANG
  | '=' => opEqTok s start .EQ_EQ .EQ
  | '<' => opEqTok s start .LT_EQ .LT
  | '>' => opEqTok s start .GT_EQ .GT
  | '/' => slashTok s start
  | ' ' => (none, pos, none)
  | '\t' => (none, pos, none)
  | '\r' => (none, pos, none)
  | '\n' => (none, pos, none)
  | '"' => stringTok s start pos
  | c =>
    if isDigitC c then numberTok s start pos
    else if isAlphaC c then identTok s start pos
    else (none, pos, some "Unexpected character".toList)

theorem consumeWhileAux_ge (p : Char → Bool) (s : List Char) :
    ∀ k pos, pos ≤ consumeWhileAux p s k pos := by
  intro k
  induction k with
  | zero => intro pos; exact le_refl _
  | succ k ih =>
    intro pos
    unfold consumeWhileAux
    split
    · exact le_trans (by omega) (ih (pos + 1))
    · exact le_refl _

theorem consumeWhileAux_le_add (p : Char → Bool) (s : List Char) :
    ∀ k pos, consumeWhileAux p s k pos ≤ pos + k := by
  intro k
  induction k with
  | zero => intro pos; exact le_of_eq rfl
  | succ k ih =>
    intro pos
    unfold consumeWhileAux
    split
    · exact le_trans (ih (pos + 1)) (by omega)
    · omega

theorem consumeWhile_ge (p : Char → Bool) (s : List Char) (pos : Nat) :
    pos ≤ consumeWhile p s pos :=
  consumeWhileAux_ge p s _ pos

theorem consumeWhile_le (p : Char → Bool) (s : List Char) (pos : Nat)
    (h : pos ≤ s.length) : consumeWhile p s pos ≤ s.length := by
  have := consumeWhileAux_le_add p s (s.length - pos) pos
  unfold consumeWhile
  omega

/-- The contract of one `_scan_token` step started at `start`: the scan
position strictly advances, it never overruns the source, and every
produced token is a `_token`-shaped token ending at the new position. -/
def StepOK (s : List Char) (start : Nat) (r : ScanStepRes) : Prop :=
  start < r.2.1 ∧ (start < s.length → r.2.1 ≤ s.length) ∧
    ∀ t, r.1 = some t → ∃ ty lit, t = mkToken s ty lit start r.2.1 ∧ ty ≠ .EOF

theorem stepOK_single (s : List Char) (start : Nat) (ty : TokenType)
    (lit : Option Lit) (h : ty ≠ .EOF) :
    StepOK s start (some (mkToken s ty lit start (start + 1)), start + 1, none) := by
  refine ⟨by simp, by dsimp only; omega, ?_⟩
  rintro t ht
  exact ⟨ty, lit, by simpa using ht.symm, h⟩

theorem stepOK_skip (s : List Char) (start : Nat) (e : Option (List Char)) :
    StepOK s start (none, start + 1, e) := by
  exact ⟨by simp, by dsimp only; omega, by rintro t ⟨⟩⟩

theorem stepOK_opEq (s : List Char) (start : Nat) (two one : TokenType)
    (h2 : two ≠ .EOF) (h1 : one ≠ .EOF) :
    StepOK s start (opEqTok s start two one) := by
  unfold opEqTok
  split
  · next hm =>
    refine ⟨by simp, ?_, ?_⟩
    · intro _
      unfold matchC at hm
      split at hm
      · exact absurd hm (by simp)
      · dsimp only
        omega
    · rintro t ht
      exact ⟨two, none, by simpa using ht.symm, h2⟩
  · exact stepOK_single s start one none h1

theorem stepOK_slash (s : List Char) (start : Nat) :
    StepOK s start (slashTok s start) := by
  unfold slashTok
  split
  · next hm =>
    have hlt : start + 1 < s.length := by
      unfold matchC at hm
      split at hm
      · exact absurd hm (by simp)
      · omega
    refine ⟨?_, ?_, by rintro t ⟨⟩⟩
    · have := consumeWhile_ge (fun ch => ch != '\n') s (start + 2)
      dsimp only
      omega
    · intro _
      have := consumeWhile_le (fun ch => ch != '\n') s (start + 2) (by omega)
      dsimp only
      omega
  · exact stepOK_single s start .SLASH none (by simp)

theorem keywordOrIdent_ne_eof (cs : List Char) : keywordOrIdent cs ≠ .EOF := by
  unfold keywordOrIdent
  cases hf : keywordTable.find? (fun kv => kv.1 == cs) with
  | none => simp
  | some kv =>
    have hm : kv ∈ keywordTable := List.mem_of_find?_eq_some hf
    fin_cases hm <;> simp

theorem stepOK_string (s : List Char) (start : Nat) :
    StepOK s start (stringTok s start (start + 1)) := by
  have hge := consumeWhile_ge (fun ch => ch != '"') s (start + 1)
  simp only [stringTok]
  set p := consumeWhile (fun ch => ch != '"') s (start + 1) with hp
  split
  · next hend =>
    refine ⟨by dsimp only; omega, ?_, by rintro t ⟨⟩⟩
    intro hlt
    have := consumeWhile_le (fun ch => ch != '"') s (start + 1) (by omega)
    dsimp only
    omega
  · next hend =>
    simp only [not_le] at hend
    refine ⟨by dsimp only; omega, by dsimp only; omega, ?_⟩
    rintro t ht
    exact ⟨.STRING, _, by simpa using ht.symm, by simp⟩

theorem stepOK_number (s : List Char) (start : Nat) :
    StepOK s start (numberTok s start (start + 1)) := by
  have h1ge := consumeWhile_ge isDigitC s (start + 1)
  simp only [numberTok]
  set p1 := consumeWhile isDigitC s (start + 1) with hp1
  split
  · next hdot =>
    have hdotlt : p1 < s.length := by
      by_contra hc
      push_neg at hc
      have hz : peekC s p1 = '\x00' := List.getD_eq_default s _ hc
      rw [hz] at hdot
      exact absurd hdot.1 (by decide)
    have h2ge := consumeWhile_ge isDigitC s (p1 + 1)
    have h2le := consumeWhile_le isDigitC s (p1 + 1) (by omega)
    refine ⟨by dsimp only; omega, by dsimp only; omega, ?_⟩
    rintro t ht
    exact ⟨.NUMBER, _, by simpa using ht.symm, by simp⟩
  · refine ⟨by dsimp only; omega, ?_, ?_⟩
    · intro hlt
      have := consumeWhile_le isDigitC s (start + 1) (by omega)
      dsimp only
      omega
    · rintro t ht
      exact ⟨.NUMBER, _, by simpa using ht.symm, by simp⟩

theorem stepOK_ident (s : List Char) (start : Nat) :
    StepOK s start (identTok s start (start + 1)) := by
  have hge := consumeWhile_ge isAlnumC s (start + 1)
  simp only [identTok]
  set p := consumeWhile isAlnumC s (start + 1) with hp
  refine ⟨by dsimp only; omega, ?_, ?_⟩
  · intro hlt
    have := consumeWhile_le isAlnumC s (start + 1) (by omega)
    dsimp only
    omega
  · rintro t ht
    exact ⟨_, none, by simpa using ht.symm, keywordOrIdent_ne_eof _⟩

theorem scanStep_ok (s : List Char) (start : Nat) :
    StepOK s start (scanStep s start) := by
  unfold scanStep
  simp only
  split
  all_goals first
    | exact stepOK_single s start _ none (by simp)
    | exact stepOK_skip s start _
    | exact stepOK_opEq s start _ _ (by simp) (by simp)
    | exact stepOK_slash s start
    | exact stepOK_string s start
    | (split
       · exact stepOK_number s start
       · split
         · exact stepOK_ident s start
         · exact stepOK_skip s start _)

/-- `Scanner.tokens`: the scanning loop, with the remaining input length
as structural fuel (each `_scan_token` step strictly advances the scan
position, see `scanStep_ok`, so `s.length - pos` iterations always
suffice).  While not at the end, align the start pointer and scan one
token; finally yield exactly one `EOF` token with empty lexeme.  Scan
errors are collected separately (the logger). -/
def scanFromAux (s : List Char) : Nat → Nat → List Token × List (List Char)
  | 0, pos => ([⟨.EOF, [], none, pos, 0⟩], [])
  | k + 1, pos =>
    if pos < s.length then
      let r := scanStep s pos
      let rest := scanFromAux s k r.2.1
      ((match r.1 with | some t => t :: rest.1 | none => rest.1),
       (match r.2.2 with | some e => e :: rest.2 | none => rest.2))
    else
      ([⟨.EOF, [], none, pos, 0⟩], [])

/-- `scan(source, logger)`: all tokens of a source, plus the scan errors
reported to the logger, in order. -/
def scanChars (s : List Char) : List Token × List (List Char) :=
  scanFromAux s s.length 0

/-- The substring of `s` of length `len` starting at `off` (Python
`s[off : off + len]`). -/
def substrAt (s : List Char) (off len : Nat) : List Char := (s.drop off).take len

theorem scanFromAux_tokens_spec (s : List Char) :
    ∀ (k pos : Nat), pos ≤ s.length → s.length ≤ k + pos →
    (∃ pre, (scanFromAux s k pos).1 = pre ++ [⟨.EOF, [], none, s.length, 0⟩] ∧
        ∀ t ∈ pre, t.type ≠ .EOF) ∧
      (∀ t ∈ (scanFromAux s k pos).1, pos ≤ t.offset ∧
        t.length ≤ t.offset ∧ t.lexeme = substrAt s (t.offset - t.length) t.length) ∧
      List.Chain' (· ≤ ·) ((scanFromAux s k pos).1.map Token.offset) := by
  intro k
  induction k with
  | zero =>
    intro pos hle hfuel
    have : pos = s.length := by omega
    subst this
    refine ⟨⟨[], by simp [scanFromAux], by simp⟩, ?_, by simp [scanFromAux]⟩
    rintro t ht
    simp only [scanFromAux, List.mem_singleton] at ht
    subst ht
    exact ⟨le_refl _, by simp, by simp [substrAt]⟩
  | succ k ih =>
    intro pos hle hfuel
    by_cases hlt : pos < s.length
    · obtain ⟨hadv, hlen, hshape⟩ := scanStep_ok s pos
      have hrle : (scanStep s pos).2.1 ≤ s.length := hlen hlt
      obtain ⟨⟨pre, hpre, hpre_ne⟩, hall, hchain⟩ :=
        ih (scanStep s pos).2.1 hrle (by omega)
      cases hr1 : (scanStep s pos).1 with
      | none =>
        have hmain : (scanFromAux s (k + 1) pos).1 =
            (scanFromAux s k (scanStep s pos).2.1).1 := by
          simp only [scanFromAux, if_pos hlt, hr1]
        rw [hmain]
        exact ⟨⟨pre, hpre, hpre_ne⟩,
          fun t ht => ⟨le_trans (le_of_lt hadv) (hall t ht).1, (hall t ht).2⟩, hchain⟩
      | some t0 =>
        obtain ⟨ty, lit, ht0, htyne⟩ := hshape t0 hr1
        have ht0off : t0.offset = (scanStep s pos).2.1 := by rw [ht0]; rfl
        have ht0len : t0.length = (scanStep s pos).2.1 - pos := by rw [ht0]; rfl
        have ht0lex : t0.lexeme = (s.drop pos).take ((scanStep s pos).2.1 - pos) := by
          rw [ht0]; rfl
        have hmain : (scanFromAux s (k + 1) pos).1 =
            t0 :: (scanFromAux s k (scanStep s pos).2.1).1 := by
          simp only [scanFromAux, if_pos hlt, hr1]
        rw [hmain]
        refine ⟨⟨t0 :: pre, by rw [hpre, List.cons_append], ?_⟩, ?_, ?_⟩
        · intro t ht
          rcases List.mem_cons.1 ht with rfl | ht2
          · rw [ht0]; exact htyne
          · exact hpre_ne t ht2
        · have h1 : pos ≤ t0.offset := by rw [ht0off]; omega
          have h2 : t0.length ≤ t0.offset := by rw [ht0off, ht0len]; omega
          have harg : (scanStep s pos).2.1 - ((scanStep s pos).2.1 - pos) = pos := by
            omega
          have h3 : t0.lexeme = substrAt s (t0.offset - t0.length) t0.length := by
            rw [ht0lex, ht0off, ht0len]
            simp only [substrAt]
            rw [harg]
          intro t ht
          rcases List.mem_cons.1 ht with rfl | ht2
          · exact ⟨h1, h2, h3⟩
          · exact ⟨le_trans (le_of_lt hadv) (hall t ht2).1, (hall t ht2).2⟩
        · rw [List.map_cons, List.chain'_cons']
          refine ⟨?_, hchain⟩
          intro b hb
          cases hx : (scanFromAux s k (scanStep s pos).2.1).1 with
          | nil => rw [hx] at hb; simp at hb
          | cons u us =>
            rw [hx] at hb
            simp only [List.map_cons, List.head?_cons, Option.mem_def,
              Option.some.injEq] at hb
            subst hb
            have := (hall u (by rw [hx]; exact List.mem_cons_self u us)).1
            omega
    · have hpe : pos = s.length := by omega
      subst hpe
      refine ⟨⟨[], by simp [scanFromAux, hlt], by simp⟩, ?_, by simp [scanFromAux, hlt]⟩
      rintro t ht
      simp only [scanFromAux, if_neg hlt, List.mem_singleton] at ht
      subst ht
      exact ⟨le_refl _, by simp, by simp [substrAt]⟩

/-- C5: for every source, the scanner's output is a finite token sequence
whose offsets are non-decreasing and which contains exactly one `EOF`
token, appearing last, with empty lexeme. -/
theorem C5_scan_terminates_eof_offsets (s : List Char) :
    ∃ pre errs, scanChars s = (pre ++ [⟨.EOF, [], none, s.length, 0⟩], errs) ∧
      (∀ t ∈ pre, t.type ≠ .EOF) ∧
      List.Chain' (· ≤ ·) ((scanChars s).1.map Token.offset) := by
  obtain ⟨⟨pre, hpre, hne⟩, _, hchain⟩ :=
    scanFromAux_tokens_spec s s.length 0 (Nat.zero_le _) (by omega)
  exact ⟨pre, (scanChars s).2, Prod.ext hpre rfl, hne, hchain⟩

/-- C4 (counterexample): on source `"ab"` the scanner produces the
identifier token with lexeme `ab`, offset 2 and length 2 — but the
substring of length 2 starting at offset 2 is empty, so the lexeme is not
the substring starting at the token's offset. -/
theorem C4_offset_counterexample :
    (scanChars "ab".toList).1.head? =
        some ⟨.IDENTIFIER, "ab".toList, none, 2, 2⟩ ∧
      substrAt "ab".toList 2 2 = [] ∧ "ab".toList ≠ [] := by
  decide

/-- C4 (amended): every token's lexeme is the substring of the source of
the token's length ending at the token's offset — the offset field stores
the position one past the lexeme, so the lexeme starts at
`offset − length`. -/
theorem C4_lexeme_substring_at_offset_minus_length (s : List Char) (t : Token)
    (ht : t ∈ (scanChars s).1) :
    t.length ≤ t.offset ∧ t.lexeme = substrAt s (t.offset - t.length) t.length :=
  ((scanFromAux_tokens_spec s s.length 0 (Nat.zero_le _) (by omega)).2.1 t ht).2

/-- Witness for the amended C4 at a concrete source and token. -/
theorem C4_lexeme_substring_witness :
    ∃ t, t ∈ (scanChars "ab".toList).1 ∧
      t.length ≤ t.offset ∧ t.lexeme = substrAt "ab".toList (t.offset - t.length) t.length := by
  have hh : (scanChars "ab".toList).1.head? =
      some ⟨.IDENTIFIER, "ab".toList, none, 2, 2⟩ := C4_offset_counterexample.1
  have hm : (⟨.IDENTIFIER, "ab".toList, none, 2, 2⟩ : Token) ∈ (scanChars "ab".toList).1 :=
    List.mem_of_mem_head? hh
  exact ⟨_, hm, C4_lexeme_substring_at_offset_minus_length "ab".toList _ hm⟩

/-! ## Runtime errors (log.py / host exceptions) -/

/-- A runtime outcome tag: `lox` is a `LoxRuntimeError` (carrying the
faulting token and message); `hostKeyError` and `hostAttrError` are the
host Python `KeyError` / `AttributeError` exceptions, which are *not* Lox
runtime errors; `hostBug` marks configurations unreachable from the source
(a dangling arena index or exhausted chain fuel), used to keep the
embedding total. -/
inductive RTErr where
  | lox (tok : Token) (msg : List Char)
  | hostKeyError
  | hostAttrError
  | hostTypeError
  | hostParseError
  | hostBug
deriving DecidableEq, Repr

/-- Is the outcome a `LoxRuntimeError`? -/
def isLoxErr {β : Type} : Except RTErr β → Bool
  | .error (.lox _ _) => true
  | _ => false

/-- The message of `Undefined variable '<name>'`. -/
def undefinedVarMsg (name : List Char) : List Char :=
  "Undefined variable \x27".toList ++ name ++ [.mk 0x27 (by decide)]

/-! ## Environment (environment.py)

Python environments are heap objects with a mutable `_bindings` dict and
an immutable `enclosing` reference; they are shared between closures.  We
model the heap as an arena: an environment is an index into a list of
frames, and the `enclosing` field stores the parent's index.  Values are a
type parameter, as in the source (`object`). -/

/-- One environment frame: a name→value mapping plus the parent index. -/
structure Frame (α : Type) where
  bindings : List (List Char × α)
  enclosing : Option Nat
deriving Repr, DecidableEq

/-- The arena of all allocated frames; an environment is an index. -/
abbrev EnvArena (α : Type) : Type := List (Frame α)

/-- `self._bindings[name] = value` on a dict modelled as an association
list (insertion order preserved, as in Python). -/
def setBinding {α : Type} (bs : List (List Char × α)) (name : List Char) (v : α) :
    List (List Char × α) :=
  match bs with
  | [] => [(name, v)]
  | (k, w) :: rest =>
    if k = name then (k, v) :: rest else (k, w) :: setBinding rest name v

/-- `self._bindings[name]` / `name in self._bindings`. -/
def getBinding {α : Type} (bs : List (List Char × α)) (name : List Char) : Option α :=
  match bs with
  | [] => none
  | (k, w) :: rest => if k = name then some w else getBinding rest name

/-- The frame stored at arena index `e`. -/
def frameAt {α : Type} (st : EnvArena α) (e : Nat) : Option (Frame α) :=
  List.get? st e

/-- Allocate a fresh frame (`Environment(enclosing)`), returning its index. -/
def pushEnv {α : Type} (st : EnvArena α) (enclosing : Option Nat) : EnvArena α × Nat :=
  (st ++ [⟨[], enclosing⟩], st.length)

/-- `Environment.define`: unconditionally set the name in this frame. -/
def defineE {α : Type} (st : EnvArena α) (e : Nat) (name : List Char) (v : α) :
    EnvArena α :=
  match frameAt st e with
  | none => st
  | some f => st.set e ⟨setBinding f.bindings name v, f.enclosing⟩

/-- `Environment.get`, with fuel for the parent recursion (any fuel above
the chain length is equivalent; dangling indices and exhausted fuel are
unreachable from the source and map to `hostBug`). -/
def getEAux {α : Type} (st : EnvArena α) : Nat → Nat → Token → Except RTErr α
  | 0, _, _ => .error .hostBug
  | fuel + 1, e, name =>
    match frameAt st e with
    | none => .error .hostBug
    | some f =>
      match getBinding f.bindings name.lexeme with
      | some v => .ok v
      | none =>
        match f.enclosing with
        | some p => getEAux st fuel p name
        | none => .error (.lox name (undefinedVarMsg name.lexeme))

/-- `Environment.get`: this frame, else the parent chain, else the
`Undefined variable` Lox error. -/
def getE {α : Type} (st : EnvArena α) (e : Nat) (name : Token) : Except RTErr α :=
  getEAux st (e + 1) e name

/-- `Environment.assign`, with fuel as in `getEAux`. -/
def assignEAux {α : Type} (st : EnvArena α) :
    Nat → Nat → Token → α → Except RTErr (EnvArena α)
  | 0, _, _, _ => .error .hostBug
  | fuel + 1, e, name, v =>
    match frameAt st e with
    | none => .error .hostBug
    | some f =>
      if (getBinding f.bindings name.lexeme).isSome then
        .ok (st.set e ⟨setBinding f.bindings name.lexeme v, f.enclosing⟩)
      else
        match f.enclosing with
        | some p => assignEAux st fuel p name v
        | none => .error (.lox name (undefinedVarMsg name.lexeme))

/-- `Environment.assign`: set where present, else recurse into the parent,
else the `Undefined variable` Lox error. -/
def assignE {α : Type} (st : EnvArena α) (e : Nat) (name : Token) (v : α) :
    Except RTErr (EnvArena α) :=
  assignEAux st (e + 1) e name v

/-- `Environment._ancestor`: walk exactly `dist` parent links.  The walk
itself never checks for `None` (the source `cast` does nothing at run
time): a missing parent makes the running value `None`, and one more step
— or the final `_bindings` access — raises the host `AttributeError`. -/
def ancestorE {α : Type} (st : EnvArena α) : Option Nat → Nat → Except RTErr (Option Nat)
  | oe, 0 => .ok oe
  | some e, d + 1 =>
    match frameAt st e with
    | none => .error .hostBug
    | some f => ancestorE st f.enclosing d
  | none, _ + 1 => .error .hostAttrError

/-- `Environment.get_at`: read the name directly in the frame exactly
`dist` links up; an absent name is a host `KeyError`, not a Lox error. -/
def getAtE {α : Type} (st : EnvArena α) (e dist : Nat) (name : List Char) :
    Except RTErr α :=
  match ancestorE st (some e) dist with
  | .error err => .error err
  | .ok none => .error .hostAttrError
  | .ok (some a) =>
    match frameAt st a with
    | none => .error .hostBug
    | some f =>
      match getBinding f.bindings name with
      | some v => .ok v
      | none => .error .hostKeyError

/-- `Environment.assign_at`: write the name directly in the frame exactly
`dist` links up, creating the binding if absent. -/
def assignAtE {α : Type} (st : EnvArena α) (e dist : Nat) (name : Token) (v : α) :
    Except RTErr (EnvArena α) :=
  match ancestorE st (some e) dist with
  | .error err => .error err
  | .ok none => .error .hostAttrError
  | .ok (some a) =>
    match frameAt st a with
    | none => .error .hostBug
    | some f => .ok (st.set a ⟨setBinding f.bindings name.lexeme v, f.enclosing⟩)

/-- Arena well-formedness: parent links always point to earlier frames
(in the source every `enclosing` is an environment that already existed
when the frame was constructed, and the field is `Final`). -/
def EnvWF {α : Type} (st : EnvArena α) : Prop :=
  ∀ e f p, frameAt st e = some f → f.enclosing = some p → p < e

/-- The name is bound nowhere on the (rooted) chain starting at `e`. -/
inductive UnboundFrom {α : Type} (st : EnvArena α) (name : List Char) : Nat → Prop where
  | root (e : Nat) (f : Frame α) : frameAt st e = some f →
      getBinding f.bindings name = none → f.enclosing = none → UnboundFrom st name e
  | step (e : Nat) (f : Frame α) (p : Nat) : frameAt st e = some f →
      getBinding f.bindings name = none → f.enclosing = some p →
      UnboundFrom st name p → UnboundFrom st name e

theorem getBinding_setBinding_self {α : Type} (bs : List (List Char × α))
    (name : List Char) (v : α) :
    getBinding (setBinding bs name v) name = some v := by
  induction bs with
  | nil => simp [setBinding, getBinding]
  | cons kv rest ih =>
    obtain ⟨k, w⟩ := kv
    by_cases hk : k = name
    · simp [setBinding, getBinding, hk]
    · simp [setBinding, getBinding, hk, ih]

theorem ancestorE_not_lox {α : Type} (st : EnvArena α) :
    ∀ (d : Nat) (oe : Option Nat) (tok : Token) (msg : List Char),
      ancestorE st oe d ≠ .error (.lox tok msg) := by
  intro d
  induction d with
  | zero => intro oe tok msg; cases oe <;> simp [ancestorE]
  | succ d ih =>
    intro oe tok msg
    cases oe with
    | none => simp [ancestorE]
    | some e =>
      cases hf : frameAt st e with
      | none => simp [ancestorE, hf]
      | some f => simpa [ancestorE, hf] using ih f.enclosing tok msg

theorem assignEAux_unbound {α : Type} (st : EnvArena α) (name : Token) (v : α)
    (hwf : EnvWF st) :
    ∀ (e : Nat), UnboundFrom st name.lexeme e → ∀ fuel, e < fuel →
      assignEAux st fuel e name v = .error (.lox name (undefinedVarMsg name.lexeme)) := by
  intro e hu
  induction hu with
  | root e f hf hb henc =>
    intro fuel hfl
    rcases fuel with _ | fuel
    · omega
    · simp [assignEAux, hf, hb, henc]
  | step e f p hf hb henc _hu ih =>
    intro fuel hfl
    rcases fuel with _ | fuel
    · omega
    · have hpe : p < e := hwf e f p hf henc
      simp only [assignEAux, hf, hb, Option.isSome_none, Bool.false_eq_true, if_false, henc]
      exact ih fuel (by omega)

/-- C10: the distance-indexed environment operations never raise the Lox
`Undefined variable` error: whenever the chain from `e` is longer than
`d`, `assign_at` unconditionally writes into the frame exactly `d` links
up, creating the binding if absent — unlike `assign`, which raises
`Undefined variable` when the name is bound nowhere on the chain — and
`get_at` of a name unbound in that frame fails with the host `KeyError`,
not a Lox runtime error. -/
theorem C10_distance_ops_never_undefined (α : Type) :
    (∀ (st : EnvArena α) (e d : Nat) (tok : Token) (v : α) (a : Nat) (f : Frame α),
        ancestorE st (some e) d = .ok (some a) → frameAt st a = some f →
        assignAtE st e d tok v =
            .ok (st.set a ⟨setBinding f.bindings tok.lexeme v, f.enclosing⟩) ∧
          getBinding (setBinding f.bindings tok.lexeme v) tok.lexeme = some v) ∧
    (∀ (st : EnvArena α) (e : Nat) (tok : Token) (v : α),
        EnvWF st → UnboundFrom st tok.lexeme e →
        assignE st e tok v = .error (.lox tok (undefinedVarMsg tok.lexeme))) ∧
    (∀ (st : EnvArena α) (e d : Nat) (name : List Char) (a : Nat) (f : Frame α),
        ancestorE st (some e) d = .ok (some a) → frameAt st a = some f →
        getBinding f.bindings name = none →
        getAtE st e d name = .error .hostKeyError) ∧
    (∀ (st : EnvArena α) (e d : Nat) (name : List Char) (tok : Token) (v : α),
        isLoxErr (getAtE st e d name) = false ∧
          isLoxErr (assignAtE st e d tok v) = false) := by
  refine ⟨?_, ?_, ?_, ?_⟩
  · intro st e d tok v a f ha hf
    refine ⟨?_, getBinding_setBinding_self f.bindings tok.lexeme v⟩
    simp [assignAtE, ha, hf]
  · intro st e tok v hwf hu
    exact assignEAux_unbound st tok v hwf e hu (e + 1) (by omega)
  · intro st e d name a f ha hf hb
    simp [getAtE, ha, hf, hb]
  · intro st e d name tok v
    constructor
    · unfold getAtE
      cases ha : ancestorE st (some e) d with
      | error err =>
        cases err with
        | lox t m => exact absurd ha (ancestorE_not_lox st d (some e) t m)
        | hostKeyError => simp [isLoxErr]
        | hostAttrError => simp [isLoxErr]
        | hostTypeError => simp [isLoxErr]
        | hostParseError => simp [isLoxErr]
        | hostBug => simp [isLoxErr]
      | ok oa =>
        cases oa with
        | none => simp [isLoxErr]
        | some a =>
          cases hf : frameAt st a with
          | none => simp [isLoxErr, hf]
          | some f =>
            cases hb : getBinding f.bindings name with
            | none => simp [isLoxErr, hf, hb]
            | some w => simp [isLoxErr, hf, hb]
    · unfold assignAtE
      cases ha : ancestorE st (some e) d with
      | error err =>
        cases err with
        | lox t m => exact absurd ha (ancestorE_not_lox st d (some e) t m)
        | hostKeyError => simp [isLoxErr]
        | hostAttrError => simp [isLoxErr]
        | hostTypeError => simp [isLoxErr]
        | hostParseError => simp [isLoxErr]
        | hostBug => simp [isLoxErr]
      | ok oa =>
        cases oa with
        | none => simp [isLoxErr]
        | some a =>
          cases hf : frameAt st a with
          | none => simp [isLoxErr, hf]
          | some f => simp [isLoxErr, hf]

/-- Witness for C10 on a concrete two-frame chain: the global frame binds
`a`, a child frame is empty; `assign_at(1, a)` from the child writes
the global frame, `assign_at(0, b)` creates a binding, `get_at(0, b)`
is a host `KeyError`, and `assign` of an unbound name is the Lox error. -/
theorem C10_distance_ops_witness :
    (assignAtE [⟨[("a".toList, (1 : ℚ))], none⟩, ⟨[], some 0⟩] 1 1
          ⟨.IDENTIFIER, "a".toList, none, 0, 1⟩ (5 : ℚ) =
        .ok [⟨[("a".toList, (5 : ℚ))], none⟩, ⟨[], some 0⟩]) ∧
      (getAtE [⟨[("a".toList, (1 : ℚ))], none⟩, ⟨[], some 0⟩] 1 0 "b".toList =
        .error .hostKeyError) ∧
      (assignE [⟨[("a".toList, (1 : ℚ))], none⟩, ⟨[], some 0⟩] 1
          ⟨.IDENTIFIER, "b".toList, none, 0, 1⟩ (7 : ℚ) =
        .error (.lox ⟨.IDENTIFIER, "b".toList, none, 0, 1⟩ (undefinedVarMsg "b".toList))) := by
  refine ⟨?_, ?_, ?_⟩
  · have h := (C10_distance_ops_never_undefined ℚ).1
      [⟨[("a".toList, (1 : ℚ))], none⟩, ⟨[], some 0⟩] 1 1
      ⟨.IDENTIFIER, "a".toList, none, 0, 1⟩ (5 : ℚ) 0 ⟨[("a".toList, (1 : ℚ))], none⟩
      (by rfl) (by rfl)
    exact h.1.trans (by rfl)
  · exact (C10_distance_ops_never_undefined ℚ).2.2.1
      [⟨[("a".toList, (1 : ℚ))], none⟩, ⟨[], some 0⟩] 1 0 "b".toList 1 ⟨[], some 0⟩
      (by rfl) (by rfl) (by rfl)
  · refine (C10_distance_ops_never_undefined ℚ).2.1
      [⟨[("a".toList, (1 : ℚ))], none⟩, ⟨[], some 0⟩] 1
      ⟨.IDENTIFIER, "b".toList, none, 0, 1⟩ (7 : ℚ) ?_ ?_
    · intro e f p hf hp
      have he : e < 2 := by
        by_contra hc
        push_neg at hc
        rw [frameAt, List.get?_eq_none.2 (by simpa using hc)] at hf
        exact absurd hf (by simp)
      interval_cases e
      · rw [show frameAt [(⟨[("a".toList, (1 : ℚ))], none⟩ : Frame ℚ), ⟨[], some 0⟩] 0 =
            some ⟨[("a".toList, (1 : ℚ))], none⟩ from rfl] at hf
        cases hf
        cases hp
      · rw [show frameAt [(⟨[("a".toList, (1 : ℚ))], none⟩ : Frame ℚ), ⟨[], some 0⟩] 1 =
            some ⟨[], some 0⟩ from rfl] at hf
        cases hf
        cases hp
        omega
    · refine UnboundFrom.step 1 ⟨[], some 0⟩ 0 (by rfl) (by rfl) (by rfl) ?_
      exact UnboundFrom.root 0 ⟨[("a".toList, (1 : ℚ))], none⟩ (by rfl) (by rfl) (by rfl)

/-! ## AST (ast.py)

Python AST nodes are dataclasses with *identity* semantics (`AstNodeType`
overrides `__eq__`/`__hash__` to `id`).  Every constructor call allocates
a fresh object; we model object identity by a `nid : Nat` carried by every
expression constructor and allocated from a counter wherever the source
constructs a node.  Statements never serve as dictionary keys, so they
carry no identity. -/

/-- The payload of a `Literal` node: `None`, bool, float or str. -/
inductive LitVal where
  | nil
  | bool (b : Bool)
  | num (q : ℚ)
  | str (s : List Char)
deriving DecidableEq, Repr

/-- Expression nodes of ast.py. -/
inductive Expr where
  | assign (nid : Nat) (name : Token) (value : Expr)
  | binary (nid : Nat) (left : Expr) (operator : Token) (right : Expr)
  | call (nid : Nat) (callee : Expr) (paren : Token) (args : List Expr)
  | get (nid : Nat) (object : Expr) (name : Token)
  | grouping (nid : Nat) (expr : Expr)
  | literal (nid : Nat) (value : LitVal)
  | logical (nid : Nat) (left : Expr) (operator : Token) (right : Expr)
  | set (nid : Nat) (object : Expr) (name : Token) (value : Expr)
  | this (nid : Nat) (keyword : Token)
  | unary (nid : Nat) (operator : Token) (operand : Expr)
  | var (nid : Nat) (name : Token)
deriving Repr

/-- The node identity of an expression. -/
def Expr.nidOf : Expr → Nat
  | .assign n _ _ => n
  | .binary n _ _ _ => n
  | .call n _ _ _ => n
  | .get n _ _ => n
  | .grouping n _ => n
  | .literal n _ => n
  | .logical n _ _ _ => n
  | .set n _ _ _ => n
  | .this n _ => n
  | .unary n _ _ => n
  | .var n _ => n

mutual
/-- Statement nodes of ast.py.  `Class` carries a name and its methods
(this stage of the source has no superclass field); `FunctionStmt` is the
`funcS` case, holding a `FunDecl`. -/
inductive Stmt where
  | block (stmts : List Stmt)
  | classS (name : Token) (methods : List FunDecl)
  | exprS (expr : Expr)
  | funcS (decl : FunDecl)
  | ifS (cond : Expr) (thenBranch : Stmt) (elseBranch : Option Stmt)
  | printS (expr : Expr)
  | returnS (keyword : Token) (value : Option Expr)
  | varS (name : Token) (init : Option Expr)
  | whileS (cond : Expr) (body : Stmt)
deriving Repr

/-- `FunctionStmt` of ast.py: name, parameters, body. -/
inductive FunDecl where
  | mk (name : Token) (params : List Token) (body : List Stmt)
deriving Repr
end

def FunDecl.name : FunDecl → Token
  | .mk n _ _ => n

def FunDecl.params : FunDecl → List Token
  | .mk _ p _ => p

def FunDecl.body : FunDecl → List Stmt
  | .mk _ _ b => b

/-! ## Parser (parser.py)

Recursive descent with one-token lookahead.  The parser state holds the
current token, the rest of the token stream, the node-identity counter and
the errors reported to the logger; a `ParseError` is an `Except.error`
carrying the state (the logged errors survive the raise).  The mutual
recursion is paid for with a fuel parameter: every call decrements it, so
any fuel larger than the recursion depth of a run gives the source
behavior (fuel exhaustion is an `Except.error` artifact). -/

structure PState where
  curr : Token
  rest : List Token
  nextNid : Nat
  errs : List (Token × List Char)
deriving Repr

/-- The parser monad: state plus the `ParseError` exception. -/
def PM (α : Type) : Type := PState → Except PState (α × PState)

instance : Monad PM where
  pure a := fun st => .ok (a, st)
  bind x f := fun st =>
    match x st with
    | .ok (a, st2) => f a st2
    | .error e => .error e

/-- `Parser._advance`: return the current token; pull the next one unless
at `EOF`.  (On a scanner stream the rest is never empty before `EOF`.) -/
def advanceT (st : PState) : Token × PState :=
  if st.curr.type = .EOF then (st.curr, st)
  else
    match st.rest with
    | [] => (st.curr, st)
    | t :: ts => (st.curr, { st with curr := t, rest := ts })

def advanceP : PM Token := fun st => .ok (advanceT st)

/-- `Parser._check`. -/
def checkP (ty : TokenType) : PM Bool := fun st => .ok (st.curr.type == ty, st)

/-- `Parser._match_one_of`. -/
def matchOneOf (tys : List TokenType) : PM (Option Token) := fun st =>
  if tys.contains st.curr.type then
    let (t, st2) := advanceT st
    .ok (some t, st2)
  else .ok (none, st)

/-- `Parser._error` without the raise: report to the logger and go on
(used for the argument/parameter caps and invalid assignment targets). -/
def logError (tok : Token) (msg : List Char) : PM Unit := fun st =>
  .ok ((), { st with errs := st.errs ++ [(tok, msg)] })

/-- `raise self._error(token, msg)`: report and throw `ParseError`. -/
def errorThrow {α : Type} (tok : Token) (msg : List Char) : PM α := fun st =>
  .error { st with errs := st.errs ++ [(tok, msg)] }

/-- `Parser._consume`. -/
def pConsume (ty : TokenType) (msg : List Char) : PM Token := fun st =>
  if st.curr.type = ty then .ok (advanceT st)
  else .error { st with errs := st.errs ++ [(st.curr, msg)] }

/-- Allocate a node identity (a Python constructor call). -/
def freshNid : PM Nat := fun st => .ok (st.nextNid, { st with nextNid := st.nextNid + 1 })

/-- The statement-starting keywords of `Parser._synchronize`. -/
def syncTypes : List TokenType :=
  [.CLASS, .FUN, .VAR, .FOR, .IF, .WHILE, .PRINT, .RETURN]

/-- `Parser._synchronize`: advance until after a `;` or to a
statement-starting keyword. -/
def synchronizeP (st : PState) : PState :=
  let (p, st2) := advanceT st
  syncLoop (st2.rest.length + 1) p st2
where
  syncLoop : Nat → Token → PState → PState
    | 0, _, st2 => st2
    | k + 1, prev, st2 =>
      if st2.curr.type = .EOF then st2
      else if prev.type = .SEMICOLON then st2
      else if syncTypes.contains st2.curr.type then st2
      else
        let (p2, st3) := advanceT st2
        syncLoop k p2 st3

/-- Read the parser state (for `self._curr` in error reports). -/
def getStateP : PM PState := fun st => .ok (st, st)

/-- Fuel exhaustion (never reached on runs whose recursion depth is below
the supplied fuel): an `Except.error` artifact of the embedding. -/
def fuelOut {α : Type} : PM α := fun st => .error st

/-- `Literal(lit.literal)`: the literal payload of a `NUMBER`/`STRING`
token as a `Literal` node payload. -/
def litOfToken (t : Token) : LitVal :=
  match t.literal with
  | some (.num q) => .num q
  | some (.str s) => .str s
  | none => .nil

mutual

/-- `Parser._declaration`: var declaration, `fun` declaration or
statement; a `ParseError` is caught, the parser synchronizes and the
declaration yields nothing.  (This stage of the parser has no `classDecl`
alternative.) -/
def pDeclaration : Nat → PM (Option Stmt)
  | 0 => fuelOut
  | k + 1 => fun st =>
    match (do
      match ← matchOneOf [.VAR] with
      | some _ => pVarDecl k
      | none =>
        match ← matchOneOf [.FUN] with
        | some _ => pFunDecl k "function".toList
        | none => pStatement k : PM Stmt) st with
    | .ok (s, st2) => .ok (some s, st2)
    | .error st2 => .ok (none, synchronizeP st2)

/-- `Parser._var_decl`. -/
def pVarDecl : Nat → PM Stmt
  | 0 => fuelOut
  | k + 1 => do
    let name ← pConsume .IDENTIFIER "Expected variable name".toList
    let init ← (do
      match ← matchOneOf [.EQ] with
      | some _ => do let e ← pExpression k; pure (some e)
      | none => pure none)
    let _ ← pConsume .SEMICOLON "Expected \x27;\x27 after variable declaration".toList
    pure (Stmt.varS name init)

/-- `Parser._fun_decl`. -/
def pFunDecl : Nat → List Char → PM Stmt
  | 0, _ => fuelOut
  | k + 1, kind => do
    let name ← pConsume .IDENTIFIER ("Expected ".toList ++ kind ++ " name".toList)
    let _ ← pConsume .LEFT_PAREN ("Expected \x27(\x27 after ".toList ++ kind ++ " name".toList)
    let params ← (do
      if (← checkP .RIGHT_PAREN) then pure [] else pParamsLoop k [])
    let _ ← pConsume .RIGHT_PAREN "Expected \x27)\x27 after parameters".toList
    let _ ← pConsume .LEFT_BRACE ("Expected \x27\x7b\x27 before ".toList ++ kind ++ " body".toList)
    let body ← pBlock k
    pure (Stmt.funcS ⟨name, params, body⟩)

/-- The parameter loop of `_fun_decl` (cap 255, reported but not fatal). -/
def pParamsLoop : Nat → List Token → PM (List Token)
  | 0, _ => fuelOut
  | k + 1, acc => do
    if acc.length > 254 then
      let st ← getStateP
      logError st.curr "Can’t have more than 255 parameters".toList
    else pure ()
    let p ← pConsume .IDENTIFIER "Expected parameter name".toList
    match ← matchOneOf [.COMMA] with
    | some _ => pParamsLoop k (acc ++ [p])
    | none => pure (acc ++ [p])

/-- `Parser._statement`. -/
def pStatement : Nat → PM Stmt
  | 0 => fuelOut
  | k + 1 => do
    match ← matchOneOf [.FOR] with
    | some _ => pForStmt k
    | none =>
    match ← matchOneOf [.IF] with
    | some _ => pIfStmt k
    | none =>
    match ← matchOneOf [.PRINT] with
    | some _ => pPrintStmt k
    | none =>
    match ← matchOneOf [.RETURN] with
    | some kw => pReturnStmt k kw
    | none =>
    match ← matchOneOf [.WHILE] with
    | some _ => pWhileStmt k
    | none =>
    match ← matchOneOf [.LEFT_BRACE] with
    | some _ => do let ss ← pBlock k; pure (Stmt.block ss)
    | none => pExprStmt k

/-- `Parser._for_statement`: desugars into while (a missing condition is
the literal `true`). -/
def pForStmt : Nat → PM Stmt
  | 0 => fuelOut
  | k + 1 => do
    let _ ← pConsume .LEFT_PAREN "Expected \x27(\x27 after \x27for\x27".toList
    let init ← (do
      match ← matchOneOf [.SEMICOLON] with
      | some _ => pure none
      | none =>
        match ← matchOneOf [.VAR] with
        | some _ => do let s ← pVarDecl k; pure (some s)
        | none => do let s ← pExprStmt k; pure (some s))
    let cond ← (do
      if !(← checkP .SEMICOLON) then pExpression k
      else do let n ← freshNid; pure (Expr.literal n (.bool true)))
    let _ ← pConsume .SEMICOLON "Expected \x27;\x27 after loop condition".toList
    let incr ← (do
      if !(← checkP .RIGHT_PAREN) then do let e ← pExpression k; pure (some e)
      else pure none)
    let _ ← pConsume .RIGHT_PAREN "Expected \x27)\x27 after \x27for\x27 clause".toList
    let body0 ← pStatement k
    let body1 := match incr with
      | some i => Stmt.block [body0, Stmt.exprS i]
      | none => body0
    let body2 := Stmt.whileS cond body1
    pure (match init with
      | some i => Stmt.block [i, body2]
      | none => body2)

/-- `Parser._if_statement`. -/
def pIfStmt : Nat → PM Stmt
  | 0 => fuelOut
  | k + 1 => do
    let _ ← pConsume .LEFT_PAREN "Expected \x27(\x27 after \x27if\x27".toList
    let cond ← pExpression k
    let _ ← pConsume .RIGHT_PAREN "Expected \x27)\x27 after if condition".toList
    let thenB ← pStatement k
    let elseB ← (do
      match ← matchOneOf [.ELSE] with
      | some _ => do let s ← pStatement k; pure (some s)
      | none => pure none)
    pure (Stmt.ifS cond thenB elseB)

/-- `Parser._expression_statement`. -/
def pExprStmt : Nat → PM Stmt
  | 0 => fuelOut
  | k + 1 => do
    let e ← pExpression k
    let _ ← pConsume .SEMICOLON "Expected \x27;\x27 after value".toList
    pure (Stmt.exprS e)

/-- `Parser._print_statement`. -/
def pPrintStmt : Nat → PM Stmt
  | 0 => fuelOut
  | k + 1 => do
    let e ← pExpression k
    let _ ← pConsume .SEMICOLON "Expected \x27;\x27 after value".toList
    pure (Stmt.printS e)

/-- `Parser._return_statement`. -/
def pReturnStmt : Nat → Token → PM Stmt
  | 0, _ => fuelOut
  | k + 1, kw => do
    let value ← (do
      if (← checkP .SEMICOLON) then pure none
      else do let e ← pExpression k; pure (some e))
    let _ ← pConsume .SEMICOLON "Expected \x27;\x27 after return value".toList
    pure (Stmt.returnS kw value)

/-- `Parser._while_statement`. -/
def pWhileStmt : Nat → PM Stmt
  | 0 => fuelOut
  | k + 1 => do
    let _ ← pConsume .LEFT_PAREN "Expected \x27(\x27 after \x27while\x27".toList
    let cond ← pExpression k
    let _ ← pConsume .RIGHT_PAREN "Expected \x27)\x27 after loop condition".toList
    let body ← pStatement k
    pure (Stmt.whileS cond body)

/-- `Parser._block` (after the opening brace has been consumed). -/
def pBlock : Nat → PM (List Stmt)
  | 0 => fuelOut
  | k + 1 => do
    let ss ← pBlockLoop k []
    let _ ← pConsume .RIGHT_BRACE "Expected \x27\x7d\x27 after block".toList
    pure ss

/-- The declaration loop of `_block`. -/
def pBlockLoop : Nat → List Stmt → PM (List Stmt)
  | 0, _ => fuelOut
  | k + 1, acc => do
    let st ← getStateP
    if st.curr.type ≠ .RIGHT_BRACE ∧ st.curr.type ≠ .EOF then
      match ← pDeclaration k with
      | some s => pBlockLoop k (acc ++ [s])
      | none => pBlockLoop k acc
    else pure acc

/-- `Parser._expression`. -/
def pExpression : Nat → PM Expr
  | 0 => fuelOut
  | k + 1 => pAssignment k

/-- `Parser._assignment`.  Only a `Variable` target becomes an `Assign`;
an invalid target is reported (the source message carries the node's
repr, which the embedding elides) without throwing. -/
def pAssignment : Nat → PM Expr
  | 0 => fuelOut
  | k + 1 => do
    let expr ← pOr k
    match ← matchOneOf [.EQ] with
    | some eq => do
      let value ← pAssignment k
      match expr with
      | .var _ name => do
        let n ← freshNid
        pure (Expr.assign n name value)
      | _ => do
        logError eq "Invalid assignment target".toList
        pure expr
    | none => pure expr

/-- `Parser._or`. -/
def pOr : Nat → PM Expr
  | 0 => fuelOut
  | k + 1 => do
    let e ← pAnd k
    pOrLoop k e

def pOrLoop : Nat → Expr → PM Expr
  | 0, _ => fuelOut
  | k + 1, e => do
    match ← matchOneOf [.OR] with
    | some op => do
      let right ← pAnd k
      let n ← freshNid
      pOrLoop k (Expr.logical n e op right)
    | none => pure e

/-- `Parser._and`. -/
def pAnd : Nat → PM Expr
  | 0 => fuelOut
  | k + 1 => do
    let e ← pEquality k
    pAndLoop k e

def pAndLoop : Nat → Expr → PM Expr
  | 0, _ => fuelOut
  | k + 1, e => do
    match ← matchOneOf [.AND] with
    | some op => do
      let right ← pEquality k
      let n ← freshNid
      pAndLoop k (Expr.logical n e op right)
    | none => pure e

/-- `Parser._equality`. -/
def pEquality : Nat → PM Expr
  | 0 => fuelOut
  | k + 1 => do
    let e ← pComparison k
    pEqLoop k e

def pEqLoop : Nat → Expr → PM Expr
  | 0, _ => fuelOut
  | k + 1, e => do
    match ← matchOneOf [.BANG_EQ, .EQ_EQ] with
    | some op => do
      let right ← pComparison k
      let n ← freshNid
      pEqLoop k (Expr.binary n e op right)
    | none => pure e

/-- `Parser._comparison`. -/
def pComparison : Nat → PM Expr
  | 0 => fuelOut
  | k + 1 => do
    let e ← pTerm k
    pCompLoop k e

def pCompLoop : Nat → Expr → PM Expr
  | 0, _ => fuelOut
  | k + 1, e => do
    match ← matchOneOf [.GT, .GT_EQ, .LT, .LT_EQ] with
    | some op => do
      let right ← pTerm k
      let n ← freshNid
      pCompLoop k (Expr.binary n e op right)
    | none => pure e

/-- `Parser._term`. -/
def pTerm : Nat → PM Expr
  | 0 => fuelOut
  | k + 1 => do
    let e ← pFactor k
    pTermLoop k e

def pTermLoop : Nat → Expr → PM Expr
  | 0, _ => fuelOut
  | k + 1, e => do
    match ← matchOneOf [.MINUS, .PLUS] with
    | some op => do
      let right ← pFactor k
      let n ← freshNid
      pTermLoop k (Expr.binary n e op right)
    | none => pure e

/-- `Parser._factor`. -/
def pFactor : Nat → PM Expr
  | 0 => fuelOut
  | k + 1 => do
    let e ← pUnary k
    pFactorLoop k e

def pFactorLoop : Nat → Expr → PM Expr
  | 0, _ => fuelOut
  | k + 1, e => do
    match ← matchOneOf [.SLASH, .STAR] with
    | some op => do
      let right ← pUnary k
      let n ← freshNid
      pFactorLoop k (Expr.binary n e op right)
    | none => pure e

/-- `Parser._unary` (prefix plus is parsed and then rejected). -/
def pUnary : Nat → PM Expr
  | 0 => fuelOut
  | k + 1 => do
    match ← matchOneOf [.BANG, .MINUS] with
    | some op => do
      let right ← pUnary k
      let n ← freshNid
      pure (Expr.unary n op right)
    | none =>
      match ← matchOneOf [.PLUS] with
      | some op => do
        let _ ← pUnary k
        errorThrow op "Prefix-plus is not supported".toList
      | none => pCall k

/-- `Parser._call`. -/
def pCall : Nat → PM Expr
  | 0 => fuelOut
  | k + 1 => do
    let e ← pPrimary k
    pCallLoop k e

def pCallLoop : Nat → Expr → PM Expr
  | 0, _ => fuelOut
  | k + 1, e => do
    match ← matchOneOf [.LEFT_PAREN] with
    | some _ => do
      let e2 ← pFinishCall k e
      pCallLoop k e2
    | none => pure e

/-- `Parser._finish_call`. -/
def pFinishCall : Nat → Expr → PM Expr
  | 0, _ => fuelOut
  | k + 1, callee => do
    let args ← (do
      if (← checkP .RIGHT_PAREN) then pure [] else pArgsLoop k [])
    let paren ← pConsume .RIGHT_PAREN "Expected \x27)\x27 after arguments".toList
    let n ← freshNid
    pure (Expr.call n callee paren args)

/-- The argument loop of `_finish_call` (cap 255, reported, not fatal). -/
def pArgsLoop : Nat → List Expr → PM (List Expr)
  | 0, _ => fuelOut
  | k + 1, acc => do
    if acc.length > 254 then
      let st ← getStateP
      logError st.curr "Can’t have more than 255 arguments".toList
    else pure ()
    let a ← pExpression k
    match ← matchOneOf [.COMMA] with
    | some _ => pArgsLoop k (acc ++ [a])
    | none => pure (acc ++ [a])

/-- `Parser._primary`. -/
def pPrimary : Nat → PM Expr
  | 0 => fuelOut
  | k + 1 => do
    match ← matchOneOf [.FALSE] with
    | some _ => do let n ← freshNid; pure (Expr.literal n (.bool false))
    | none =>
    match ← matchOneOf [.TRUE] with
    | some _ => do let n ← freshNid; pure (Expr.literal n (.bool true))
    | none =>
    match ← matchOneOf [.NIL] with
    | some _ => do let n ← freshNid; pure (Expr.literal n .nil)
    | none =>
    match ← matchOneOf [.NUMBER, .STRING] with
    | some lit => do let n ← freshNid; pure (Expr.literal n (litOfToken lit))
    | none =>
    match ← matchOneOf [.IDENTIFIER] with
    | some v => do let n ← freshNid; pure (Expr.var n v)
    | none =>
    match ← matchOneOf [.LEFT_PAREN] with
    | some _ => do
      let e ← pExpression k
      let _ ← pConsume .RIGHT_PAREN "Expected \x27)\x27 after expression".toList
      let n ← freshNid
      pure (Expr.grouping n e)
    | none => do
      let st ← getStateP
      errorThrow st.curr "Expected expression.".toList

/-- `Parser.parse`: the `program → declaration* EOF` loop. -/
def pProgram : Nat → PM (List Stmt)
  | 0 => fuelOut
  | k + 1 => do
    let st ← getStateP
    if st.curr.type = .EOF then pure []
    else
      match ← pDeclaration k with
      | some s => do
        let rest ← pProgram k
        pure (s :: rest)
      | none => pProgram k

end

/-- `parse(tokens, logger)` from a token list: the parsed statements plus
the final parser state (whose `errs` are the logger's parse errors).
`nid0` seeds the node-identity counter. -/
def parseTokens (fuel : Nat) (toks : List Token) (nid0 : Nat) : List Stmt × PState :=
  let st0 : PState :=
    match toks with
    | [] => ⟨⟨.EOF, [], none, 0, 0⟩, [], nid0, []⟩
    | t :: ts => ⟨t, ts, nid0, []⟩
  match pProgram fuel st0 with
  | .ok (ss, st) => (ss, st)
  | .error st => ([], st)

/-- C3: evaluation of the parser at the failing input `class Bagel {}`
(a token sequence derivable from the grammar's `classDecl`): the parser
has no `classDecl` alternative in `_declaration`, so it reports the parse
error `Expected expression.` at the `class` keyword, synchronizes to the
end of input and produces no statement at all — no `Class` statement is
ever constructed, although the repository's own test-suite
(tests/test_classes.py) requires `class Bagel {}` to parse and run. -/
theorem C3_class_declaration_rejected :
    ((parseTokens 50 (scanChars "class Bagel \x7b\x7d".toList).1 0).1.isEmpty = true) ∧
      ((parseTokens 50 (scanChars "class Bagel \x7b\x7d".toList).1 0).2.errs =
        [(⟨.CLASS, "class".toList, none, 5, 5⟩, "Expected expression.".toList)]) ∧
      ((parseTokens 50 (scanChars "class Bagel \x7b\x7d".toList).1 0).2.curr.type = .EOF) := by
  refine ⟨?_, ?_, ?_⟩ <;> decide

/-! ## Runtime values (interpreter.py)

Callables and instances live on the Python heap and compare by identity;
function and class values carry an `oid` allocated from a counter, and
instances are indices into an instance arena, mirroring object identity.
-/

/-- `LoxFunction`: declaration, captured environment (`_enclosing`, an
arena index) and the initializer flag. -/
structure FnVal where
  oid : Nat
  decl : FunDecl
  enclosing : Nat
  isInit : Bool
deriving Repr

/-- `LoxClass`: name, optional superclass, method table (insertion order,
as a Python dict). -/
inductive ClassVal where
  | mk (oid : Nat) (name : List Char) (superclass : Option ClassVal)
      (methods : List (List Char × FnVal))
deriving Repr

def ClassVal.oid : ClassVal → Nat
  | .mk o _ _ _ => o

def ClassVal.name : ClassVal → List Char
  | .mk _ n _ _ => n

def ClassVal.superclass : ClassVal → Option ClassVal
  | .mk _ _ s _ => s

def ClassVal.methods : ClassVal → List (List Char × FnVal)
  | .mk _ _ _ m => m

/-- The two native functions pre-defined in the global frame. -/
inductive NativeId where
  | clock
  | printf
deriving DecidableEq, Repr

/-- Lox runtime values (a tagged union over the host's `object`): `nil`,
booleans, numbers, strings, functions, classes, instances (arena index),
natives — and `vexpr`, an AST node leaked as a runtime value (Python is
untyped; `_evaluate` of an `Assign` returns the RHS *node*). -/
inductive Value where
  | nil
  | bool (b : Bool)
  | num (q : ℚ)
  | str (s : List Char)
  | fn (f : FnVal)
  | cls (c : ClassVal)
  | inst (i : Nat)
  | native (n : NativeId)
  | vexpr (e : Expr)
deriving Repr

/-- `LoxInstance`: its class and the mutable field map. -/
structure InstData where
  cls : ClassVal
  fields : List (List Char × Value)
deriving Repr

/-- `LoxClass.find_method`: this class's table, else the superclass chain. -/
def ClassVal.findMethod : ClassVal → List Char → Option FnVal
  | .mk _ _ sup methods, name =>
    match getBinding methods name with
    | some m => some m
    | none =>
      match sup with
      | some s => s.findMethod name
      | none => none

/-- `LoxClass.arity`: the arity of `init`, or 0. -/
def ClassVal.arity (c : ClassVal) : Nat :=
  match c.findMethod "init".toList with
  | some i => i.decl.params.length
  | none => 0

/-- The arity of any callable (`LoxFunction.arity`, `LoxClass.arity`,
`native_fun_wrapper.arity`: parameter count minus the interpreter). -/
def arityOf : Value → Nat
  | .fn f => f.decl.params.length
  | .cls c => c.arity
  | .native .clock => 0
  | .native .printf => 1
  | _ => 0

/-- `isinstance(callee, LoxCallable)`. -/
def isCallable : Value → Bool
  | .fn _ => true
  | .cls _ => true
  | .native _ => true
  | _ => false

/-- `_is_truthy`: `None` and `False` are falsy, every other value truthy. -/
def isTruthy : Value → Bool
  | .nil => false
  | .bool b => b
  | _ => true

/-- Host (Python) `==` on runtime values: `None` equals only `None`;
booleans and numbers compare across tags (`bool` is an `int` subclass, so
`True == 1.0`); numbers never equal strings; functions, classes,
instances and AST nodes compare by identity. -/
def pyEq : Value → Value → Bool
  | .nil, .nil => true
  | .bool a, .bool b => a == b
  | .bool a, .num q => (if a then (1 : ℚ) else 0) == q
  | .num q, .bool a => q == (if a then (1 : ℚ) else 0)
  | .num a, .num b => a == b
  | .str a, .str b => a == b
  | .fn a, .fn b => a.oid == b.oid
  | .cls a, .cls b => a.oid == b.oid
  | .inst a, .inst b => a == b
  | .native a, .native b => a == b
  | .vexpr a, .vexpr b => a.nidOf == b.nidOf
  | _, _ => false

/-- `_is_equal`: `None` on the left short-circuits, otherwise host `==`. -/
def isEqualV (x y : Value) : Bool :=
  match x, y with
  | .nil, .nil => true
  | .nil, _ => false
  | _, _ => pyEq x y

/-- `_as_number` (a cast; the operand is checked beforehand).  Non-number
values map to 0 — unreachable behind `_check_num_op(s)`. -/
def asNumber : Value → ℚ
  | .num q => q
  | _ => 0

/-- Decimal digits of a natural number. -/
def natToChars (n : Nat) : List Char := (Nat.repr n).toList

/-- `str(x)` on a float, approximated over ℚ: exact for integers (and the
source then strips the trailing `.0`); non-integral rationals are printed
as `num/den`, a stand-in for the host float repr, which no theorem
depends on. -/
def numToChars (q : ℚ) : List Char :=
  if q.den = 1 then
    (if q.num < 0 then ['-'] else []) ++ natToChars q.num.natAbs
  else
    (if q.num < 0 then ['-'] else []) ++ natToChars q.num.natAbs ++ ['/'] ++ natToChars q.den

/-- `_stringify`.  (For `vexpr` the host prints the dataclass repr; the
embedding prints a compact tag — no theorem depends on it.) -/
def stringifyV : Value → List Char
  | .nil => "nil".toList
  | .bool false => "false".toList
  | .bool true => "true".toList
  | .num q => numToChars q
  | .str s => s
  | .fn f => "‹fun ".toList ++ f.decl.name.lexeme ++ "›".toList
  | .cls c => "‹class ".toList ++ c.name ++ "›".toList
  | .inst _ => "‹instance›".toList
  | .native _ => "‹native fun›".toList
  | .vexpr _ => "‹ast node›".toList

/-- The payload of a `Literal` node as a runtime value. -/
def valOfLit : LitVal → Value
  | .nil => .nil
  | .bool b => .bool b
  | .num q => .num q
  | .str s => .str s

/-! ## Interpreter state -/

/-- The mutable world of a run: the environment arena (index 0 is the
global frame), the instance arena, the lines printed to stdout, the
diagnostic log (scan/parse/runtime messages reported to the logger during
`Interpreter.eval`/`interpret`), the node-identity and object-identity
counters, and the (constant) wall clock read by `clock()`. -/
structure RtState where
  envs : EnvArena Value
  instances : List InstData
  output : List (List Char)
  logged : List (List Char)
  nextNid : Nat
  nextOid : Nat
  clock : ℚ
deriving Repr

/-- `Interpreter.__init__`: a fresh global frame holding the native
functions (defined in declaration order: `clock`, then `printf`).
`nid0` seeds the node-identity counter past the program's nodes. -/
def initRtState (nid0 : Nat) (clock0 : ℚ) : RtState :=
  { envs := [⟨[("clock".toList, .native .clock), ("printf".toList, .native .printf)], none⟩]
    instances := []
    output := []
    logged := []
    nextNid := nid0
    nextOid := 0
    clock := clock0 }

/-- The resolver's side table (`Interpreter._locals`): node identity →
hop distance. -/
abbrev Table : Type := List (Nat × Nat)

/-- `self._locals.get(expr)`. -/
def tableGet (L : Table) (nid : Nat) : Option Nat :=
  match L with
  | [] => none
  | (k, d) :: rest => if k = nid then some d else tableGet rest nid

/-- `self._locals[expr] = depth` (`Interpreter.resolve`). -/
def tableSet (L : Table) (nid d : Nat) : Table :=
  match L with
  | [] => [(nid, d)]
  | (k, w) :: rest => if k = nid then (k, d) :: rest else (k, w) :: tableSet rest nid d

/-- The outcome of executing or evaluating: a value, the `Return` signal
unwinding the stack, or an exception. -/
inductive RRes (α : Type) where
  | ok (v : α) (st : RtState)
  | ret (v : Value) (st : RtState)
  | err (e : RTErr) (st : RtState)

/-- Lift an environment-operation outcome into a run outcome. -/
def liftEx {α : Type} (st : RtState) : Except RTErr α → RRes α
  | .ok v => .ok v st
  | .error e => .err e st

/-- Allocate a child frame. -/
def rtPush (st : RtState) (parent : Option Nat) : RtState × Nat :=
  let (a, i) := pushEnv st.envs parent
  ({ st with envs := a }, i)

/-- `define` on a frame of the run state. -/
def rtDefine (st : RtState) (e : Nat) (name : List Char) (v : Value) : RtState :=
  { st with envs := defineE st.envs e name v }

/-- `Interpreter._lookup_variable`: side table hit → `get_at` from the
current frame; miss → `get` on the global frame. -/
def lookupVariable (L : Table) (env : Nat) (name : Token) (nid : Nat)
    (st : RtState) : RRes Value :=
  match tableGet L nid with
  | some d => liftEx st (getAtE st.envs env d name.lexeme)
  | none => liftEx st (getE st.envs 0 name)

/-- `Interpreter._assign_variable`. -/
def assignVariable (L : Table) (env : Nat) (name : Token) (nid : Nat)
    (v : Value) (st : RtState) : RRes Unit :=
  match tableGet L nid with
  | some d =>
    match assignAtE st.envs env d name v with
    | .ok envs2 => .ok () { st with envs := envs2 }
    | .error e => .err e st
  | none =>
    match assignE st.envs 0 name v with
    | .ok envs2 => .ok () { st with envs := envs2 }
    | .error e => .err e st

/-- `LoxFunction.bind`: a fresh frame under the function's enclosing one
defining `this`, and a new function value (a new object) closing over it. -/
def bindFn (st : RtState) (m : FnVal) (iid : Nat) : RtState × FnVal :=
  let (st1, beid) := rtPush st (some m.enclosing)
  let st2 := rtDefine st1 beid "this".toList (.inst iid)
  (⟨{ st2 with nextOid := st2.nextOid + 1 }, ⟨st2.nextOid, m.decl, beid, m.isInit⟩⟩)

/-- The message `Undefined property '<name>'`. -/
def undefinedPropMsg (name : List Char) : List Char :=
  "Undefined property \x27".toList ++ name ++ [.mk 0x27 (by decide)]

/-- `LoxInstance.get`: field, else bound method, else the Lox error. -/
def instGet (st : RtState) (i : Nat) (name : Token) : RRes Value :=
  match st.instances.get? i with
  | none => .err .hostBug st
  | some idata =>
    match getBinding idata.fields name.lexeme with
    | some v => .ok v st
    | none =>
      match idata.cls.findMethod name.lexeme with
      | some m =>
        let (st2, bf) := bindFn st m i
        .ok (.fn bf) st2
      | none => .err (.lox name (undefinedPropMsg name.lexeme)) st

/-- `LoxInstance.set`: unconditionally assign the field. -/
def instSet (st : RtState) (i : Nat) (name : Token) (v : Value) : RtState :=
  match st.instances.get? i with
  | none => st
  | some idata =>
    { st with instances :=
        st.instances.set i ⟨idata.cls, setBinding idata.fields name.lexeme v⟩ }

/-- `_check_num_op` folded with the `-` evaluation of `_visit_unary`. -/
def isNumV : Value → Bool
  | .num _ => true
  | _ => false

/-- `Interpreter._visit_binary` after both operands are evaluated:
dispatch on the operator token. -/
def binOp (op : Token) (left right : Value) : Except RTErr Value :=
  match op.type with
  | .LT =>
    if isNumV left && isNumV right then .ok (.bool (asNumber left < asNumber right))
    else .error (.lox op "Operands must be numbers".toList)
  | .LT_EQ =>
    if isNumV left && isNumV right then .ok (.bool (asNumber left ≤ asNumber right))
    else .error (.lox op "Operands must be numbers".toList)
  | .GT =>
    if isNumV left && isNumV right then .ok (.bool (asNumber left > asNumber right))
    else .error (.lox op "Operands must be numbers".toList)
  | .GT_EQ =>
    if isNumV left && isNumV right then .ok (.bool (asNumber left ≥ asNumber right))
    else .error (.lox op "Operands must be numbers".toList)
  | .EQ_EQ => .ok (.bool (isEqualV left right))
  | .BANG_EQ => .ok (.bool (!isEqualV left right))
  | .MINUS =>
    if isNumV left && isNumV right then .ok (.num (asNumber left - asNumber right))
    else .error (.lox op "Operands must be numbers".toList)
  | .SLASH =>
    if isNumV left && isNumV right then
      if asNumber right = 0 then .error (.lox op "Cannot divide by zero".toList)
      else .ok (.num (asNumber left / asNumber right))
    else .error (.lox op "Operands must be numbers".toList)
  | .STAR =>
    if isNumV left && isNumV right then .ok (.num (asNumber left * asNumber right))
    else .error (.lox op "Operands must be numbers".toList)
  | .PLUS =>
    match left, right with
    | .num a, .num b => .ok (.num (a + b))
    | .str a, .str b => .ok (.str (a ++ b))
    | _, _ => .error (.lox op "Operands must be two numbers or two strings".toList)
  | _ => .error .hostBug

/-- `re.split(r'\x7b([^\x7d]+)\x7d', format)`, one match at a time: the
text before the leftmost `{expr}` group, the group, and the rest. -/
def findFmtMatch : List Char → Option (List Char × List Char × List Char)
  | [] => none
  | '{' :: rest =>
    match rest.span (fun c => c ≠ '}') with
    | (grp, '}' :: tail) =>
      if grp.isEmpty then
        match findFmtMatch rest with
        | some (b, g, a) => some ('{' :: b, g, a)
        | none => none
      else some ([], grp, tail)
    | (_, _) => none
  | c :: rest =>
    match findFmtMatch rest with
    | some (b, g, a) => some (c :: b, g, a)
    | none => none

/-- Sequencing on run outcomes: `Return` signals and exceptions propagate
(the host exception mechanism). -/
def RRes.andThen {α β : Type} (r : RRes α) (f : α → RtState → RRes β) : RRes β :=
  match r with
  | .ok v st => f v st
  | .ret v st => .ret v st
  | .err e st => .err e st

/-! ## The evaluator (interpreter.py)

`_evaluate`/`_execute` and the callable machinery, mutually recursive
through a structural fuel parameter (every call decrements it; any fuel
above the actual recursion depth of a run reproduces the source, and
exhaustion is a `hostBug` artifact).  The side table `L` and the current
frame are the `self._locals` / `self._env` of the interpreter object —
`self._env` is saved and restored around every block, so passing it as a
parameter is equivalent.  The global frame is arena index 0. -/
mutual

/-- `Interpreter._evaluate`.  Note the `Assign` case: the source returns
`value` — the right-hand-side *AST node* — not the computed `val`. -/
def evalE (L : Table) : Nat → Nat → Expr → RtState → RRes Value
  | 0, _, _, st => .err .hostBug st
  | k + 1, env, e, st =>
    match e with
    | .assign nid name value =>
      (evalE L k env value st).andThen fun val st1 =>
      (assignVariable L env name nid val st1).andThen fun _ st2 =>
      .ok (.vexpr value) st2
    | .binary _ l op r =>
      (evalE L k env l st).andThen fun lv st1 =>
      (evalE L k env r st1).andThen fun rv st2 =>
      liftEx st2 (binOp op lv rv)
    | .call _ callee paren argEs =>
      (evalE L k env callee st).andThen fun cv st1 =>
      (evalArgs L k env argEs st1).andThen fun args st2 =>
      if !isCallable cv then
        .err (.lox paren "Can only call functions and classes".toList) st2
      else if args.length ≠ arityOf cv then
        .err (.lox paren ("Expected ".toList ++ natToChars (arityOf cv) ++
          " arguments but got ".toList ++ natToChars args.length)) st2
      else callValue L k env cv args st2
    | .get _ objE name =>
      (evalE L k env objE st).andThen fun obj st1 =>
      match obj with
      | .inst i => instGet st1 i name
      | _ => .err (.lox name "Only instances have properties".toList) st1
    | .grouping _ inner => evalE L k env inner st
    | .literal _ v => .ok (valOfLit v) st
    | .logical _ l op r =>
      (evalE L k env l st).andThen fun lv st1 =>
      match op.type with
      | .OR => if isTruthy lv then .ok lv st1 else evalE L k env r st1
      | .AND => if !isTruthy lv then .ok lv st1 else evalE L k env r st1
      | _ => evalE L k env r st1
    | .set _ objE name valueE =>
      (evalE L k env objE st).andThen fun obj st1 =>
      match obj with
      | .inst i =>
        (evalE L k env valueE st1).andThen fun val st2 =>
        .ok val (instSet st2 i name val)
      | _ => .err (.lox name "Only instances have fields".toList) st1
    | .this nid kw => lookupVariable L env kw nid st
    | .unary _ op operand =>
      (evalE L k env operand st).andThen fun v st1 =>
      match op.type with
      | .MINUS =>
        if isNumV v then .ok (.num (-asNumber v)) st1
        else .err (.lox op "Operand must be a number".toList) st1
      | .BANG => .ok (.bool (!isTruthy v)) st1
      | _ => .err .hostBug st1
    | .var nid name => lookupVariable L env name nid st

termination_by structural fuel _ _ _ => fuel
/-- The left-to-right argument evaluation of `_visit_call`. -/
def evalArgs (L : Table) : Nat → Nat → List Expr → RtState → RRes (List Value)
  | 0, _, _, st => .err .hostBug st
  | _ + 1, _, [], st => .ok [] st
  | k + 1, env, e :: rest, st =>
    (evalE L k env e st).andThen fun v st1 =>
    (evalArgs L k env rest st1).andThen fun vs st2 =>
    .ok (v :: vs) st2

termination_by structural fuel _ _ _ => fuel
/-- `callee(self, args)`: dispatch on the callable (`env` is the
interpreter's current frame, read by native functions). -/
def callValue (L : Table) : Nat → Nat → Value → List Value → RtState → RRes Value
  | 0, _, _, _, st => .err .hostBug st
  | k + 1, _, .fn f, args, st => callFn L k f args st
  | k + 1, _, .cls c, args, st => classCall L k c args st
  | k + 1, env, .native n, args, st => nativeCall L k env n args st
  | _ + 1, _, _, _, st => .err .hostBug st

termination_by structural fuel _ _ _ _ => fuel
/-- `LoxFunction.__call__`: a child frame of the closure binds the
parameters; the body runs as a block there; a `Return` signal is caught
(an initializer yields the bound `this` instead of the signal's value);
falling off the body yields `nil` (`this` for an initializer). -/
def callFn (L : Table) : Nat → FnVal → List Value → RtState → RRes Value
  | 0, _, _, st => .err .hostBug st
  | k + 1, f, args, st =>
    let (st1, eid) := rtPush st (some f.enclosing)
    let st2 := (f.decl.params.zip args).foldl
      (fun acc pa => rtDefine acc eid pa.1.lexeme pa.2) st1
    match execBlockStmts L k eid f.decl.body st2 with
    | .ret v st3 =>
      if f.isInit then liftEx st3 (getAtE st3.envs f.enclosing 0 "this".toList)
      else .ok v st3
    | .ok _ st3 =>
      if f.isInit then liftEx st3 (getAtE st3.envs f.enclosing 0 "this".toList)
      else .ok .nil st3
    | .err e st3 => .err e st3

termination_by structural fuel _ _ _ => fuel
/-- `LoxClass.__call__`: construct the instance; if an `init` method
exists, bind it to the instance and invoke it; return the instance. -/
def classCall (L : Table) : Nat → ClassVal → List Value → RtState → RRes Value
  | 0, _, _, st => .err .hostBug st
  | k + 1, c, args, st =>
    let iid := st.instances.length
    let st1 := { st with instances := st.instances ++ [⟨c, []⟩] }
    match c.findMethod "init".toList with
    | some m =>
      let (st2, bf) := bindFn st1 m iid
      match callFn L k bf args st2 with
      | .ok _ st3 => .ok (.inst iid) st3
      | .ret v st3 => .ret v st3
      | .err e st3 => .err e st3
    | none => .ok (.inst iid) st1

termination_by structural fuel _ _ _ => fuel
/-- The two `@native_fun` bodies: `clock()` reads the wall clock;
`printf(fmt)` substitutes each `{expr}` with the stringified result of
`interpreter.eval(expr)` and prints the line.  A non-string format is the
host `TypeError` from `re.split`. -/
def nativeCall (L : Table) : Nat → Nat → NativeId → List Value → RtState → RRes Value
  | 0, _, _, _, st => .err .hostBug st
  | _ + 1, _, .clock, _, st => .ok (.num st.clock) st
  | k + 1, env, .printf, args, st =>
    match args with
    | [.str fmt] =>
      (printfFmt L k env fmt st).andThen fun out st1 =>
      .ok .nil { st1 with output := st1.output ++ [out] }
    | [_] => .err .hostTypeError st
    | _ => .err .hostBug st

termination_by structural fuel _ _ _ _ => fuel
/-- The `re.split` loop of `_lox_printf`. -/
def printfFmt (L : Table) : Nat → Nat → List Char → RtState → RRes (List Char)
  | 0, _, _, st => .err .hostBug st
  | k + 1, env, fmt, st =>
    match findFmtMatch fmt with
    | none => .ok fmt st
    | some (before, grp, after) =>
      (evalInterp L k env grp st).andThen fun v st1 =>
      (printfFmt L k env after st1).andThen fun rest st2 =>
      .ok (before ++ stringifyV v ++ rest) st2

termination_by structural fuel _ _ _ => fuel
/-- `Interpreter.eval`: scan and parse the code as one expression (node
identities continue from the interpreter's counter, as heap allocation
does), evaluate it in the current frame, and swallow-and-log Lox runtime
errors (yielding `None`).  A `ParseError` escapes `eval` (only
`LoxRuntimeError` is caught): `hostParseError`. -/
def evalInterp (L : Table) : Nat → Nat → List Char → RtState → RRes Value
  | 0, _, _, st => .err .hostBug st
  | k + 1, env, code, st =>
    let scanned := scanChars code
    let st1 := { st with logged := st.logged ++ scanned.2 }
    let pst0 : PState :=
      match scanned.1 with
      | [] => ⟨⟨.EOF, [], none, 0, 0⟩, [], st1.nextNid, []⟩
      | t :: ts => ⟨t, ts, st1.nextNid, []⟩
    match pExpression (32 * (code.length + 2)) pst0 with
    | .error pst =>
      .err .hostParseError
        { st1 with nextNid := pst.nextNid, logged := st1.logged ++ pst.errs.map Prod.snd }
    | .ok (e, pst) =>
      let st2 :=
        { st1 with nextNid := pst.nextNid, logged := st1.logged ++ pst.errs.map Prod.snd }
      match evalE L k env e st2 with
      | .ok v st3 => .ok v st3
      | .ret v st3 => .ret v st3
      | .err (.lox _ m) st3 => .ok .nil { st3 with logged := st3.logged ++ [m] }
      | .err er st3 => .err er st3

termination_by structural fuel _ _ _ => fuel
/-- `Interpreter._execute`.  The `Class` case of the source matches the
three-field pattern `Class(name, superclass_name, methods)` against the
two-field `Class` node of ast.py, which raises the host `TypeError`
(`hostTypeError`) on every class statement in this snapshot. -/
def execS (L : Table) : Nat → Nat → Stmt → RtState → RRes Unit
  | 0, _, _, st => .err .hostBug st
  | k + 1, env, s, st =>
    match s with
    | .block stmts =>
      let (st1, child) := rtPush st (some env)
      execBlockStmts L k child stmts st1
    | .classS _ _ => .err .hostTypeError st
    | .exprS e => (evalE L k env e st).andThen fun _ st1 => .ok () st1
    | .funcS decl =>
      let f : FnVal := ⟨st.nextOid, decl, env, false⟩
      let st1 := { st with nextOid := st.nextOid + 1 }
      .ok () (rtDefine st1 env decl.name.lexeme (.fn f))
    | .ifS c t e =>
      (evalE L k env c st).andThen fun cv st1 =>
      if isTruthy cv then execS L k env t st1
      else
        match e with
        | some s2 => execS L k env s2 st1
        | none => .ok () st1
    | .printS e =>
      (evalE L k env e st).andThen fun v st1 =>
      .ok () { st1 with output := st1.output ++ [stringifyV v] }
    | .returnS _ value =>
      match value with
      | none => .ret .nil st
      | some e => (evalE L k env e st).andThen fun v st1 => .ret v st1
    | .varS name init =>
      match init with
      | some e => (evalE L k env e st).andThen fun v st1 => .ok () (rtDefine st1 env name.lexeme v)
      | none => .ok () (rtDefine st env name.lexeme .nil)
    | .whileS c body => execWhile L k env c body st

termination_by structural fuel _ _ _ => fuel
/-- The `while` loop of `_execute` (one fuel unit per iteration). -/
def execWhile (L : Table) : Nat → Nat → Expr → Stmt → RtState → RRes Unit
  | 0, _, _, _, st => .err .hostBug st
  | k + 1, env, c, body, st =>
    (evalE L k env c st).andThen fun cv st1 =>
    if isTruthy cv then
      (execS L k env body st1).andThen fun _ st2 => execWhile L k env c body st2
    else .ok () st1

termination_by structural fuel _ _ _ _ => fuel
/-- The statement loop of `_execute_block` / `interpret` in frame `env`. -/
def execBlockStmts (L : Table) : Nat → Nat → List Stmt → RtState → RRes Unit
  | 0, _, _, st => .err .hostBug st
  | _ + 1, _, [], st => .ok () st
  | k + 1, env, s :: rest, st =>
    (execS L k env s st).andThen fun _ st1 => execBlockStmts L k env rest st1

termination_by structural fuel _ _ _ => fuel
end

/-- `Interpreter.interpret`: run the statements in the global frame,
catching (and logging) a `LoxRuntimeError` at the boundary. -/
def interpretStmts (L : Table) (fuel : Nat) (stmts : List Stmt) (st : RtState) :
    RRes Unit :=
  match execBlockStmts L fuel 0 stmts st with
  | .err (.lox _ m) st1 => .ok () { st1 with logged := st1.logged ++ [m] }
  | r => r

/-! ## Claim theorems on the evaluator -/

/-- C2: evaluation of the code at the failing input.  For
`a = 2` (an `Assign` with the global `a` bound to 1): the right-hand side
is evaluated first and the store does happen — the frame afterwards binds
`a` to 2 — but the `Assign` expression evaluates to the right-hand-side
*AST node* (`return value` in the source returns the pattern-bound `Expr`,
not the computed `val`), so `print a = 2;` would print the node's repr
rather than 2. -/
theorem C2_assign_returns_rhs_node :
    (evalE [] 10 0
        (Expr.assign 0 ⟨.IDENTIFIER, "a".toList, none, 0, 1⟩ (Expr.literal 1 (.num 2)))
        ⟨[⟨[("a".toList, .num 1)], none⟩], [], [], [], 2, 0, 0⟩ =
      .ok (.vexpr (Expr.literal 1 (.num 2)))
        ⟨[⟨[("a".toList, .num 2)], none⟩], [], [], [], 2, 0, 0⟩) ∧
      ((match Value.vexpr (Expr.literal 1 (.num 2)) with
        | .num _ => true
        | _ => false) = false) := by
  exact ⟨rfl, rfl⟩

/-- C7: the numeric binary operators `<`, `<=`, `>`, `>=`, `-`, `*`, `/`
raise `Operands must be numbers` when either evaluated operand is not a
number; `/` on numbers raises `Cannot divide by zero` exactly when the
right operand is zero and otherwise returns the quotient; `+` adds two
numbers, concatenates two strings, and otherwise raises
`Operands must be two numbers or two strings`. -/
theorem C7_binary_operand_errors :
    (∀ (t : Token) (l r : Value),
        (t.type = .LT ∨ t.type = .LT_EQ ∨ t.type = .GT ∨ t.type = .GT_EQ ∨
          t.type = .MINUS ∨ t.type = .STAR ∨ t.type = .SLASH) →
        (isNumV l = false ∨ isNumV r = false) →
        binOp t l r = .error (.lox t "Operands must be numbers".toList)) ∧
    (∀ (t : Token) (a b : ℚ), t.type = .SLASH →
        binOp t (.num a) (.num b) =
          if b = 0 then .error (.lox t "Cannot divide by zero".toList)
          else .ok (.num (a / b))) ∧
    (∀ (t : Token) (a b : ℚ), t.type = .PLUS →
        binOp t (.num a) (.num b) = .ok (.num (a + b))) ∧
    (∀ (t : Token) (a b : List Char), t.type = .PLUS →
        binOp t (.str a) (.str b) = .ok (.str (a ++ b))) ∧
    (∀ (t : Token) (l r : Value), t.type = .PLUS →
        ((match l, r with
          | .num _, .num _ => false
          | .str _, .str _ => false
          | _, _ => true) = true) →
        binOp t l r = .error (.lox t "Operands must be two numbers or two strings".toList)) := by
  refine ⟨?_, ?_, ?_, ?_, ?_⟩
  · intro t l r hty hnum
    rcases hty with h | h | h | h | h | h | h <;>
      simp only [binOp, h] <;>
      rcases hnum with h2 | h2 <;>
      simp [h2]
  · intro t a b h
    simp [binOp, h, isNumV, asNumber]
  · intro t a b h
    simp [binOp, h]
  · intro t a b h
    simp [binOp, h]
  · intro t l r h hmix
    simp only [binOp, h]
    cases l <;> cases r <;> simp_all

/-- Witness for C7 at concrete operands: `"x" < nil` is the operand
error, `1 / 0` divides by zero, `1 / 2` is the quotient, `1 + 2`, string
concatenation, and `1 + "x"` is the mixed-operand error. -/
theorem C7_binary_operand_errors_witness :
    (binOp ⟨.LT, "<".toList, none, 0, 1⟩ (.str "x".toList) .nil =
        .error (.lox ⟨.LT, "<".toList, none, 0, 1⟩ "Operands must be numbers".toList)) ∧
      (binOp ⟨.SLASH, "/".toList, none, 0, 1⟩ (.num 1) (.num 0) =
        .error (.lox ⟨.SLASH, "/".toList, none, 0, 1⟩ "Cannot divide by zero".toList)) ∧
      (binOp ⟨.SLASH, "/".toList, none, 0, 1⟩ (.num 1) (.num 2) = .ok (.num (1 / 2))) ∧
      (binOp ⟨.PLUS, "+".toList, none, 0, 1⟩ (.num 1) (.num 2) = .ok (.num 3)) ∧
      (binOp ⟨.PLUS, "+".toList, none, 0, 1⟩ (.str "a".toList) (.str "b".toList) =
        .ok (.str "ab".toList)) ∧
      (binOp ⟨.PLUS, "+".toList, none, 0, 1⟩ (.num 1) (.str "x".toList) =
        .error (.lox ⟨.PLUS, "+".toList, none, 0, 1⟩
          "Operands must be two numbers or two strings".toList)) := by
  refine ⟨?_, ?_, ?_, ?_, ?_, ?_⟩
  · exact C7_binary_operand_errors.1 ⟨.LT, "<".toList, none, 0, 1⟩ (.str "x".toList) .nil
      (Or.inl rfl) (Or.inl rfl)
  · exact (C7_binary_operand_errors.2.1 ⟨.SLASH, "/".toList, none, 0, 1⟩ 1 0 rfl).trans
      (by norm_num)
  · exact (C7_binary_operand_errors.2.1 ⟨.SLASH, "/".toList, none, 0, 1⟩ 1 2 rfl).trans
      (by norm_num)
  · exact (C7_binary_operand_errors.2.2.1 ⟨.PLUS, "+".toList, none, 0, 1⟩ 1 2 rfl).trans
      (by norm_num)
  · exact C7_binary_operand_errors.2.2.2.1 ⟨.PLUS, "+".toList, none, 0, 1⟩ "a".toList "b".toList rfl
  · exact C7_binary_operand_errors.2.2.2.2 ⟨.PLUS, "+".toList, none, 0, 1⟩ (.num 1)
      (.str "x".toList) rfl rfl

/-- C9 (implicit): `==`/`!=` use the host equality across value tags:
`true == 1` and `false == 0` evaluate to true, a number never equals a
string, and `nil` equals only `nil`. -/
theorem C9_equality_cross_tags :
    (∀ t : Token, t.type = .EQ_EQ → binOp t (.bool true) (.num 1) = .ok (.bool true)) ∧
      (∀ t : Token, t.type = .BANG_EQ → binOp t (.bool false) (.num 0) = .ok (.bool false)) ∧
      (isEqualV (.bool true) (.num 1) = true) ∧
      (isEqualV (.bool false) (.num 0) = true) ∧
      (∀ (q : ℚ) (s : List Char),
        isEqualV (.num q) (.str s) = false ∧ isEqualV (.str s) (.num q) = false) ∧
      (isEqualV .nil .nil = true) ∧
      (∀ v : Value, v ≠ .nil → isEqualV .nil v = false ∧ isEqualV v .nil = false) := by
  refine ⟨?_, ?_, by decide, by decide, ?_, by decide, ?_⟩
  · intro t h
    simp [binOp, h, isEqualV, pyEq]
  · intro t h
    simp [binOp, h, isEqualV, pyEq]
  · intro q s
    exact ⟨rfl, rfl⟩
  · intro v hv
    cases v <;> simp_all [isEqualV, pyEq]

/-- Witness for C9 at a concrete `==` token and values. -/
theorem C9_equality_cross_tags_witness :
    binOp ⟨.EQ_EQ, "==".toList, none, 0, 2⟩ (.bool true) (.num 1) = .ok (.bool true) ∧
      isEqualV .nil (.num 0) = false := by
  exact ⟨C9_equality_cross_tags.1 ⟨.EQ_EQ, "==".toList, none, 0, 2⟩ rfl,
    (C9_equality_cross_tags.2.2.2.2.2.2 (.num 0) (by simp)).1⟩

/-- C8: `Logical` evaluates the left operand first; `or` returns the left
value unchanged when it is truthy — for *every* right operand expression,
which is therefore never evaluated — and otherwise evaluates to the right
operand's result; `and` mirrors this on falsy; truthiness is: `nil` and
`false` are falsy, everything else (including 0 and the empty string) is
truthy. -/
theorem C8_logical_short_circuit_truthiness :
    (∀ (L : Table) (k env nid : Nat) (l : Expr) (t : Token) (st : RtState)
        (v : Value) (st1 : RtState),
        t.type = .OR → evalE L k env l st = .ok v st1 → isTruthy v = true →
        ∀ r : Expr, evalE L (k + 1) env (.logical nid l t r) st = .ok v st1) ∧
    (∀ (L : Table) (k env nid : Nat) (l r : Expr) (t : Token) (st : RtState)
        (v : Value) (st1 : RtState),
        t.type = .OR → evalE L k env l st = .ok v st1 → isTruthy v = false →
        evalE L (k + 1) env (.logical nid l t r) st = evalE L k env r st1) ∧
    (∀ (L : Table) (k env nid : Nat) (l : Expr) (t : Token) (st : RtState)
        (v : Value) (st1 : RtState),
        t.type = .AND → evalE L k env l st = .ok v st1 → isTruthy v = false →
        ∀ r : Expr, evalE L (k + 1) env (.logical nid l t r) st = .ok v st1) ∧
    (∀ (L : Table) (k env nid : Nat) (l r : Expr) (t : Token) (st : RtState)
        (v : Value) (st1 : RtState),
        t.type = .AND → evalE L k env l st = .ok v st1 → isTruthy v = true →
        evalE L (k + 1) env (.logical nid l t r) st = evalE L k env r st1) ∧
    (isTruthy .nil = false ∧ isTruthy (.bool false) = false ∧
      isTruthy (.bool true) = true ∧ isTruthy (.num 0) = true ∧
      isTruthy (.str []) = true ∧
      ∀ v : Value, v ≠ .nil → (∀ b, v ≠ .bool b) → isTruthy v = true) := by
  refine ⟨?_, ?_, ?_, ?_, by decide, by decide, by decide, by decide, by decide, ?_⟩
  · intro L k env nid l t st v st1 ht hl htr r
    simp [evalE, hl, RRes.andThen, ht, htr]
  · intro L k env nid l r t st v st1 ht hl htr
    simp [evalE, hl, RRes.andThen, ht, htr]
  · intro L k env nid l t st v st1 ht hl htr r
    simp [evalE, hl, RRes.andThen, ht, htr]
  · intro L k env nid l r t st v st1 ht hl htr
    simp [evalE, hl, RRes.andThen, ht, htr]
  · intro v h1 h2
    cases v <;> simp_all [isTruthy]

/-- Witness for C8: `nil or "yes"` yields `"yes"`, and `0 and "x"` yields
`"x"` (0 is truthy). -/
theorem C8_logical_short_circuit_witness :
    (evalE [] 6 0
        (.logical 2 (Expr.literal 0 .nil) ⟨.OR, "or".toList, none, 0, 2⟩
          (Expr.literal 1 (.str "yes".toList)))
        (initRtState 3 0) =
      .ok (.str "yes".toList) (initRtState 3 0)) ∧
      (evalE [] 6 0
          (.logical 2 (Expr.literal 0 (.num 0)) ⟨.AND, "and".toList, none, 0, 3⟩
            (Expr.literal 1 (.str "x".toList)))
          (initRtState 3 0) =
        .ok (.str "x".toList) (initRtState 3 0)) := by
  constructor
  · have h := C8_logical_short_circuit_truthiness.2.1 [] 5 0 2 (Expr.literal 0 .nil)
      (Expr.literal 1 (.str "yes".toList)) ⟨.OR, "or".toList, none, 0, 2⟩
      (initRtState 3 0) .nil (initRtState 3 0) rfl rfl rfl
    exact h.trans rfl
  · have h := C8_logical_short_circuit_truthiness.2.2.2.1 [] 5 0 2 (Expr.literal 0 (.num 0))
      (Expr.literal 1 (.str "x".toList)) ⟨.AND, "and".toList, none, 0, 3⟩
      (initRtState 3 0) (.num 0) (initRtState 3 0) rfl rfl rfl
    exact h.trans rfl

/-- The frame created by `bind` maps `this` (at distance 0 from the bound
function's closure) to the bound instance. -/
theorem bindFn_this (st : RtState) (m : FnVal) (iid : Nat) :
    getAtE (bindFn st m iid).1.envs (bindFn st m iid).2.enclosing 0 "this".toList =
      .ok (.inst iid) := by
  have hframe : frameAt (st.envs ++ [({ bindings := [], enclosing := some m.enclosing } :
      Frame Value)]) st.envs.length =
      some { bindings := [], enclosing := some m.enclosing } := by
    unfold frameAt
    exact List.get?_concat_length st.envs _
  unfold bindFn rtPush pushEnv rtDefine defineE
  simp only [hframe]
  have hset : frameAt
      ((st.envs ++ [({ bindings := [], enclosing := some m.enclosing } : Frame Value)]).set
        st.envs.length
        { bindings := setBinding [] "this".toList (.inst iid), enclosing := some m.enclosing })
      st.envs.length =
      some { bindings := setBinding [] "this".toList (.inst iid),
             enclosing := some m.enclosing } := by
    unfold frameAt
    rw [List.get?_eq_getElem?]
    apply List.getElem?_set_eq_of_lt
    simp
  unfold getAtE
  simp only [ancestorE, hset]
  rfl

/-- C6: a Lox call catches the `Return` signal and yields its value, or
`nil` when the body falls off — except for initializers, which yield the
bound `this` in both cases; calling a class constructs a fresh instance,
binds `init` to it (so the `this` seen inside `init` *is* that instance)
and returns the instance whatever the initializer call returned, even for
an explicit bare `return;`. -/
theorem C6_call_and_initializer_semantics :
    (∀ (L : Table) (k : Nat) (f : FnVal) (args : List Value) (st st1 : RtState)
        (eid : Nat) (stE : RtState) (v : Value) (st3 : RtState),
        rtPush st (some f.enclosing) = (st1, eid) →
        (f.decl.params.zip args).foldl
          (fun acc pa => rtDefine acc eid pa.1.lexeme pa.2) st1 = stE →
        execBlockStmts L k eid f.decl.body stE = .ret v st3 →
        f.isInit = false →
        callFn L (k + 1) f args st = .ok v st3) ∧
    (∀ (L : Table) (k : Nat) (f : FnVal) (args : List Value) (st st1 : RtState)
        (eid : Nat) (stE : RtState) (u : Unit) (st3 : RtState),
        rtPush st (some f.enclosing) = (st1, eid) →
        (f.decl.params.zip args).foldl
          (fun acc pa => rtDefine acc eid pa.1.lexeme pa.2) st1 = stE →
        execBlockStmts L k eid f.decl.body stE = .ok u st3 →
        f.isInit = false →
        callFn L (k + 1) f args st = .ok .nil st3) ∧
    (∀ (L : Table) (k : Nat) (f : FnVal) (args : List Value) (st st1 : RtState)
        (eid : Nat) (stE : RtState) (v : Value) (st3 : RtState) (w : Value),
        rtPush st (some f.enclosing) = (st1, eid) →
        (f.decl.params.zip args).foldl
          (fun acc pa => rtDefine acc eid pa.1.lexeme pa.2) st1 = stE →
        (execBlockStmts L k eid f.decl.body stE = .ret v st3 ∨
          execBlockStmts L k eid f.decl.body stE = .ok () st3) →
        f.isInit = true →
        getAtE st3.envs f.enclosing 0 "this".toList = .ok w →
        callFn L (k + 1) f args st = .ok w st3) ∧
    (∀ (L : Table) (k : Nat) (c : ClassVal) (args : List Value) (st : RtState)
        (m : FnVal) (st2 : RtState) (bf : FnVal),
        c.findMethod "init".toList = some m →
        bindFn { st with instances := st.instances ++ [⟨c, []⟩] } m
            st.instances.length = (st2, bf) →
        (getAtE st2.envs bf.enclosing 0 "this".toList =
            .ok (.inst st.instances.length)) ∧
          ∀ (u : Value) (st3 : RtState), callFn L k bf args st2 = .ok u st3 →
            classCall L (k + 1) c args st = .ok (.inst st.instances.length) st3) ∧
    (∀ (L : Table) (k : Nat) (c : ClassVal) (args : List Value) (st : RtState),
        c.findMethod "init".toList = none →
        classCall L (k + 1) c args st =
          .ok (.inst st.instances.length)
            { st with instances := st.instances ++ [⟨c, []⟩] }) := by
  refine ⟨?_, ?_, ?_, ?_, ?_⟩
  · intro L k f args st st1 eid stE v st3 hpush hfold hexec hinit
    simp [callFn, hpush, hfold, hexec, hinit]
  · intro L k f args st st1 eid stE u st3 hpush hfold hexec hinit
    simp [callFn, hpush, hfold, hexec, hinit]
  · intro L k f args st st1 eid stE v st3 w hpush hfold hexec hinit hthis
    rcases hexec with hexec | hexec <;>
      simp only [callFn, hpush, hfold, hexec, hinit, if_true, liftEx, hthis]
  · intro L k c args st m st2 bf hm hbind
    constructor
    · have := bindFn_this { st with instances := st.instances ++ [⟨c, []⟩] } m
        st.instances.length
      rw [hbind] at this
      exact this
    · intro u st3 hcall
      simp only [classCall, hm, hbind, hcall]
  · intro L k c args st hm
    simp only [classCall, hm]

/-- Witness for C6: a class whose `init` body is a bare `return;` — the
class call returns the fresh instance (index 0), which is exactly the
`this` bound inside `init`. -/
theorem C6_call_and_initializer_witness :
    classCall [] 10
        (ClassVal.mk 0 "C".toList none
          [("init".toList, ⟨1, ⟨⟨.IDENTIFIER, "init".toList, none, 0, 4⟩, [],
            [Stmt.returnS ⟨.RETURN, "return".toList, none, 0, 6⟩ none]⟩, 0, true⟩)])
        [] (initRtState 0 0) =
      .ok (.inst 0)
        (match classCall [] 10
            (ClassVal.mk 0 "C".toList none
              [("init".toList, ⟨1, ⟨⟨.IDENTIFIER, "init".toList, none, 0, 4⟩, [],
                [Stmt.returnS ⟨.RETURN, "return".toList, none, 0, 6⟩ none]⟩, 0, true⟩)])
            [] (initRtState 0 0) with
          | .ok _ st => st
          | .ret _ st => st
          | .err _ st => st) := by
  have h := (C6_call_and_initializer_semantics.2.2.2.1 [] 9
      (ClassVal.mk 0 "C".toList none
        [("init".toList, ⟨1, ⟨⟨.IDENTIFIER, "init".toList, none, 0, 4⟩, [],
          [Stmt.returnS ⟨.RETURN, "return".toList, none, 0, 6⟩ none]⟩, 0, true⟩)])
      [] (initRtState 0 0)
      ⟨1, ⟨⟨.IDENTIFIER, "init".toList, none, 0, 4⟩, [],
        [Stmt.returnS ⟨.RETURN, "return".toList, none, 0, 6⟩ none]⟩, 0, true⟩
      _ _ rfl rfl).2 (.inst 0) _ rfl
  exact h.trans (by rfl)

/-! ## Resolver (resolver.py)

A scope is a name → "fully defined" flag map; the stack is innermost
first (the source appends and indexes from the back; distance
`(top_index - found_index)` there equals the head-first index here).
The resolver logs errors and writes the interpreter's side table; it
throws nothing.  `ranOut` marks fuel exhaustion (never set when the fuel
exceeds the AST depth). -/

/-- One lexical scope of the resolver. -/
abbrev ScopeT : Type := List (List Char × Bool)

/-- `_FunctionType`. -/
inductive FunKind where
  | NONE | FUNCTION | INITIALIZER | METHOD
deriving DecidableEq, Repr

/-- `_ClassType`. -/
inductive ClassKind where
  | NONE | CLASS
deriving DecidableEq, Repr

/-- The `Resolver` object state. -/
structure RState where
  scopes : List ScopeT
  currentFun : FunKind
  currentClass : ClassKind
  errs : List (Token × List Char)
  table : Table
  ranOut : Bool
deriving Repr

/-- `Resolver.__init__` (the table belongs to the interpreter). -/
def initRState : RState :=
  { scopes := [], currentFun := .NONE, currentClass := .NONE,
    errs := [], table := [], ranOut := false }

/-- Log a resolver error (`logger.parse_error`). -/
def rerr (tok : Token) (msg : List Char) (r : RState) : RState :=
  { r with errs := r.errs ++ [(tok, msg)] }

/-- `Resolver._begin_scope`. -/
def beginScopeR (r : RState) : RState := { r with scopes := ([] : ScopeT) :: r.scopes }

/-- `Resolver._end_scope`. -/
def endScopeR (r : RState) : RState := { r with scopes := r.scopes.tail }

/-- `Resolver._declare`: nothing at global depth; a duplicate in the
current scope is reported; the name is marked not-yet-defined. -/
def declareR (name : Token) (r : RState) : RState :=
  match r.scopes with
  | [] => r
  | sc :: rest =>
    let r1 := if (getBinding sc name.lexeme).isSome then
        rerr name "Already a variable with this name in scope".toList r
      else r
    { r1 with scopes := setBinding sc name.lexeme false :: rest }

/-- `Resolver._define`. -/
def defineR (name : Token) (r : RState) : RState :=
  match r.scopes with
  | [] => r
  | sc :: rest => { r with scopes := setBinding sc name.lexeme true :: rest }

/-- The hop distance `_resolve_local` computes: the index (from the
innermost scope) of the first scope containing the name. -/
def scopeDist : List ScopeT → List Char → Option Nat
  | [], _ => none
  | sc :: rest, name =>
    if (getBinding sc name).isSome then some 0
    else (scopeDist rest name).map (· + 1)

/-- `Resolver._resolve_local`: record the distance in the interpreter's
side table under the expression's identity; no scope holds the name →
no record (global). -/
def resolveLocalR (nid : Nat) (name : Token) (r : RState) : RState :=
  match scopeDist r.scopes name.lexeme with
  | some j => { r with table := tableSet r.table nid j }
  | none => r

mutual

/-- `Resolver.resolve` on expressions. -/
def resolveE : Nat → Expr → RState → RState
  | 0, _, r => { r with ranOut := true }
  | k + 1, e, r =>
    match e with
    | .assign nid name value =>
      resolveLocalR nid name (resolveE k value r)
    | .binary _ l _ rgt => resolveE k rgt (resolveE k l r)
    | .call _ callee _ args => resolveEList k args (resolveE k callee r)
    | .get _ obj _ => resolveE k obj r
    | .grouping _ inner => resolveE k inner r
    | .literal _ _ => r
    | .logical _ l _ rgt => resolveE k rgt (resolveE k l r)
    | .set _ obj _ value => resolveE k obj (resolveE k value r)
    | .this nid kw =>
      let r1 := if r.currentClass = .NONE then
          rerr kw "Can’t use \x27this\x27 outside of a class".toList r
        else r
      resolveLocalR nid kw r1
    | .unary _ _ operand => resolveE k operand r
    | .var nid name =>
      let r1 :=
        match r.scopes with
        | [] => r
        | sc :: _ =>
          if getBinding sc name.lexeme = some false then
            rerr name "Can’t read local variable in its own initializer".toList r
          else r
      resolveLocalR nid name r1

def resolveEList : Nat → List Expr → RState → RState
  | 0, _, r => { r with ranOut := true }
  | _ + 1, [], r => r
  | k + 1, e :: rest, r => resolveEList k rest (resolveE k e r)

def resolveOE : Nat → Option Expr → RState → RState
  | 0, _, r => { r with ranOut := true }
  | _ + 1, none, r => r
  | k + 1, some e, r => resolveE k e r

/-- `Resolver.resolve` on statements. -/
def resolveS : Nat → Stmt → RState → RState
  | 0, _, r => { r with ranOut := true }
  | k + 1, s, r =>
    match s with
    | .block stmts => endScopeR (resolveSList k stmts (beginScopeR r))
    | .classS name methods =>
      let enclosing := r.currentClass
      let r1 := { r with currentClass := .CLASS }
      let r2 := defineR name (declareR name r1)
      let r3 := beginScopeR r2
      let r4 :=
        match r3.scopes with
        | [] => r3
        | sc :: rest => { r3 with scopes := setBinding sc "this".toList true :: rest }
      let r5 := resolveMethods k methods r4
      let r6 := endScopeR r5
      { r6 with currentClass := enclosing }
    | .exprS e => resolveE k e r
    | .funcS decl =>
      let r1 := defineR decl.name (declareR decl.name r)
      resolveFunR k decl.params decl.body .FUNCTION r1
    | .ifS cond thenB elseB =>
      resolveOS k elseB (resolveS k thenB (resolveE k cond r))
    | .printS e => resolveE k e r
    | .returnS kw value =>
      let r1 := if r.currentFun = .NONE then
          rerr kw "Can’t return from top-level code".toList r
        else r
      let r2 := if value.isSome ∧ r1.currentFun = .INITIALIZER then
          rerr kw "Can’t return a value from an initializer".toList r1
        else r1
      resolveOE k value r2
    | .varS name init =>
      defineR name (resolveOE k init (declareR name r))
    | .whileS cond body => resolveS k body (resolveE k cond r)

def resolveSList : Nat → List Stmt → RState → RState
  | 0, _, r => { r with ranOut := true }
  | _ + 1, [], r => r
  | k + 1, s :: rest, r => resolveSList k rest (resolveS k s r)

def resolveOS : Nat → Option Stmt → RState → RState
  | 0, _, r => { r with ranOut := true }
  | _ + 1, none, r => r
  | k + 1, some s, r => resolveS k s r

/-- `Resolver._resolve_fun`: set the function kind, push the parameter
scope, declare + define each parameter, resolve the body, pop, restore. -/
def resolveFunR : Nat → List Token → List Stmt → FunKind → RState → RState
  | 0, _, _, _, r => { r with ranOut := true }
  | k + 1, params, body, kind, r =>
    let enclosing := r.currentFun
    let r1 := { r with currentFun := kind }
    let r2 := beginScopeR r1
    let r3 := params.foldl (fun acc p => defineR p (declareR p acc)) r2
    let r4 := resolveSList k body r3
    let r5 := endScopeR r4
    { r5 with currentFun := enclosing }

/-- The method loop of the resolver's `Class` case (`init` methods are
resolved as initializers). -/
def resolveMethods : Nat → List FunDecl → RState → RState
  | 0, _, r => { r with ranOut := true }
  | _ + 1, [], r => r
  | k + 1, m :: rest, r =>
    let kind := if m.name.lexeme = "init".toList then FunKind.INITIALIZER else FunKind.METHOD
    resolveMethods k rest (resolveFunR k m.params m.body kind r)

end

/-- `resolve(logger, interpreter, stmts)`: run the resolver over a
program from the initial state. -/
def runResolver (fuel : Nat) (prog : List Stmt) : RState :=
  resolveSList fuel prog initRState

/-! ## Node identities of a subtree, and parser-shaped programs -/

mutual
/-- All node identities occurring in an expression. -/
def exprNids : Expr → List Nat
  | .assign n _ v => n :: exprNids v
  | .binary n l _ r => n :: (exprNids l ++ exprNids r)
  | .call n c _ args => n :: (exprNids c ++ exprNidsList args)
  | .get n o _ => n :: exprNids o
  | .grouping n e => n :: exprNids e
  | .literal n _ => [n]
  | .logical n l _ r => n :: (exprNids l ++ exprNids r)
  | .set n o _ v => n :: (exprNids o ++ exprNids v)
  | .this n _ => [n]
  | .unary n _ e => n :: exprNids e
  | .var n _ => [n]

def exprNidsList : List Expr → List Nat
  | [] => []
  | e :: rest => exprNids e ++ exprNidsList rest
end

/-- Node identities of an optional initializer / return value. -/
def optExprNids : Option Expr → List Nat
  | none => []
  | some e => exprNids e

mutual
/-- All node identities occurring in a statement. -/
def stmtNids : Stmt → List Nat
  | .block stmts => stmtNidsList stmts
  | .classS _ methods => methodNids methods
  | .exprS e => exprNids e
  | .funcS d => funNids d
  | .ifS c t e => exprNids c ++ stmtNids t ++ (match e with | none => [] | some s => stmtNids s)
  | .printS e => exprNids e
  | .returnS _ v => optExprNids v
  | .varS _ i => optExprNids i
  | .whileS c b => exprNids c ++ stmtNids b

def stmtNidsList : List Stmt → List Nat
  | [] => []
  | s :: rest => stmtNids s ++ stmtNidsList rest

def funNids : FunDecl → List Nat
  | .mk _ _ body => stmtNidsList body

def methodNids : List FunDecl → List Nat
  | [] => []
  | m :: rest => funNids m ++ methodNids rest
end

/-- Is the statement not a declaration?  The grammar puts declarations
(`var`, `fun`, `class`) only at `declaration` positions — a program list
or a block body — never as a bare branch of `if`/`while`. -/
def isNonDecl : Stmt → Bool
  | .varS _ _ => false
  | .funcS _ => false
  | .classS _ _ => false
  | _ => true

mutual
/-- The shape invariant every parser-produced statement satisfies:
`if`/`while` branches are plain statements, and no declaration binds the
reserved lexeme `this` (the scanner turns it into a keyword token, which
the parser never accepts as a name). -/
def wellShapedS : Stmt → Bool
  | .block stmts => wellShapedSList stmts
  | .classS name methods =>
    name.lexeme ≠ "this".toList && wellShapedMethods methods
  | .exprS _ => true
  | .funcS d => wellShapedFun d
  | .ifS _ t e =>
    isNonDecl t && wellShapedS t &&
      (match e with
        | none => true
        | some s => isNonDecl s && wellShapedS s)
  | .printS _ => true
  | .returnS _ _ => true
  | .varS name _ => name.lexeme ≠ "this".toList
  | .whileS _ b => isNonDecl b && wellShapedS b

def wellShapedSList : List Stmt → Bool
  | [] => true
  | s :: rest => wellShapedS s && wellShapedSList rest

def wellShapedFun : FunDecl → Bool
  | .mk name params body =>
    name.lexeme ≠ "this".toList &&
      params.all (fun p => p.lexeme ≠ "this".toList) &&
      wellShapedSList body

def wellShapedMethods : List FunDecl → Bool
  | [] => true
  | m :: rest => wellShapedFun m && wellShapedMethods rest
end

/-! ### Association-list and table laws -/

theorem getBinding_setBinding {α : Type} (bs : List (List Char × α))
    (n : List Char) (v : α) (m : List Char) :
    getBinding (setBinding bs n v) m = if m = n then some v else getBinding bs m := by
  induction bs with
  | nil =>
    by_cases h : n = m
    · simp [setBinding, getBinding, h]
    · simp [setBinding, getBinding, h, Ne.symm h]
  | cons kv rest ih =>
    obtain ⟨k, w⟩ := kv
    by_cases hk : k = n
    · subst hk
      by_cases hm : k = m
      · subst hm
        simp [setBinding, getBinding]
      · simp [setBinding, getBinding, hm, Ne.symm hm]
    · by_cases hm : k = m
      · subst hm
        simp [setBinding, getBinding, hk, Ne.symm hk]
      · simp [setBinding, getBinding, hk, hm, ih]

theorem tableGet_tableSet (L : Table) (nid d : Nat) (m : Nat) :
    tableGet (tableSet L nid d) m = if m = nid then some d else tableGet L m := by
  induction L with
  | nil =>
    by_cases h : nid = m
    · simp [tableSet, tableGet, h]
    · simp [tableSet, tableGet, h, Ne.symm h]
  | cons kv rest ih =>
    obtain ⟨k, w⟩ := kv
    by_cases hk : k = nid
    · subst hk
      by_cases hm : k = m
      · subst hm
        simp [tableSet, tableGet]
      · simp [tableSet, tableGet, hm, Ne.symm hm]
    · by_cases hm : k = m
      · subst hm
        simp [tableSet, tableGet, hk, Ne.symm hk]
      · simp [tableSet, tableGet, hk, hm, ih]

/-! ## C1: the counterexample program `{ var a = (a = 2); }` -/

/-- The token of the declared variable `a` (third token of the source). -/
def cexTok : Token := ⟨.IDENTIFIER, ['a'], none, 7, 1⟩

/-- The token of the assignment target `a` inside the initializer. -/
def cexTok2 : Token := ⟨.IDENTIFIER, ['a'], none, 12, 1⟩

/-- The initializer `(a = 2)`: the assignment node has identity 2. -/
def cexInit : Expr := .grouping 3 (.assign 2 cexTok2 (.literal 1 (.num 2)))

/-- The program `{ var a = (a = 2); }` — exactly the AST the parser
produces for that source (node identities in completion order: the
discarded `Variable` target gets 0, the literal 1, the assignment 2, the
grouping 3). -/
def cexProg : List Stmt := [Stmt.block [Stmt.varS cexTok (some cexInit)]]

/-- The resolver's side table for the counterexample program. -/
def cexT : Table := (runResolver 10 cexProg).table

/-- The run state after the block statement has pushed its child frame
(arena index 1, empty, enclosing the global frame 0). -/
def cexStB : RtState := (rtPush (initRtState 4 0) (some 0)).1

/-- Did the run complete without an uncaught exception? -/
def isOkU : RRes Unit → Bool
  | .ok _ _ => true
  | _ => false

/-- C1 counterexample: the program `{ var a = (a = 2); }` parses and
resolves without error, and the resolver records the `Assign` node
(identity 2) in the side table with distance 0; but at the moment the
interpreter evaluates that `Assign`, walking 0 parent links from the
current environment reaches the block's frame, whose bindings do *not*
contain the lexeme `a` — the `var` statement defines `a` only after its
initializer has been evaluated.  `get_at(0, 'a')` there is a host
`KeyError`, refuting "reaches a frame whose bindings contain the token's
lexeme, so that get_at(d, lexeme) ... succeed[s]"; `assign_at` still
succeeds, by *creating* the binding, and the whole run completes. -/
theorem C1_resolved_frame_unbound_counterexample :
    -- the program resolves without error and the Assign node is recorded
    -- in the side table at distance 0
    (runResolver 10 cexProg).errs = [] ∧
    (runResolver 10 cexProg).ranOut = false ∧
    cexT = [(2, 0)] ∧
    -- the run reaches the Assign: the block pushes the empty frame 1 and
    -- executes the `var` statement there ...
    execS cexT 9 0 (Stmt.block [Stmt.varS cexTok (some cexInit)]) (initRtState 4 0) =
      execBlockStmts cexT 8 1 [Stmt.varS cexTok (some cexInit)] cexStB ∧
    -- ... whose initializer evaluation starts exactly at the Assign node,
    -- in frame 1 of state `cexStB`, and only then defines `a`
    execBlockStmts cexT 8 1 [Stmt.varS cexTok (some cexInit)] cexStB =
      (evalE cexT 5 1 (Expr.assign 2 cexTok2 (.literal 1 (.num 2))) cexStB).andThen
        (fun v st1 =>
          (RRes.ok () (rtDefine st1 1 cexTok.lexeme v)).andThen
            (fun _ st2 => execBlockStmts cexT 7 1 [] st2)) ∧
    -- at that moment, walking 0 parent links reaches frame 1, whose
    -- bindings do NOT contain the lexeme 'a'
    frameAt cexStB.envs 1 = some ⟨[], some 0⟩ ∧
    getBinding (Frame.bindings (α := Value) ⟨[], some 0⟩) cexTok2.lexeme = none ∧
    -- get_at(0, 'a') there raises the host KeyError ...
    getAtE cexStB.envs 1 0 cexTok2.lexeme = (.error .hostKeyError : Except RTErr Value) ∧
    -- ... while assign_at(0, 'a', 2) succeeds by creating the binding
    assignAtE cexStB.envs 1 0 cexTok2 (.num 2) =
      .ok [⟨[("clock".toList, .native .clock), ("printf".toList, .native .printf)], none⟩,
           ⟨[(['a'], .num 2)], some 0⟩] ∧
    -- and the whole run completes without an uncaught exception
    isOkU (interpretStmts cexT 10 cexProg (initRtState 4 0)) = true := by
  exact ⟨rfl, rfl, rfl, rfl, rfl, rfl, rfl, rfl, rfl, rfl⟩

/-! ## Static scope stacks: the shapes the resolver gives them

Pure counterparts of `_declare`/`_define` on scope stacks, and the
flag-discipline facts the bridge from the functional resolver to the
declarative resolution relation rests on. -/

/-- `_declare` on the scope stack alone (head scope gains `name ↦ false`;
the global stack is untouched). -/
def decScopes (name : List Char) : List ScopeT → List ScopeT
  | [] => []
  | sc :: rest => setBinding sc name false :: rest

/-- `_define` on the scope stack alone (head scope gains `name ↦ true`). -/
def defScopes (name : List Char) : List ScopeT → List ScopeT
  | [] => []
  | sc :: rest => setBinding sc name true :: rest

/-- The flag the scope at depth `j` holds for `name`. -/
def flagAt (S : List ScopeT) (j : Nat) (name : List Char) : Option Bool :=
  match S.get? j with
  | some sc => getBinding sc name
  | none => none

/-- Every flag in the scope is `True` (no declaration in flight). -/
def ScAllTrue (sc : ScopeT) : Prop := ∀ n b, getBinding sc n = some b → b = true

/-- Every flag in the whole stack is `True`. -/
def AllTrueS (S : List ScopeT) : Prop := ∀ sc ∈ S, ScAllTrue sc

/-- Every flag below the innermost scope is `True` (inside a `var`
initializer only the head scope holds a `False` flag). -/
def TailTrue (S : List ScopeT) : Prop := ∀ sc ∈ S.tail, ScAllTrue sc

/-- Every flag for the name `this` is `True` (only the resolver's class
scope ever binds `this`, and it binds it defined). -/
def ThisTrue (S : List ScopeT) : Prop :=
  ∀ j b, flagAt S j "this".toList = some b → b = true

/-- The invariant under which expressions are resolved. -/
def InvS (S : List ScopeT) : Prop := TailTrue S ∧ ThisTrue S

/-- The parameter fold of `_resolve_fun` on a bare scope. -/
def foldSc (params : List Token) (sc : ScopeT) : ScopeT :=
  params.foldl (fun s p => setBinding (setBinding s p.lexeme false) p.lexeme true) sc

/-- The scope `_resolve_fun` builds for the parameters. -/
def paramScope (params : List Token) : ScopeT := foldSc params []

/-- How one statement transforms the scope stack in the resolver (a
declaration declares-then-defines its name in the head scope; everything
else restores the stack). -/
def stmtScopesUpd : Stmt → List ScopeT → List ScopeT
  | .varS name _, S => defScopes name.lexeme (decScopes name.lexeme S)
  | .funcS d, S => defScopes d.name.lexeme (decScopes d.name.lexeme S)
  | .classS name _, S => defScopes name.lexeme (decScopes name.lexeme S)
  | _, S => S

/-- `stmtScopesUpd` folded over a statement list. -/
def listScopesUpd : List Stmt → List ScopeT → List ScopeT
  | [], S => S
  | s :: rest, S => listScopesUpd rest (stmtScopesUpd s S)

theorem scopeDist_lt {S : List ScopeT} {name : List Char} {j : Nat}
    (h : scopeDist S name = some j) : j < S.length := by
  induction S generalizing j with
  | nil => simp [scopeDist] at h
  | cons sc rest ih =>
    by_cases hh : (getBinding sc name).isSome
    · simp [scopeDist, hh] at h
      simp [← h]
    · simp [scopeDist, hh, Option.map_eq_some'] at h
      obtain ⟨j2, hj2, rfl⟩ := h
      have := ih hj2
      simp only [List.length_cons]
      omega

theorem scopeDist_flagAt {S : List ScopeT} {name : List Char} {j : Nat}
    (h : scopeDist S name = some j) : ∃ b, flagAt S j name = some b := by
  induction S generalizing j with
  | nil => simp [scopeDist] at h
  | cons sc rest ih =>
    by_cases hh : (getBinding sc name).isSome
    · simp [scopeDist, hh] at h
      subst h
      obtain ⟨b, hb⟩ := Option.isSome_iff_exists.mp hh
      exact ⟨b, by simpa [flagAt] using hb⟩
    · simp [scopeDist, hh, Option.map_eq_some'] at h
      obtain ⟨j2, hj2, rfl⟩ := h
      obtain ⟨b, hb⟩ := ih hj2
      exact ⟨b, by simpa [flagAt] using hb⟩

theorem flagAt_mem {S : List ScopeT} {j : Nat} {name : List Char} {b : Bool}
    (h : flagAt S j name = some b) :
    ∃ sc, S.get? j = some sc ∧ getBinding sc name = some b := by
  unfold flagAt at h
  match hg : S[j]? with
  | some sc =>
    refine ⟨sc, ?_, by simpa [hg] using h⟩
    rw [List.get?_eq_getElem?, hg]
  | none => simp [hg] at h

theorem allTrueS_flagAt {S : List ScopeT} {j : Nat} {name : List Char} {b : Bool}
    (hS : AllTrueS S) (h : flagAt S j name = some b) : b = true := by
  obtain ⟨sc, hsc, hb⟩ := flagAt_mem h
  exact hS sc (List.get?_mem hsc) name b hb

theorem tailTrue_flagAt {S : List ScopeT} {j : Nat} {name : List Char} {b : Bool}
    (hS : TailTrue S) (hj : 1 ≤ j) (h : flagAt S j name = some b) : b = true := by
  match S, j with
  | [], j => simp [flagAt] at h
  | sc :: rest, j + 1 =>
    have h2 : flagAt rest j name = some b := by simpa [flagAt] using h
    obtain ⟨sc2, hsc2, hb⟩ := flagAt_mem h2
    exact hS sc2 (List.get?_mem hsc2) name b hb

theorem allTrueS_invS {S : List ScopeT} (hS : AllTrueS S) : InvS S := by
  refine ⟨fun sc hsc => hS sc (List.mem_of_mem_tail hsc), fun j b hb => allTrueS_flagAt hS hb⟩

theorem scAllTrue_nil : ScAllTrue ([] : ScopeT) := by
  intro n b h
  simp [getBinding] at h

theorem scAllTrue_defDec {sc : ScopeT} {n : List Char} (h : ScAllTrue sc) :
    ScAllTrue (setBinding (setBinding sc n false) n true) := by
  intro m b hm
  rw [getBinding_setBinding] at hm
  by_cases hmn : m = n
  · rw [if_pos hmn] at hm
    exact (Option.some.inj hm).symm
  · rw [if_neg hmn, getBinding_setBinding, if_neg hmn] at hm
    exact h m b hm

theorem scAllTrue_foldSc {params : List Token} {sc : ScopeT} (h : ScAllTrue sc) :
    ScAllTrue (foldSc params sc) := by
  induction params generalizing sc with
  | nil => exact h
  | cons p rest ih => exact ih (scAllTrue_defDec h)

theorem paramScope_allTrue (params : List Token) : ScAllTrue (paramScope params) :=
  scAllTrue_foldSc scAllTrue_nil

theorem allTrueS_cons {sc : ScopeT} {S : List ScopeT} (h1 : ScAllTrue sc)
    (h2 : AllTrueS S) : AllTrueS (sc :: S) := by
  intro sc2 hsc2
  rcases List.mem_cons.mp hsc2 with h | h
  · exact h ▸ h1
  · exact h2 sc2 h

theorem allTrueS_defDec {S : List ScopeT} {n : List Char} (h : AllTrueS S) :
    AllTrueS (defScopes n (decScopes n S)) := by
  match S with
  | [] => simpa [decScopes, defScopes]
  | sc :: rest =>
    simp only [decScopes, defScopes]
    exact allTrueS_cons (scAllTrue_defDec (h sc (by simp)))
      (fun sc2 hsc2 => h sc2 (by simp [hsc2]))

theorem invS_dec {S : List ScopeT} {name : List Char} (hS : AllTrueS S)
    (hname : name ≠ "this".toList) : InvS (decScopes name S) := by
  match S with
  | [] => exact allTrueS_invS (by simpa [decScopes])
  | sc :: rest =>
    constructor
    · intro sc2 hsc2
      exact hS sc2 (by simp only [decScopes, List.tail_cons] at hsc2; simp [hsc2])
    · intro j b hb
      match j with
      | 0 =>
        have h2 : getBinding (setBinding sc name false) "this".toList = some b := by
          simpa [flagAt, decScopes] using hb
        rw [getBinding_setBinding, if_neg (fun hh => hname hh.symm)] at h2
        exact hS sc (by simp) _ b h2
      | j + 1 =>
        have h2 : flagAt rest j "this".toList = some b := by
          simpa [flagAt, decScopes] using hb
        obtain ⟨sc2, hsc2, hb2⟩ := flagAt_mem h2
        exact hS sc2 (by simp [List.get?_mem hsc2]) _ b hb2

/-! ## The declarative resolution relation

What a completed, error-free resolver run guarantees each node: a
`Variable`/`This` read recorded at distance `d` sees the flag `True` at
depth `d` of the static scope stack in force at that node; an `Assign`
recorded at `d` sees at least an existing depth `d`; nodes absent from the
table are unconstrained (global fallback).  Statements thread the stack by
`stmtScopesUpd`. -/

/-- A read of `name` recorded in the table at distance `d` finds the flag
`True` at depth `d` (in particular depth `d` exists). -/
def ReadOK (L : Table) (S : List ScopeT) (nid : Nat) (name : List Char) : Prop :=
  ∀ d, tableGet L nid = some d → flagAt S d name = some true

/-- An assignment recorded at distance `d` finds at least an existing
scope at depth `d` (the binding itself may still be in flight: `assign_at`
creates it). -/
def AssignOK (L : Table) (S : List ScopeT) (nid : Nat) : Prop :=
  ∀ d, tableGet L nid = some d → d < S.length

mutual

inductive REx : Table → List ScopeT → Expr → Prop where
  | assign {L S nid name value} : REx L S value → AssignOK L S nid →
      REx L S (.assign nid name value)
  | binary {L S n l op r} : REx L S l → REx L S r → REx L S (.binary n l op r)
  | call {L S n callee paren args} : REx L S callee → RExList L S args →
      REx L S (.call n callee paren args)
  | get {L S n obj name} : REx L S obj → REx L S (.get n obj name)
  | grouping {L S n inner} : REx L S inner → REx L S (.grouping n inner)
  | literal {L S n v} : REx L S (.literal n v)
  | logical {L S n l op r} : REx L S l → REx L S r → REx L S (.logical n l op r)
  | setE {L S n obj name value} : REx L S value → REx L S obj →
      REx L S (.set n obj name value)
  | this {L S nid kw} : ReadOK L S nid kw.lexeme → REx L S (.this nid kw)
  | unary {L S n op operand} : REx L S operand → REx L S (.unary n op operand)
  | var {L S nid name} : ReadOK L S nid name.lexeme → REx L S (.var nid name)

inductive RExList : Table → List ScopeT → List Expr → Prop where
  | nil {L S} : RExList L S []
  | cons {L S e rest} : REx L S e → RExList L S rest → RExList L S (e :: rest)

end

mutual

inductive RSt : Table → List ScopeT → List ScopeT → Stmt → Prop where
  | block {L S S2 stmts} : RSl L (([] : ScopeT) :: S) S2 stmts →
      RSt L S S (.block stmts)
  | classS {L S name methods} :
      RSt L S (defScopes name.lexeme (decScopes name.lexeme S)) (.classS name methods)
  | exprS {L S e} : REx L S e → RSt L S S (.exprS e)
  | funcS {L S d} :
      RFunB L (defScopes (FunDecl.name d).lexeme (decScopes (FunDecl.name d).lexeme S)) d →
      RSt L S (defScopes (FunDecl.name d).lexeme (decScopes (FunDecl.name d).lexeme S))
        (.funcS d)
  | ifS {L S c t e} : REx L S c → RSt L S S t → RStO L S e → RSt L S S (.ifS c t e)
  | printS {L S e} : REx L S e → RSt L S S (.printS e)
  | returnNone {L S kw} : RSt L S S (.returnS kw none)
  | returnSome {L S kw e} : REx L S e → RSt L S S (.returnS kw (some e))
  | varNone {L S name} :
      RSt L S (defScopes name.lexeme (decScopes name.lexeme S)) (.varS name none)
  | varSome {L S name e} : REx L (decScopes name.lexeme S) e →
      RSt L S (defScopes name.lexeme (decScopes name.lexeme S)) (.varS name (some e))
  | whileS {L S c b} : REx L S c → RSt L S S b → RSt L S S (.whileS c b)

inductive RStO : Table → List ScopeT → Option Stmt → Prop where
  | none {L S} : RStO L S none
  | some {L S s} : RSt L S S s → RStO L S (some s)

inductive RSl : Table → List ScopeT → List ScopeT → List Stmt → Prop where
  | nil {L S} : RSl L S S []
  | cons {L S S1 S2 s rest} : RSt L S S1 s → RSl L S1 S2 rest → RSl L S S2 (s :: rest)

inductive RFunB : Table → List ScopeT → FunDecl → Prop where
  | mk {L S S2 name params body} : RSl L (paramScope params :: S) S2 body →
      RFunB L S (.mk name params body)

end

/-- An expression none of whose nodes is in the side table (such as one
`printf` parses at run time, whose identities are fresh) is resolved
under any stack: every lookup falls back to the global frame. -/
theorem tfreeREx (L : Table) (S : List ScopeT) :
    ∀ (e : Expr), (∀ n ∈ exprNids e, tableGet L n = none) → REx L S e := by
  have main : ∀ (e : Expr), (∀ n ∈ exprNids e, tableGet L n = none) → REx L S e := by
    intro e
    induction e using Expr.rec
      (motive_2 := fun es => (∀ n ∈ exprNidsList es, tableGet L n = none) → RExList L S es)
    case assign nid name value ih =>
      intro h
      exact .assign (ih fun n hn => h n (by simp [exprNids, hn]))
        (fun d hd => by rw [h nid (by simp [exprNids])] at hd; cases hd)
    case binary n l op r ihl ihr =>
      intro h
      exact .binary (ihl fun n hn => h n (by simp [exprNids, hn]))
        (ihr fun n hn => h n (by simp [exprNids, hn]))
    case call n callee paren args ihc iha =>
      intro h
      exact .call (ihc fun n hn => h n (by simp [exprNids, hn]))
        (iha fun n hn => h n (by simp [exprNids, hn]))
    case get n obj name ih =>
      intro h
      exact .get (ih fun n hn => h n (by simp [exprNids, hn]))
    case grouping n inner ih =>
      intro h
      exact .grouping (ih fun n hn => h n (by simp [exprNids, hn]))
    case literal n v =>
      intro h
      exact .literal
    case logical n l op r ihl ihr =>
      intro h
      exact .logical (ihl fun n hn => h n (by simp [exprNids, hn]))
        (ihr fun n hn => h n (by simp [exprNids, hn]))
    case set n obj name value iho ihv =>
      intro h
      exact .setE (ihv fun n hn => h n (by simp [exprNids, hn]))
        (iho fun n hn => h n (by simp [exprNids, hn]))
    case this nid kw =>
      intro h
      exact .this (fun d hd => by rw [h nid (by simp [exprNids])] at hd; cases hd)
    case unary n op operand ih =>
      intro h
      exact .unary (ih fun n hn => h n (by simp [exprNids, hn]))
    case var nid name =>
      intro h
      exact .var (fun d hd => by rw [h nid (by simp [exprNids])] at hd; cases hd)
    case nil =>
      exact .nil
    case cons e rest ihe ihr =>
      exact .cons (rest fun n hn => ihr n (by simp [exprNidsList, hn]))
        (ihe fun n hn => ihr n (by simp [exprNidsList, hn]))
  exact main

/-! ## Resolver primitives: state-component equations -/

@[simp] theorem rerr_scopes (t : Token) (m : List Char) (r : RState) :
    (rerr t m r).scopes = r.scopes := rfl

@[simp] theorem rerr_table (t : Token) (m : List Char) (r : RState) :
    (rerr t m r).table = r.table := rfl

@[simp] theorem rerr_ranOut (t : Token) (m : List Char) (r : RState) :
    (rerr t m r).ranOut = r.ranOut := rfl

@[simp] theorem rerr_errs (t : Token) (m : List Char) (r : RState) :
    (rerr t m r).errs = r.errs ++ [(t, m)] := rfl

@[simp] theorem beginScopeR_scopes (r : RState) :
    (beginScopeR r).scopes = ([] : ScopeT) :: r.scopes := rfl

@[simp] theorem beginScopeR_table (r : RState) : (beginScopeR r).table = r.table := rfl

@[simp] theorem beginScopeR_ranOut (r : RState) : (beginScopeR r).ranOut = r.ranOut := rfl

@[simp] theorem beginScopeR_errs (r : RState) : (beginScopeR r).errs = r.errs := rfl

@[simp] theorem endScopeR_scopes (r : RState) : (endScopeR r).scopes = r.scopes.tail := rfl

@[simp] theorem endScopeR_table (r : RState) : (endScopeR r).table = r.table := rfl

@[simp] theorem endScopeR_ranOut (r : RState) : (endScopeR r).ranOut = r.ranOut := rfl

@[simp] theorem endScopeR_errs (r : RState) : (endScopeR r).errs = r.errs := rfl

@[simp] theorem declareR_scopes (name : Token) (r : RState) :
    (declareR name r).scopes = decScopes name.lexeme r.scopes := by
  unfold declareR
  cases hs : r.scopes with
  | nil => simp [decScopes, hs]
  | cons sc rest =>
    by_cases hb : (getBinding sc name.lexeme).isSome <;> simp [decScopes, hb]

@[simp] theorem declareR_table (name : Token) (r : RState) :
    (declareR name r).table = r.table := by
  unfold declareR
  cases hs : r.scopes with
  | nil => rfl
  | cons sc rest =>
    by_cases hb : (getBinding sc name.lexeme).isSome <;> simp [hb]

@[simp] theorem declareR_ranOut (name : Token) (r : RState) :
    (declareR name r).ranOut = r.ranOut := by
  unfold declareR
  cases hs : r.scopes with
  | nil => rfl
  | cons sc rest =>
    by_cases hb : (getBinding sc name.lexeme).isSome <;> simp [hb]

theorem declareR_errs (name : Token) (r : RState) :
    ∃ t, (declareR name r).errs = r.errs ++ t := by
  unfold declareR
  cases hs : r.scopes with
  | nil => exact ⟨[], by simp⟩
  | cons sc rest =>
    by_cases hb : (getBinding sc name.lexeme).isSome
    · refine ⟨[(name, "Already a variable with this name in scope".toList)], ?_⟩
      simp [hb, rerr]
    · exact ⟨[], by simp [hb]⟩

@[simp] theorem defineR_scopes (name : Token) (r : RState) :
    (defineR name r).scopes = defScopes name.lexeme r.scopes := by
  unfold defineR
  cases hs : r.scopes with
  | nil => simp [defScopes, hs]
  | cons sc rest => simp [defScopes]

@[simp] theorem defineR_table (name : Token) (r : RState) :
    (defineR name r).table = r.table := by
  unfold defineR
  cases hs : r.scopes with
  | nil => rfl
  | cons sc rest => rfl

@[simp] theorem defineR_ranOut (name : Token) (r : RState) :
    (defineR name r).ranOut = r.ranOut := by
  unfold defineR
  cases hs : r.scopes with
  | nil => rfl
  | cons sc rest => rfl

@[simp] theorem defineR_errs (name : Token) (r : RState) :
    (defineR name r).errs = r.errs := by
  unfold defineR
  cases hs : r.scopes with
  | nil => rfl
  | cons sc rest => rfl

@[simp] theorem resolveLocalR_scopes (nid : Nat) (name : Token) (r : RState) :
    (resolveLocalR nid name r).scopes = r.scopes := by
  unfold resolveLocalR
  split <;> rfl

@[simp] theorem resolveLocalR_errs (nid : Nat) (name : Token) (r : RState) :
    (resolveLocalR nid name r).errs = r.errs := by
  unfold resolveLocalR
  split <;> rfl

@[simp] theorem resolveLocalR_ranOut (nid : Nat) (name : Token) (r : RState) :
    (resolveLocalR nid name r).ranOut = r.ranOut := by
  unfold resolveLocalR
  split <;> rfl

theorem resolveLocalR_table_ne (nid : Nat) (name : Token) (r : RState) (n : Nat)
    (h : n ≠ nid) :
    tableGet (resolveLocalR nid name r).table n = tableGet r.table n := by
  unfold resolveLocalR
  split
  · simp [tableGet_tableSet, h]
  · rfl

/-! ## Helpers for the resolver inductions -/

theorem append_self_nil {α : Type} {a t : List α} (h : a ++ t = a) : t = [] := by
  have hl := congrArg List.length h
  simp at hl
  exact hl

/-- Branches of `if`/`while` (never declarations) leave the scope stack
unchanged. -/
theorem nonDecl_upd {s : Stmt} (h : isNonDecl s = true) (S : List ScopeT) :
    stmtScopesUpd s S = S := by
  cases s <;> simp [isNonDecl] at h ⊢ <;> rfl

/-- The shape invariant of an optional `else` branch. -/
def wellShapedO : Option Stmt → Bool
  | none => true
  | some s => isNonDecl s && wellShapedS s

theorem wsIf {c : Expr} {t : Stmt} {e : Option Stmt}
    (h : wellShapedS (.ifS c t e) = true) :
    isNonDecl t = true ∧ wellShapedS t = true ∧ wellShapedO e = true := by
  cases e <;> simp [wellShapedS, wellShapedO, Bool.and_eq_true] at h ⊢ <;> tauto

theorem wsWhile {c : Expr} {b : Stmt} (h : wellShapedS (.whileS c b) = true) :
    isNonDecl b = true ∧ wellShapedS b = true := by
  simp [wellShapedS, Bool.and_eq_true] at h
  tauto

theorem wsFun_body {d : FunDecl} (h : wellShapedFun d = true) :
    wellShapedSList (FunDecl.body d) = true := by
  obtain ⟨n, p, b⟩ := d
  simp [wellShapedFun, Bool.and_eq_true] at h
  simpa [FunDecl.body] using h.2

theorem wsFun_name {d : FunDecl} (h : wellShapedFun d = true) :
    (FunDecl.name d).lexeme ≠ "this".toList := by
  obtain ⟨n, p, b⟩ := d
  simp [wellShapedFun, Bool.and_eq_true] at h
  simpa [FunDecl.name] using h.1.1

theorem wsClass {name : Token} {ms : List FunDecl}
    (h : wellShapedS (.classS name ms) = true) :
    name.lexeme ≠ "this".toList ∧ wellShapedMethods ms = true := by
  simpa [wellShapedS, Bool.and_eq_true] using h

theorem wsMethods {m : FunDecl} {rest : List FunDecl}
    (h : wellShapedMethods (m :: rest) = true) :
    wellShapedFun m = true ∧ wellShapedMethods rest = true := by
  simpa [wellShapedMethods, Bool.and_eq_true] using h

theorem wsList {s : Stmt} {rest : List Stmt}
    (h : wellShapedSList (s :: rest) = true) :
    wellShapedS s = true ∧ wellShapedSList rest = true := by
  simpa [wellShapedSList, Bool.and_eq_true] using h

theorem wsVar {name : Token} {init : Option Expr}
    (h : wellShapedS (.varS name init) = true) :
    name.lexeme ≠ "this".toList := by
  simpa [wellShapedS] using h

/-- One statement's scope update touches only the head scope. -/
theorem stmtScopesUpd_tail (s : Stmt) (sc : ScopeT) (T : List ScopeT) :
    ∃ sc2, stmtScopesUpd s (sc :: T) = sc2 :: T := by
  cases s <;> exact ⟨_, rfl⟩

theorem listScopesUpd_tail (ss : List Stmt) (sc : ScopeT) (T : List ScopeT) :
    ∃ sc2, listScopesUpd ss (sc :: T) = sc2 :: T := by
  induction ss generalizing sc with
  | nil => exact ⟨sc, rfl⟩
  | cons s rest ih =>
    obtain ⟨sc2, h2⟩ := stmtScopesUpd_tail s sc T
    obtain ⟨sc3, h3⟩ := ih sc2
    exact ⟨sc3, by simp [listScopesUpd, h2, h3]⟩

/-- The resolver's parameter fold: scope-stack, table, fuel flag and
error behaviour. -/
theorem foldDD (params : List Token) (r : RState) (sc : ScopeT) (T : List ScopeT)
    (hs : r.scopes = sc :: T) :
    (params.foldl (fun acc p => defineR p (declareR p acc)) r).scopes =
        foldSc params sc :: T ∧
    (params.foldl (fun acc p => defineR p (declareR p acc)) r).table = r.table ∧
    (params.foldl (fun acc p => defineR p (declareR p acc)) r).ranOut = r.ranOut ∧
    ∃ t, (params.foldl (fun acc p => defineR p (declareR p acc)) r).errs = r.errs ++ t := by
  induction params generalizing r sc with
  | nil => exact ⟨hs, rfl, rfl, ⟨[], by simp⟩⟩
  | cons p ps ih =>
    have hstep : (defineR p (declareR p r)).scopes =
        setBinding (setBinding sc p.lexeme false) p.lexeme true :: T := by
      simp [hs, decScopes, defScopes]
    obtain ⟨h1, h2, h3, t1, h4⟩ := ih (defineR p (declareR p r)) _ hstep
    obtain ⟨t0, h0⟩ := declareR_errs p r
    refine ⟨by simpa [foldSc] using h1, by simpa using h2, by simpa using h3, ?_⟩
    refine ⟨t0 ++ t1, ?_⟩
    simp only [List.foldl_cons] at h4 ⊢
    rw [h4, defineR_errs, h0, List.append_assoc]

/-! ## Resolver plumbing: scope restore, error monotonicity, fuel flag

`PlumbProp r r2`: the step from `r` to `r2` preserved the scope stack,
only appended errors, and did not clear the fuel flag.  `SPlumb upd r r2`:
the same, except the scope stack was transformed by `upd` (conditional on
the run having completed). -/

def PlumbProp (r r2 : RState) : Prop :=
  r2.scopes = r.scopes ∧ (∃ t, r2.errs = r.errs ++ t) ∧
    (r2.ranOut = false → r.ranOut = false)

def SPlumb (upd : List ScopeT → List ScopeT) (r r2 : RState) : Prop :=
  (r2.ranOut = false → r2.scopes = upd r.scopes) ∧ (∃ t, r2.errs = r.errs ++ t) ∧
    (r2.ranOut = false → r.ranOut = false)

theorem plumb_refl (r : RState) : PlumbProp r r :=
  ⟨rfl, ⟨[], by simp⟩, fun h => h⟩

theorem plumb_trans {r r1 r2 : RState} (h1 : PlumbProp r r1) (h2 : PlumbProp r1 r2) :
    PlumbProp r r2 := by
  obtain ⟨s1, ⟨t1, e1⟩, o1⟩ := h1
  obtain ⟨s2, ⟨t2, e2⟩, o2⟩ := h2
  exact ⟨s2.trans s1, ⟨t1 ++ t2, by rw [e2, e1, List.append_assoc]⟩, fun h => o1 (o2 h)⟩

theorem plumb_out (r : RState) : PlumbProp r { r with ranOut := true } :=
  ⟨rfl, ⟨[], by simp⟩, by intro h; simp at h⟩

theorem splumb_out (upd : List ScopeT → List ScopeT) (r : RState) :
    SPlumb upd r { r with ranOut := true } :=
  ⟨by intro h; simp at h, ⟨[], by simp⟩, by intro h; simp at h⟩

theorem plumb_splumb {upd : List ScopeT → List ScopeT} {r r2 : RState}
    (h : PlumbProp r r2) (hupd : upd r.scopes = r.scopes) : SPlumb upd r r2 :=
  ⟨fun _ => h.1.trans hupd.symm, h.2.1, h.2.2⟩

theorem splumb_trans {f g : List ScopeT → List ScopeT} {r r1 r2 : RState}
    (h1 : SPlumb f r r1) (h2 : SPlumb g r1 r2) :
    SPlumb (fun S => g (f S)) r r2 := by
  obtain ⟨s1, ⟨t1, e1⟩, o1⟩ := h1
  obtain ⟨s2, ⟨t2, e2⟩, o2⟩ := h2
  refine ⟨?_, ⟨t1 ++ t2, by rw [e2, e1, List.append_assoc]⟩, fun h => o1 (o2 h)⟩
  intro h
  rw [s2 h, s1 (o2 h)]

theorem plumb_then_splumb {g : List ScopeT → List ScopeT} {r r1 r2 : RState}
    (h1 : PlumbProp r r1) (h2 : SPlumb g r1 r2) : SPlumb g r r2 := by
  obtain ⟨s1, ⟨t1, e1⟩, o1⟩ := h1
  obtain ⟨s2, ⟨t2, e2⟩, o2⟩ := h2
  refine ⟨?_, ⟨t1 ++ t2, by rw [e2, e1, List.append_assoc]⟩, fun h => o1 (o2 h)⟩
  intro h
  rw [s2 h, s1]

theorem splumb_then_plumb {g : List ScopeT → List ScopeT} {r r1 r2 : RState}
    (h1 : SPlumb g r r1) (h2 : PlumbProp r1 r2) : SPlumb g r r2 := by
  obtain ⟨s1, ⟨t1, e1⟩, o1⟩ := h1
  obtain ⟨s2, ⟨t2, e2⟩, o2⟩ := h2
  refine ⟨?_, ⟨t1 ++ t2, by rw [e2, e1, List.append_assoc]⟩, fun h => o1 (o2 h)⟩
  intro h
  rw [s2, s1 (o2 h)]

theorem splumb_congr {f g : List ScopeT → List ScopeT} {r r2 : RState}
    (h : SPlumb f r r2) (hfg : f r.scopes = g r.scopes) : SPlumb g r r2 :=
  ⟨fun hh => (h.1 hh).trans hfg, h.2.1, h.2.2⟩

theorem plumb_rerr (t : Token) (m : List Char) (r : RState) :
    PlumbProp r (rerr t m r) :=
  ⟨rfl, ⟨[(t, m)], rfl⟩, fun h => h⟩

theorem plumb_local (nid : Nat) (name : Token) (r : RState) :
    PlumbProp r (resolveLocalR nid name r) :=
  ⟨by simp, ⟨[], by simp⟩, by simp⟩

theorem splumb_declare (name : Token) (r : RState) :
    SPlumb (decScopes name.lexeme) r (declareR name r) := by
  obtain ⟨t, ht⟩ := declareR_errs name r
  exact ⟨fun _ => by simp, ⟨t, ht⟩, by simp⟩

theorem splumb_define (name : Token) (r : RState) :
    SPlumb (defScopes name.lexeme) r (defineR name r) :=
  ⟨fun _ => by simp, ⟨[], by simp⟩, by simp⟩

theorem splumb_begin (r : RState) :
    SPlumb (fun S => ([] : ScopeT) :: S) r (beginScopeR r) :=
  ⟨fun _ => by simp, ⟨[], by simp⟩, by simp⟩

theorem splumb_end (r : RState) : SPlumb List.tail r (endScopeR r) :=
  ⟨fun _ => by simp, ⟨[], by simp⟩, by simp⟩

/-- Plumbing of every resolver function: expressions preserve the scope
stack; statements transform it by `stmtScopesUpd` (when the run
completed); every function only appends errors and never clears the fuel
flag. -/
theorem resolverPlumb : ∀ k : Nat,
    (∀ e r, PlumbProp r (resolveE k e r)) ∧
    (∀ es r, PlumbProp r (resolveEList k es r)) ∧
    (∀ oe r, PlumbProp r (resolveOE k oe r)) ∧
    (∀ s r, wellShapedS s = true → SPlumb (stmtScopesUpd s) r (resolveS k s r)) ∧
    (∀ ss r, wellShapedSList ss = true →
      SPlumb (listScopesUpd ss) r (resolveSList k ss r)) ∧
    (∀ os r, wellShapedO os = true → SPlumb id r (resolveOS k os r)) ∧
    (∀ params body kind r, wellShapedSList body = true →
      SPlumb id r (resolveFunR k params body kind r)) ∧
    (∀ ms r, wellShapedMethods ms = true → SPlumb id r (resolveMethods k ms r)) := by
  intro k
  induction k with
  | zero =>
    exact ⟨fun e r => plumb_out r, fun es r => plumb_out r, fun oe r => plumb_out r,
      fun s r _ => splumb_out _ r, fun ss r _ => splumb_out _ r,
      fun os r _ => splumb_out _ r, fun p b kd r _ => splumb_out _ r,
      fun ms r _ => splumb_out _ r⟩
  | succ k ih =>
    obtain ⟨ihE, ihEL, ihOE, ihS, ihSL, ihOS, ihF, ihM⟩ := ih
    refine ⟨?_, ?_, ?_, ?_, ?_, ?_, ?_, ?_⟩
    · intro e r
      cases e with
      | assign nid name value => exact plumb_trans (ihE value r) (plumb_local _ _ _)
      | binary n l op rgt => exact plumb_trans (ihE l r) (ihE rgt _)
      | call n c p args => exact plumb_trans (ihE c r) (ihEL args _)
      | get n obj nm => exact ihE obj r
      | grouping n inner => exact ihE inner r
      | literal n v => exact plumb_refl r
      | logical n l op rgt => exact plumb_trans (ihE l r) (ihE rgt _)
      | set n obj nm value => exact plumb_trans (ihE value r) (ihE obj _)
      | this nid kw =>
        simp only [resolveE]
        split
        · exact plumb_trans (plumb_rerr _ _ _) (plumb_local _ _ _)
        · exact plumb_local _ _ _
      | unary n op operand => exact ihE operand r
      | var nid name =>
        simp only [resolveE]
        split
        · exact plumb_local _ _ _
        · split
          · exact plumb_trans (plumb_rerr _ _ _) (plumb_local _ _ _)
          · exact plumb_local _ _ _
    · intro es r
      cases es with
      | nil => exact plumb_refl r
      | cons e rest => exact plumb_trans (ihE e r) (ihEL rest _)
    · intro oe r
      cases oe with
      | none => exact plumb_refl r
      | some e => exact ihE e r
    · intro s r hws
      cases s with
      | block stmts =>
        have hb : wellShapedSList stmts = true := hws
        obtain ⟨sc2, hsc2⟩ := listScopesUpd_tail stmts [] r.scopes
        refine splumb_congr
          (splumb_trans (splumb_trans (splumb_begin r) (ihSL stmts _ hb)) (splumb_end _)) ?_
        simp [hsc2, stmtScopesUpd]
      | classS name methods =>
        obtain ⟨hname, hms⟩ := wsClass hws
        have p2 : SPlumb (fun S => defScopes name.lexeme (decScopes name.lexeme S)) r
            (defineR name (declareR name { r with currentClass := ClassKind.CLASS })) :=
          plumb_then_splumb ⟨rfl, ⟨[], by simp⟩, fun h => h⟩
            (splumb_trans (splumb_declare name { r with currentClass := ClassKind.CLASS })
              (splumb_define name
                (declareR name { r with currentClass := ClassKind.CLASS })))
        have p4 : SPlumb (fun S => setBinding ([] : ScopeT) "this".toList true :: S)
            (defineR name (declareR name { r with currentClass := ClassKind.CLASS }))
            { beginScopeR (defineR name (declareR name
                  { r with currentClass := ClassKind.CLASS })) with
                scopes := setBinding ([] : ScopeT) "this".toList true ::
                  (defineR name (declareR name
                    { r with currentClass := ClassKind.CLASS })).scopes } :=
          ⟨fun _ => by simp, ⟨[], by simp⟩, by simp⟩
        have p7 : ∀ r6 : RState,
            PlumbProp r6 { r6 with currentClass := r.currentClass } :=
          fun r6 => ⟨rfl, ⟨[], by simp⟩, fun h => h⟩
        refine splumb_congr (splumb_then_plumb
          (splumb_trans p2 (splumb_trans p4
            (splumb_trans (ihM methods _ hms) (splumb_end _)))) (p7 _)) ?_
        simp [stmtScopesUpd]
      | exprS e => exact plumb_splumb (ihE e r) rfl
      | funcS d =>
        have hbody : wellShapedSList (FunDecl.body d) = true := wsFun_body hws
        exact splumb_congr
          (splumb_trans
            (splumb_trans (splumb_declare (FunDecl.name d) r) (splumb_define _ _))
            (ihF (FunDecl.params d) (FunDecl.body d) .FUNCTION _ hbody))
          rfl
      | ifS c t e =>
        obtain ⟨hnd, hwt, hwe⟩ := wsIf hws
        refine splumb_congr
          (plumb_then_splumb (ihE c r) (splumb_trans (ihS t _ hwt) (ihOS e _ hwe))) ?_
        show id (stmtScopesUpd t r.scopes) = stmtScopesUpd (.ifS c t e) r.scopes
        rw [id_eq, nonDecl_upd hnd]
        rfl
      | printS e => exact plumb_splumb (ihE e r) rfl
      | returnS kw value =>
        simp only [resolveS]
        split
        · split
          · exact plumb_splumb
              (plumb_trans (plumb_trans (plumb_rerr _ _ _) (plumb_rerr _ _ _)) (ihOE _ _)) rfl
          · exact plumb_splumb (plumb_trans (plumb_rerr _ _ _) (ihOE _ _)) rfl
        · split
          · exact plumb_splumb (plumb_trans (plumb_rerr _ _ _) (ihOE _ _)) rfl
          · exact plumb_splumb (ihOE _ _) rfl
      | varS name init =>
        exact splumb_congr
          (splumb_trans
            (splumb_then_plumb (splumb_declare name r) (ihOE init _))
            (splumb_define name _))
          rfl
      | whileS c b =>
        obtain ⟨hnd, hwb⟩ := wsWhile hws
        refine splumb_congr (plumb_then_splumb (ihE c r) (ihS b _ hwb)) ?_
        show stmtScopesUpd b r.scopes = stmtScopesUpd (.whileS c b) r.scopes
        rw [nonDecl_upd hnd]
        rfl
    · intro ss r hws
      cases ss with
      | nil => exact plumb_splumb (plumb_refl r) rfl
      | cons s rest =>
        obtain ⟨hs, hrest⟩ := wsList hws
        exact splumb_congr (splumb_trans (ihS s r hs) (ihSL rest _ hrest)) rfl
    · intro os r hws
      cases os with
      | none => exact plumb_splumb (plumb_refl r) rfl
      | some s =>
        have h2 : isNonDecl s = true ∧ wellShapedS s = true := by
          simpa [wellShapedO, Bool.and_eq_true] using hws
        refine splumb_congr (ihS s r h2.2) ?_
        show stmtScopesUpd s r.scopes = id r.scopes
        rw [nonDecl_upd h2.1, id_eq]
    · intro params body kind r hbody
      obtain ⟨hsc3, htb3, hro3, t3, herr3⟩ :=
        foldDD params (beginScopeR { r with currentFun := kind }) [] r.scopes (by simp)
      have pFold : SPlumb (fun S => paramScope params :: S) r
          (params.foldl (fun acc p => defineR p (declareR p acc))
            (beginScopeR { r with currentFun := kind })) := by
        refine ⟨fun _ => ?_, ⟨t3, by simpa using herr3⟩, ?_⟩
        · rw [hsc3]; rfl
        · intro h
          rw [hro3] at h
          simpa using h
      have pList := ihSL body
        (params.foldl (fun acc p => defineR p (declareR p acc))
          (beginScopeR { r with currentFun := kind })) hbody
      have pEnd := splumb_end (resolveSList k body
        (params.foldl (fun acc p => defineR p (declareR p acc))
          (beginScopeR { r with currentFun := kind })))
      have pRestore : ∀ r5 : RState,
          PlumbProp r5 { r5 with currentFun := r.currentFun } :=
        fun r5 => ⟨rfl, ⟨[], by simp⟩, fun h => h⟩
      obtain ⟨sc2, hsc2⟩ := listScopesUpd_tail body (paramScope params) r.scopes
      refine splumb_congr
        (splumb_then_plumb (splumb_trans pFold (splumb_trans pList pEnd)) (pRestore _)) ?_
      simp [hsc2]
    · intro ms r hws
      cases ms with
      | nil => exact plumb_splumb (plumb_refl r) rfl
      | cons m rest =>
        obtain ⟨hm, hrest⟩ := wsMethods hws
        exact splumb_congr
          (splumb_trans (ihF (FunDecl.params m) (FunDecl.body m) _ r (wsFun_body hm))
            (ihM rest _ hrest))
          rfl

/-- Node identities of an optional `else` branch. -/
def optStmtNids : Option Stmt → List Nat
  | none => []
  | some s => stmtNids s

theorem stmtNids_if (c : Expr) (t : Stmt) (e : Option Stmt) :
    stmtNids (.ifS c t e) = exprNids c ++ stmtNids t ++ optStmtNids e := by
  cases e <;> rfl

/-- The resolver writes the side table only under the node identities of
the subtree it is resolving. -/
theorem resolverTable : ∀ k : Nat,
    (∀ e r n, n ∉ exprNids e →
      tableGet (resolveE k e r).table n = tableGet r.table n) ∧
    (∀ es r n, n ∉ exprNidsList es →
      tableGet (resolveEList k es r).table n = tableGet r.table n) ∧
    (∀ oe r n, n ∉ optExprNids oe →
      tableGet (resolveOE k oe r).table n = tableGet r.table n) ∧
    (∀ s r n, n ∉ stmtNids s →
      tableGet (resolveS k s r).table n = tableGet r.table n) ∧
    (∀ ss r n, n ∉ stmtNidsList ss →
      tableGet (resolveSList k ss r).table n = tableGet r.table n) ∧
    (∀ os r n, n ∉ optStmtNids os →
      tableGet (resolveOS k os r).table n = tableGet r.table n) ∧
    (∀ params body kind r n, n ∉ stmtNidsList body →
      tableGet (resolveFunR k params body kind r).table n = tableGet r.table n) ∧
    (∀ ms r n, n ∉ methodNids ms →
      tableGet (resolveMethods k ms r).table n = tableGet r.table n) := by
  intro k
  induction k with
  | zero =>
    exact ⟨fun _ _ _ _ => rfl, fun _ _ _ _ => rfl, fun _ _ _ _ => rfl, fun _ _ _ _ => rfl,
      fun _ _ _ _ => rfl, fun _ _ _ _ => rfl, fun _ _ _ _ _ _ => rfl, fun _ _ _ _ => rfl⟩
  | succ k ih =>
    obtain ⟨ihE, ihEL, ihOE, ihS, ihSL, ihOS, ihF, ihM⟩ := ih
    refine ⟨?_, ?_, ?_, ?_, ?_, ?_, ?_, ?_⟩
    · intro e r n hn
      cases e with
      | assign nid name value =>
        simp [exprNids] at hn
        rw [show resolveE (k + 1) (.assign nid name value) r =
            resolveLocalR nid name (resolveE k value r) from rfl,
          resolveLocalR_table_ne _ _ _ _ hn.1, ihE value r n hn.2]
      | binary nd l op rgt =>
        simp [exprNids] at hn
        rw [show resolveE (k + 1) (.binary nd l op rgt) r =
            resolveE k rgt (resolveE k l r) from rfl,
          ihE rgt _ n hn.2.2, ihE l _ n hn.2.1]
      | call nd c p args =>
        simp [exprNids] at hn
        rw [show resolveE (k + 1) (.call nd c p args) r =
            resolveEList k args (resolveE k c r) from rfl,
          ihEL args _ n hn.2.2, ihE c _ n hn.2.1]
      | get nd obj nm =>
        simp [exprNids] at hn
        rw [show resolveE (k + 1) (.get nd obj nm) r = resolveE k obj r from rfl,
          ihE obj _ n hn.2]
      | grouping nd inner =>
        simp [exprNids] at hn
        rw [show resolveE (k + 1) (.grouping nd inner) r = resolveE k inner r from rfl,
          ihE inner _ n hn.2]
      | literal nd v => rfl
      | logical nd l op rgt =>
        simp [exprNids] at hn
        rw [show resolveE (k + 1) (.logical nd l op rgt) r =
            resolveE k rgt (resolveE k l r) from rfl,
          ihE rgt _ n hn.2.2, ihE l _ n hn.2.1]
      | set nd obj nm value =>
        simp [exprNids] at hn
        rw [show resolveE (k + 1) (.set nd obj nm value) r =
            resolveE k obj (resolveE k value r) from rfl,
          ihE obj _ n hn.2.1, ihE value _ n hn.2.2]
      | this nid kw =>
        simp [exprNids] at hn
        simp only [resolveE]
        split
        · rw [resolveLocalR_table_ne _ _ _ _ hn]
          rfl
        · rw [resolveLocalR_table_ne _ _ _ _ hn]
      | unary nd op operand =>
        simp [exprNids] at hn
        rw [show resolveE (k + 1) (.unary nd op operand) r = resolveE k operand r from rfl,
          ihE operand _ n hn.2]
      | var nid name =>
        simp [exprNids] at hn
        simp only [resolveE]
        split
        · rw [resolveLocalR_table_ne _ _ _ _ hn]
        · split
          · rw [resolveLocalR_table_ne _ _ _ _ hn]
            rfl
          · rw [resolveLocalR_table_ne _ _ _ _ hn]
    · intro es r n hn
      cases es with
      | nil => rfl
      | cons e rest =>
        simp [exprNidsList] at hn
        rw [show resolveEList (k + 1) (e :: rest) r =
            resolveEList k rest (resolveE k e r) from rfl,
          ihEL rest _ n hn.2, ihE e _ n hn.1]
    · intro oe r n hn
      cases oe with
      | none => rfl
      | some e => exact ihE e r n (by simpa [optExprNids] using hn)
    · intro s r n hn
      cases s with
      | block stmts =>
        have h1 : n ∉ stmtNidsList stmts := by simpa [stmtNids] using hn
        rw [show resolveS (k + 1) (.block stmts) r =
            endScopeR (resolveSList k stmts (beginScopeR r)) from rfl]
        simp only [endScopeR_table]
        rw [ihSL stmts _ n h1]
        rfl
      | classS name methods =>
        have h1 : n ∉ methodNids methods := by simpa [stmtNids] using hn
        simp only [resolveS]
        cases hsc : (beginScopeR (defineR name (declareR name
            { r with currentClass := ClassKind.CLASS }))).scopes with
        | nil =>
          simp only [endScopeR_table]
          rw [ihM methods _ n h1]
          simp
        | cons sc rest =>
          simp only [endScopeR_table]
          rw [ihM methods _ n h1]
          simp
      | exprS e => exact ihE e r n (by simpa [stmtNids] using hn)
      | funcS d =>
        have h1 : n ∉ stmtNidsList (FunDecl.body d) := by
          obtain ⟨dn, dp, db⟩ := d
          simpa [stmtNids, funNids] using hn
        rw [show resolveS (k + 1) (.funcS d) r =
            resolveFunR k (FunDecl.params d) (FunDecl.body d) .FUNCTION
              (defineR (FunDecl.name d) (declareR (FunDecl.name d) r)) from rfl,
          ihF _ _ _ _ n h1]
        simp
      | ifS c t e =>
        rw [stmtNids_if] at hn
        simp at hn
        rw [show resolveS (k + 1) (.ifS c t e) r =
            resolveOS k e (resolveS k t (resolveE k c r)) from rfl,
          ihOS e _ n hn.2.2, ihS t _ n hn.2.1, ihE c _ n hn.1]
      | printS e => exact ihE e r n (by simpa [stmtNids] using hn)
      | returnS kw value =>
        have h1 : n ∉ optExprNids value := by simpa [stmtNids] using hn
        simp only [resolveS]
        split
        · split
          · rw [ihOE value _ n h1]
            rfl
          · rw [ihOE value _ n h1]
            rfl
        · split
          · rw [ihOE value _ n h1]
            rfl
          · rw [ihOE value _ n h1]
      | varS name init =>
        have h1 : n ∉ optExprNids init := by simpa [stmtNids] using hn
        rw [show resolveS (k + 1) (.varS name init) r =
            defineR name (resolveOE k init (declareR name r)) from rfl]
        simp only [defineR_table]
        rw [ihOE init _ n h1]
        simp
      | whileS c b =>
        simp [stmtNids] at hn
        rw [show resolveS (k + 1) (.whileS c b) r =
            resolveS k b (resolveE k c r) from rfl,
          ihS b _ n hn.2, ihE c _ n hn.1]
    · intro ss r n hn
      cases ss with
      | nil => rfl
      | cons s rest =>
        simp [stmtNidsList] at hn
        rw [show resolveSList (k + 1) (s :: rest) r =
            resolveSList k rest (resolveS k s r) from rfl,
          ihSL rest _ n hn.2, ihS s _ n hn.1]
    · intro os r n hn
      cases os with
      | none => rfl
      | some s => exact ihS s r n (by simpa [optStmtNids] using hn)
    · intro params body kind r n hn
      obtain ⟨hsc3, htb3, hro3, t3, herr3⟩ :=
        foldDD params (beginScopeR { r with currentFun := kind }) [] r.scopes (by simp)
      rw [show resolveFunR (k + 1) params body kind r =
          { endScopeR (resolveSList k body
              (params.foldl (fun acc p => defineR p (declareR p acc))
                (beginScopeR { r with currentFun := kind }))) with
            currentFun := r.currentFun } from rfl]
      show tableGet (resolveSList k body _).table n = _
      rw [ihSL body _ n hn, htb3]
      rfl
    · intro ms r n hn
      cases ms with
      | nil => rfl
      | cons m rest =>
        have h1 : n ∉ funNids m ∧ n ∉ methodNids rest := by
          simp [methodNids] at hn
          exact hn
        have h2 : n ∉ stmtNidsList (FunDecl.body m) := by
          obtain ⟨mn, mp, mb⟩ := m
          simpa [funNids] using h1.1
        rw [show resolveMethods (k + 1) (m :: rest) r =
            resolveMethods k rest (resolveFunR k (FunDecl.params m) (FunDecl.body m)
              (if (FunDecl.name m).lexeme = "init".toList then FunKind.INITIALIZER
                else FunKind.METHOD) r) from rfl,
          ihM rest _ n h1.2, ihF _ _ _ _ n h2]

/-! ## The `this`-token discipline

The scanner turns the source word `this` into a `THIS` keyword token
whose lexeme is `this`; `ast.This` nodes carry such a token as their
keyword.  (Nothing else can produce a `This` node — this parser stage
produces none at all.) -/

mutual

def thisOKE : Expr → Bool
  | .assign _ _ v => thisOKE v
  | .binary _ l _ r => thisOKE l && thisOKE r
  | .call _ c _ args => thisOKE c && thisOKEList args
  | .get _ o _ => thisOKE o
  | .grouping _ e => thisOKE e
  | .literal _ _ => true
  | .logical _ l _ r => thisOKE l && thisOKE r
  | .set _ o _ v => thisOKE v && thisOKE o
  | .this _ kw => kw.lexeme == "this".toList
  | .unary _ _ e => thisOKE e
  | .var _ _ => true

def thisOKEList : List Expr → Bool
  | [] => true
  | e :: rest => thisOKE e && thisOKEList rest

end

def thisOKOE : Option Expr → Bool
  | none => true
  | some e => thisOKE e

mutual

def thisOKS : Stmt → Bool
  | .block stmts => thisOKSList stmts
  | .classS _ methods => thisOKMethods methods
  | .exprS e => thisOKE e
  | .funcS d => thisOKFun d
  | .ifS c t e =>
    thisOKE c && thisOKS t && (match e with | none => true | some s => thisOKS s)
  | .printS e => thisOKE e
  | .returnS _ v => thisOKOE v
  | .varS _ i => thisOKOE i
  | .whileS c b => thisOKE c && thisOKS b

def thisOKSList : List Stmt → Bool
  | [] => true
  | s :: rest => thisOKS s && thisOKSList rest

def thisOKFun : FunDecl → Bool
  | .mk _ _ body => thisOKSList body

def thisOKMethods : List FunDecl → Bool
  | [] => true
  | m :: rest => thisOKFun m && thisOKMethods rest

end

def thisOKOS : Option Stmt → Bool
  | none => true
  | some s => thisOKS s

theorem thisOK_if {c : Expr} {t : Stmt} {e : Option Stmt}
    (h : thisOKS (.ifS c t e) = true) :
    thisOKE c = true ∧ thisOKS t = true ∧ thisOKOS e = true := by
  cases e <;> simp [thisOKS, thisOKOS, Bool.and_eq_true] at h ⊢ <;> tauto

/-- One statement's static update keeps a fully-defined stack
fully defined. -/
theorem allTrueS_upd {S : List ScopeT} (h : AllTrueS S) (s : Stmt) :
    AllTrueS (stmtScopesUpd s S) := by
  cases s <;> first
    | exact h
    | exact allTrueS_defDec h

/-- Split a two-stage error-append chain pinned to equality. -/
theorem errs_mid {α : Type} {a b c t1 t2 : List α} (h1 : b = a ++ t1)
    (h2 : c = b ++ t2) (h : c = a) : b = a ∧ c = b := by
  subst h1
  subst h2
  rw [List.append_assoc] at h
  have hnil := append_self_nil h
  obtain ⟨hn1, hn2⟩ := List.append_eq_nil.mp hnil
  subst hn1
  subst hn2
  simp

/-! ## Unfolding the branching resolver cases -/

theorem resolveLocalR_table_self (nid : Nat) (name : Token) (r : RState) :
    tableGet (resolveLocalR nid name r).table nid =
      match scopeDist r.scopes name.lexeme with
      | some j => some j
      | none => tableGet r.table nid := by
  cases hsd : scopeDist r.scopes name.lexeme with
  | some j => simp [resolveLocalR, hsd, tableGet_tableSet]
  | none => simp [resolveLocalR, hsd]

theorem resolveE_this (k nid : Nat) (kw : Token) (r : RState) :
    ∃ r1, r1.table = r.table ∧ r1.scopes = r.scopes ∧
      resolveE (k + 1) (.this nid kw) r = resolveLocalR nid kw r1 := by
  refine ⟨_, ?_, ?_, rfl⟩ <;> (split <;> rfl)

theorem resolveE_var (k nid : Nat) (name : Token) (r : RState) :
    ∃ r1, r1.table = r.table ∧ r1.scopes = r.scopes ∧
      (r1.errs = r.errs →
        ∀ sc rest, r.scopes = sc :: rest → getBinding sc name.lexeme ≠ some false) ∧
      ((∀ sc rest, r.scopes = sc :: rest → getBinding sc name.lexeme ≠ some false) →
        r1 = r) ∧
      resolveE (k + 1) (.var nid name) r = resolveLocalR nid name r1 := by
  refine ⟨_, ?_, ?_, ?_, ?_, rfl⟩
  · split
    · rfl
    · split <;> rfl
  · split
    · rfl
    · split <;> rfl
  · intro herrs sc rest hsc hflag
    split at herrs
    · next heq => rw [hsc] at heq; cases heq
    · next sc2 rest2 heq =>
      rw [hsc] at heq
      cases heq
      split at herrs
      · have := append_self_nil herrs
        simp at this
      · next hneg => exact hneg hflag
  · intro hok
    split
    · rfl
    · next sc2 rest2 heq =>
      rw [if_neg (hok sc2 rest2 heq)]

theorem resolveS_return (k : Nat) (kw : Token) (value : Option Expr) (r : RState) :
    ∃ r2, PlumbProp r r2 ∧ r2.table = r.table ∧ r2.scopes = r.scopes ∧
      resolveS (k + 1) (.returnS kw value) r = resolveOE k value r2 := by
  refine ⟨_, ?_, ?_, ?_, rfl⟩
  · split
    · split
      · exact plumb_trans (plumb_rerr _ _ _) (plumb_rerr _ _ _)
      · exact plumb_rerr _ _ _
    · split
      · exact plumb_rerr _ _ _
      · exact plumb_refl _
  · split <;> split <;> rfl
  · split <;> split <;> rfl

/-! ## The bridge: a completed error-free resolver run establishes the
declarative resolution relation -/

theorem resolverBridge : ∀ k : Nat,
    (∀ e r, InvS r.scopes → thisOKE e = true → (exprNids e).Nodup →
      (resolveE k e r).ranOut = false → (resolveE k e r).errs = r.errs →
      (∀ n ∈ exprNids e, tableGet r.table n = none) →
      ∀ L, (∀ n ∈ exprNids e, tableGet L n = tableGet (resolveE k e r).table n) →
      REx L r.scopes e) ∧
    (∀ es r, InvS r.scopes → thisOKEList es = true → (exprNidsList es).Nodup →
      (resolveEList k es r).ranOut = false → (resolveEList k es r).errs = r.errs →
      (∀ n ∈ exprNidsList es, tableGet r.table n = none) →
      ∀ L, (∀ n ∈ exprNidsList es, tableGet L n = tableGet (resolveEList k es r).table n) →
      RExList L r.scopes es) ∧
    (∀ oe r, InvS r.scopes → thisOKOE oe = true → (optExprNids oe).Nodup →
      (resolveOE k oe r).ranOut = false → (resolveOE k oe r).errs = r.errs →
      (∀ n ∈ optExprNids oe, tableGet r.table n = none) →
      ∀ L, (∀ n ∈ optExprNids oe, tableGet L n = tableGet (resolveOE k oe r).table n) →
      ∀ e2, oe = some e2 → REx L r.scopes e2) ∧
    (∀ s r, AllTrueS r.scopes → wellShapedS s = true → thisOKS s = true →
      (stmtNids s).Nodup →
      (resolveS k s r).ranOut = false → (resolveS k s r).errs = r.errs →
      (∀ n ∈ stmtNids s, tableGet r.table n = none) →
      ∀ L, (∀ n ∈ stmtNids s, tableGet L n = tableGet (resolveS k s r).table n) →
      RSt L r.scopes (stmtScopesUpd s r.scopes) s) ∧
    (∀ ss r, AllTrueS r.scopes → wellShapedSList ss = true → thisOKSList ss = true →
      (stmtNidsList ss).Nodup →
      (resolveSList k ss r).ranOut = false → (resolveSList k ss r).errs = r.errs →
      (∀ n ∈ stmtNidsList ss, tableGet r.table n = none) →
      ∀ L, (∀ n ∈ stmtNidsList ss, tableGet L n = tableGet (resolveSList k ss r).table n) →
      RSl L r.scopes (listScopesUpd ss r.scopes) ss) ∧
    (∀ os r, AllTrueS r.scopes → wellShapedO os = true → thisOKOS os = true →
      (optStmtNids os).Nodup →
      (resolveOS k os r).ranOut = false → (resolveOS k os r).errs = r.errs →
      (∀ n ∈ optStmtNids os, tableGet r.table n = none) →
      ∀ L, (∀ n ∈ optStmtNids os, tableGet L n = tableGet (resolveOS k os r).table n) →
      RStO L r.scopes os) ∧
    (∀ params body kind r, AllTrueS r.scopes → wellShapedSList body = true →
      thisOKSList body = true → (stmtNidsList body).Nodup →
      (resolveFunR k params body kind r).ranOut = false →
      (resolveFunR k params body kind r).errs = r.errs →
      (∀ n ∈ stmtNidsList body, tableGet r.table n = none) →
      ∀ L, (∀ n ∈ stmtNidsList body,
        tableGet L n = tableGet (resolveFunR k params body kind r).table n) →
      ∃ S2, RSl L (paramScope params :: r.scopes) S2 body) := by
  intro k
  induction k with
  | zero =>
    refine ⟨?_, ?_, ?_, ?_, ?_, ?_, ?_⟩ <;>
      first
        | exact fun e r _ _ _ hro => by simp [resolveE] at hro
        | exact fun es r _ _ _ hro => by simp [resolveEList] at hro
        | exact fun oe r _ _ _ hro => by simp [resolveOE] at hro
        | exact fun s r _ _ _ _ hro => by simp [resolveS] at hro
        | exact fun ss r _ _ _ _ hro => by simp [resolveSList] at hro
        | exact fun os r _ _ _ _ hro => by simp [resolveOS] at hro
        | exact fun p b kd r _ _ _ _ hro => by simp [resolveFunR] at hro
  | succ k ih =>
    obtain ⟨ihE, ihEL, ihOEB, ihSB, ihSLB, ihOSB, ihFB⟩ := ih
    obtain ⟨pE, pEL, pOE, pS, pSL, pOS, pF, pM⟩ := resolverPlumb k
    obtain ⟨tE, tEL, tOE, tS, tSL, tOS, tF, tM⟩ := resolverTable k
    refine ⟨?_, ?_, ?_, ?_, ?_, ?_, ?_⟩
    · -- expressions
      intro e r hInv hthis hnd hro herrs hnone L hL
      cases e with
      | assign nid name value =>
        have hro1 : (resolveE k value r).ranOut = false := by
          have h2 : (resolveLocalR nid name (resolveE k value r)).ranOut = false := hro
          rwa [resolveLocalR_ranOut] at h2
        have herrs1 : (resolveE k value r).errs = r.errs := by
          have h2 : (resolveLocalR nid name (resolveE k value r)).errs = r.errs := herrs
          rwa [resolveLocalR_errs] at h2
        have hndc := List.nodup_cons.mp hnd
        have hREv := ihE value r hInv hthis hndc.2 hro1 herrs1
          (fun n2 hn2 => hnone n2 (by simp [exprNids, hn2]))
          L (fun n2 hn2 => by
            have h3 : tableGet L n2 =
                tableGet (resolveLocalR nid name (resolveE k value r)).table n2 :=
              hL n2 (by simp [exprNids, hn2])
            rwa [resolveLocalR_table_ne nid name _ n2
              (by rintro rfl; exact hndc.1 hn2)] at h3)
        refine REx.assign hREv ?_
        intro d hd
        have hLn : tableGet L nid =
            tableGet (resolveLocalR nid name (resolveE k value r)).table nid :=
          hL nid (by simp [exprNids])
        rw [hd] at hLn
        have hself := resolveLocalR_table_self nid name (resolveE k value r)
        cases hsd : scopeDist (resolveE k value r).scopes name.lexeme with
        | some j =>
          simp only [hsd] at hself
          rw [hself] at hLn
          have hdj := Option.some.inj hLn.symm
          have hj := scopeDist_lt (show scopeDist r.scopes name.lexeme = some j by
            rwa [(pE value r).1] at hsd)
          omega
        | none =>
          simp only [hsd] at hself
          rw [hself, tE value r nid hndc.1, hnone nid (by simp [exprNids])] at hLn
          cases hLn
      | binary nd l op rgt =>
        have hth := (Bool.and_eq_true _ _).mp hthis
        have hro2 : (resolveE k rgt (resolveE k l r)).ranOut = false := hro
        have hro1 : (resolveE k l r).ranOut = false := (pE rgt _).2.2 hro2
        obtain ⟨t1, he1⟩ := (pE l r).2.1
        obtain ⟨t2, he2⟩ := (pE rgt (resolveE k l r)).2.1
        obtain ⟨heA, heB⟩ := errs_mid he1 he2 herrs
        have hnd2 := (List.nodup_cons.mp hnd).2
        have hdisj := List.disjoint_of_nodup_append hnd2
        have hREl := ihE l r hInv hth.1 hnd2.of_append_left hro1 heA
          (fun n2 hn2 => hnone n2 (by simp [exprNids, hn2]))
          L (fun n2 hn2 => by
            have h3 : tableGet L n2 =
                tableGet (resolveE k rgt (resolveE k l r)).table n2 :=
              hL n2 (by simp [exprNids, hn2])
            rwa [tE rgt _ n2 (fun hmem => hdisj hn2 hmem)] at h3)
        have hREr := ihE rgt (resolveE k l r)
          (by rw [(pE l r).1]; exact hInv) hth.2 hnd2.of_append_right hro2 heB
          (fun n2 hn2 => by
            rw [tE l r n2 (fun hmem => hdisj hmem hn2)]
            exact hnone n2 (by simp [exprNids, hn2]))
          L (fun n2 hn2 => hL n2 (by simp [exprNids, hn2]))
        rw [(pE l r).1] at hREr
        exact REx.binary hREl hREr
      | call nd c p args =>
        have hth := (Bool.and_eq_true _ _).mp hthis
        have hro2 : (resolveEList k args (resolveE k c r)).ranOut = false := hro
        have hro1 : (resolveE k c r).ranOut = false := (pEL args _).2.2 hro2
        obtain ⟨t1, he1⟩ := (pE c r).2.1
        obtain ⟨t2, he2⟩ := (pEL args (resolveE k c r)).2.1
        obtain ⟨heA, heB⟩ := errs_mid he1 he2 herrs
        have hnd2 := (List.nodup_cons.mp hnd).2
        have hdisj := List.disjoint_of_nodup_append hnd2
        have hREc := ihE c r hInv hth.1 hnd2.of_append_left hro1 heA
          (fun n2 hn2 => hnone n2 (by simp [exprNids, hn2]))
          L (fun n2 hn2 => by
            have h3 : tableGet L n2 =
                tableGet (resolveEList k args (resolveE k c r)).table n2 :=
              hL n2 (by simp [exprNids, hn2])
            rwa [tEL args _ n2 (fun hmem => hdisj hn2 hmem)] at h3)
        have hREa := ihEL args (resolveE k c r)
          (by rw [(pE c r).1]; exact hInv) hth.2 hnd2.of_append_right hro2 heB
          (fun n2 hn2 => by
            rw [tE c r n2 (fun hmem => hdisj hmem hn2)]
            exact hnone n2 (by simp [exprNids, hn2]))
          L (fun n2 hn2 => hL n2 (by simp [exprNids, hn2]))
        rw [(pE c r).1] at hREa
        exact REx.call hREc hREa
      | get nd obj nm =>
        refine REx.get (ihE obj r hInv hthis (List.nodup_cons.mp hnd).2 hro herrs
          (fun n2 hn2 => hnone n2 (by simp [exprNids, hn2]))
          L (fun n2 hn2 => hL n2 (by simp [exprNids, hn2])))
      | grouping nd inner =>
        refine REx.grouping (ihE inner r hInv hthis (List.nodup_cons.mp hnd).2 hro herrs
          (fun n2 hn2 => hnone n2 (by simp [exprNids, hn2]))
          L (fun n2 hn2 => hL n2 (by simp [exprNids, hn2])))
      | literal nd v => exact REx.literal
      | logical nd l op rgt =>
        have hth := (Bool.and_eq_true _ _).mp hthis
        have hro2 : (resolveE k rgt (resolveE k l r)).ranOut = false := hro
        have hro1 : (resolveE k l r).ranOut = false := (pE rgt _).2.2 hro2
        obtain ⟨t1, he1⟩ := (pE l r).2.1
        obtain ⟨t2, he2⟩ := (pE rgt (resolveE k l r)).2.1
        obtain ⟨heA, heB⟩ := errs_mid he1 he2 herrs
        have hnd2 := (List.nodup_cons.mp hnd).2
        have hdisj := List.disjoint_of_nodup_append hnd2
        have hREl := ihE l r hInv hth.1 hnd2.of_append_left hro1 heA
          (fun n2 hn2 => hnone n2 (by simp [exprNids, hn2]))
          L (fun n2 hn2 => by
            have h3 : tableGet L n2 =
                tableGet (resolveE k rgt (resolveE k l r)).table n2 :=
              hL n2 (by simp [exprNids, hn2])
            rwa [tE rgt _ n2 (fun hmem => hdisj hn2 hmem)] at h3)
        have hREr := ihE rgt (resolveE k l r)
          (by rw [(pE l r).1]; exact hInv) hth.2 hnd2.of_append_right hro2 heB
          (fun n2 hn2 => by
            rw [tE l r n2 (fun hmem => hdisj hmem hn2)]
            exact hnone n2 (by simp [exprNids, hn2]))
          L (fun n2 hn2 => hL n2 (by simp [exprNids, hn2]))
        rw [(pE l r).1] at hREr
        exact REx.logical hREl hREr
      | set nd obj nm value =>
        have hth := (Bool.and_eq_true _ _).mp hthis
        have hro2 : (resolveE k obj (resolveE k value r)).ranOut = false := hro
        have hro1 : (resolveE k value r).ranOut = false := (pE obj _).2.2 hro2
        obtain ⟨t1, he1⟩ := (pE value r).2.1
        obtain ⟨t2, he2⟩ := (pE obj (resolveE k value r)).2.1
        obtain ⟨heA, heB⟩ := errs_mid he1 he2 herrs
        have hnd2 := (List.nodup_cons.mp hnd).2
        have hdisj := List.disjoint_of_nodup_append hnd2
        have hREv := ihE value r hInv hth.1 hnd2.of_append_right hro1 heA
          (fun n2 hn2 => hnone n2 (by simp [exprNids, hn2]))
          L (fun n2 hn2 => by
            have h3 : tableGet L n2 =
                tableGet (resolveE k obj (resolveE k value r)).table n2 :=
              hL n2 (by simp [exprNids, hn2])
            rwa [tE obj _ n2 (fun hmem => hdisj hmem hn2)] at h3)
        have hREo := ihE obj (resolveE k value r)
          (by rw [(pE value r).1]; exact hInv) hth.2 hnd2.of_append_left hro2 heB
          (fun n2 hn2 => by
            rw [tE value r n2 (fun hmem => hdisj hn2 hmem)]
            exact hnone n2 (by simp [exprNids, hn2]))
          L (fun n2 hn2 => hL n2 (by simp [exprNids, hn2]))
        rw [(pE value r).1] at hREo
        exact REx.setE hREv hREo
      | this nid kw =>
        obtain ⟨r1, htb1, hsc1, heq1⟩ := resolveE_this k nid kw r
        simp only [heq1] at hro herrs hL
        refine REx.this ?_
        intro d hd
        have hkw : kw.lexeme = "this".toList := by
          simpa [thisOKE] using hthis
        have hLn : tableGet L nid =
            tableGet (resolveLocalR nid kw r1).table nid :=
          hL nid (by simp [exprNids])
        rw [hd] at hLn
        have hself := resolveLocalR_table_self nid kw r1
        cases hsd : scopeDist r1.scopes kw.lexeme with
        | some j =>
          simp only [hsd] at hself
          rw [hself] at hLn
          have hdj := Option.some.inj hLn
          subst hdj
          obtain ⟨b, hb⟩ := scopeDist_flagAt
            (show scopeDist r.scopes kw.lexeme = some d by rwa [hsc1] at hsd)
          have hbt : b = true := hInv.2 d b (by rwa [hkw] at hb)
          rw [hbt] at hb
          exact hb
        | none =>
          simp only [hsd] at hself
          rw [hself, htb1, hnone nid (by simp [exprNids])] at hLn
          cases hLn
      | unary nd op operand =>
        refine REx.unary (ihE operand r hInv hthis (List.nodup_cons.mp hnd).2 hro herrs
          (fun n2 hn2 => hnone n2 (by simp [exprNids, hn2]))
          L (fun n2 hn2 => hL n2 (by simp [exprNids, hn2])))
      | var nid name =>
        obtain ⟨r1, htb1, hsc1, herrclause, hokclause, heq1⟩ := resolveE_var k nid name r
        simp only [heq1] at hro herrs hL
        have herr1 : r1.errs = r.errs := by rwa [resolveLocalR_errs] at herrs
        have hr1 : r1 = r := hokclause (herrclause herr1)
        rw [hr1] at hL herrclause
        refine REx.var ?_
        intro d hd
        have hLn : tableGet L nid =
            tableGet (resolveLocalR nid name r).table nid :=
          hL nid (by simp [exprNids])
        rw [hd] at hLn
        have hself := resolveLocalR_table_self nid name r
        cases hsd : scopeDist r.scopes name.lexeme with
        | none =>
          simp only [hsd] at hself
          rw [hself, hnone nid (by simp [exprNids])] at hLn
          cases hLn
        | some j =>
          simp only [hsd] at hself
          rw [hself] at hLn
          have hdj := Option.some.inj hLn
          subst hdj
          obtain ⟨b, hb⟩ := scopeDist_flagAt hsd
          cases hj : d with
          | zero =>
            subst hj
            cases hscopes : r.scopes with
            | nil => rw [hscopes] at hsd; simp [scopeDist] at hsd
            | cons sc rest =>
              have hb0 : getBinding sc name.lexeme = some b := by
                rw [hscopes] at hb
                exact hb
              have hnf := herrclause rfl sc rest hscopes
              cases b with
              | false => exact absurd hb0 hnf
              | true => exact hb0
          | succ j2 =>
            subst hj
            have hbt := tailTrue_flagAt hInv.1 (by omega) hb
            rw [hbt] at hb
            exact hb
    · -- expression lists
      intro es r hInv hthis hnd hro herrs hnone L hL
      cases es with
      | nil => exact RExList.nil
      | cons e rest =>
        have hth := (Bool.and_eq_true _ _).mp hthis
        have hro2 : (resolveEList k rest (resolveE k e r)).ranOut = false := hro
        have hro1 : (resolveE k e r).ranOut = false := (pEL rest _).2.2 hro2
        obtain ⟨t1, he1⟩ := (pE e r).2.1
        obtain ⟨t2, he2⟩ := (pEL rest (resolveE k e r)).2.1
        obtain ⟨heA, heB⟩ := errs_mid he1 he2 herrs
        have hdisj := List.disjoint_of_nodup_append hnd
        have hREe := ihE e r hInv hth.1 hnd.of_append_left hro1 heA
          (fun n2 hn2 => hnone n2 (by simp [exprNidsList, hn2]))
          L (fun n2 hn2 => by
            have h3 : tableGet L n2 =
                tableGet (resolveEList k rest (resolveE k e r)).table n2 :=
              hL n2 (by simp [exprNidsList, hn2])
            rwa [tEL rest _ n2 (fun hmem => hdisj hn2 hmem)] at h3)
        have hRErest := ihEL rest (resolveE k e r)
          (by rw [(pE e r).1]; exact hInv) hth.2 hnd.of_append_right hro2 heB
          (fun n2 hn2 => by
            rw [tE e r n2 (fun hmem => hdisj hmem hn2)]
            exact hnone n2 (by simp [exprNidsList, hn2]))
          L (fun n2 hn2 => hL n2 (by simp [exprNidsList, hn2]))
        rw [(pE e r).1] at hRErest
        exact RExList.cons hREe hRErest
    · -- optional expressions
      intro oe r hInv hthis hnd hro herrs hnone L hL e2 hoe
      subst hoe
      exact ihE e2 r hInv hthis hnd hro herrs hnone L hL
    · -- statements
      intro s r hAT hws hthis hnd hro herrs hnone L hL
      cases s with
      | block stmts =>
        have hro1 : (resolveSList k stmts (beginScopeR r)).ranOut = false := hro
        have herrs1 : (resolveSList k stmts (beginScopeR r)).errs = r.errs := herrs
        exact RSt.block (ihSLB stmts (beginScopeR r)
          (allTrueS_cons scAllTrue_nil hAT) hws hthis hnd hro1 herrs1 hnone L hL)
      | classS name methods => exact RSt.classS
      | exprS e =>
        exact RSt.exprS (ihE e r (allTrueS_invS hAT) hthis hnd hro herrs hnone L hL)
      | funcS d =>
        obtain ⟨dn, dp, db⟩ := d
        have hbody : wellShapedSList db = true := by
          have h2 : wellShapedFun (.mk dn dp db) = true := hws
          simp [wellShapedFun, Bool.and_eq_true] at h2
          exact h2.2
        obtain ⟨t0, he0⟩ := declareR_errs dn r
        have he1 : (defineR dn (declareR dn r)).errs = r.errs ++ t0 := by
          rw [defineR_errs]; exact he0
        obtain ⟨t1, he2⟩ := (pF dp db .FUNCTION (defineR dn (declareR dn r)) hbody).2.1
        obtain ⟨heA, heB⟩ := errs_mid he1 he2 herrs
        have hro1 : (resolveFunR k dp db .FUNCTION
            (defineR dn (declareR dn r))).ranOut = false := hro
        have hAT1 : AllTrueS (defineR dn (declareR dn r)).scopes := by
          rw [defineR_scopes, declareR_scopes]
          exact allTrueS_defDec hAT
        obtain ⟨S2, hS2⟩ := ihFB dp db .FUNCTION (defineR dn (declareR dn r))
          hAT1 hbody hthis hnd hro1 heB
          (fun n hn => by rw [defineR_table, declareR_table]; exact hnone n hn)
          L (fun n hn => hL n hn)
        rw [defineR_scopes, declareR_scopes] at hS2
        exact RSt.funcS (RFunB.mk hS2)
      | ifS c t e =>
        obtain ⟨hndt, hwst, hwse⟩ := wsIf hws
        obtain ⟨hthc, htht, hthe⟩ := thisOK_if hthis
        simp only [stmtNids_if] at hnd hnone hL
        have hro3 : (resolveOS k e (resolveS k t (resolveE k c r))).ranOut = false := hro
        have hro2 := (pOS e _ hwse).2.2 hro3
        have hro1 := (pS t _ hwst).2.2 hro2
        obtain ⟨t1, he1⟩ := (pE c r).2.1
        obtain ⟨t2, he2⟩ := (pS t (resolveE k c r) hwst).2.1
        obtain ⟨t3, he3⟩ := (pOS e (resolveS k t (resolveE k c r)) hwse).2.1
        have he12 : (resolveS k t (resolveE k c r)).errs = r.errs ++ (t1 ++ t2) := by
          rw [he2, he1, List.append_assoc]
        obtain ⟨heM, heC⟩ := errs_mid he12 he3 herrs
        obtain ⟨heA, heB⟩ := errs_mid he1 he2 heM
        have hsc1 : (resolveE k c r).scopes = r.scopes := (pE c r).1
        have hsc2 : (resolveS k t (resolveE k c r)).scopes = r.scopes := by
          rw [(pS t _ hwst).1 hro2, hsc1, nonDecl_upd hndt]
        have hnd12 := hnd.of_append_left
        have hdisj1 := List.disjoint_of_nodup_append hnd
        have hdisj2 := List.disjoint_of_nodup_append hnd12
        have hREc := ihE c r (allTrueS_invS hAT) hthc hnd12.of_append_left hro1 heA
          (fun n hn => hnone n (by simp [hn]))
          L (fun n hn => by
            have h3 : tableGet L n =
                tableGet (resolveOS k e (resolveS k t (resolveE k c r))).table n :=
              hL n (by simp [hn])
            rw [tOS e _ n (fun hmem => hdisj1 (by simp [hn]) hmem),
              tS t _ n (fun hmem => hdisj2 hn hmem)] at h3
            exact h3)
        have hRt := ihSB t (resolveE k c r) (by rw [hsc1]; exact hAT) hwst htht
          hnd12.of_append_right hro2 heB
          (fun n hn => by
            rw [tE c r n (fun hmem => hdisj2 hmem hn)]
            exact hnone n (by simp [hn]))
          L (fun n hn => by
            have h3 : tableGet L n =
                tableGet (resolveOS k e (resolveS k t (resolveE k c r))).table n :=
              hL n (by simp [hn])
            rwa [tOS e _ n (fun hmem => hdisj1 (by simp [hn]) hmem)] at h3)
        rw [hsc1, nonDecl_upd hndt] at hRt
        have hRe := ihOSB e (resolveS k t (resolveE k c r)) (by rw [hsc2]; exact hAT)
          hwse hthe hnd.of_append_right hro3 heC
          (fun n hn => by
            rw [tS t _ n (fun hmem => hdisj1 (by simp [hmem]) hn),
              tE c r n (fun hmem => hdisj1 (by simp [hmem]) hn)]
            exact hnone n (by simp [hn]))
          L (fun n hn => hL n (by simp [hn]))
        rw [hsc2] at hRe
        exact RSt.ifS hREc hRt hRe
      | printS e =>
        exact RSt.printS (ihE e r (allTrueS_invS hAT) hthis hnd hro herrs hnone L hL)
      | returnS kw value =>
        obtain ⟨r2, hpr2, htb2, hsc2, heq⟩ := resolveS_return k kw value r
        simp only [heq] at hro herrs hL
        cases value with
        | none => exact RSt.returnNone
        | some e2 =>
          obtain ⟨t1, he1⟩ := hpr2.2.1
          obtain ⟨t2, he2⟩ := (pOE (some e2) r2).2.1
          obtain ⟨heA, heB⟩ := errs_mid he1 he2 herrs
          have hRE := ihOEB (some e2) r2 (by rw [hsc2]; exact allTrueS_invS hAT)
            hthis hnd hro heB
            (fun n hn => by rw [htb2]; exact hnone n hn)
            L (fun n hn => hL n hn) e2 rfl
          rw [hsc2] at hRE
          exact RSt.returnSome hRE
      | varS name init =>
        have herrs2 : (defineR name (resolveOE k init (declareR name r))).errs =
            r.errs := herrs
        rw [defineR_errs] at herrs2
        have hro2 : (defineR name (resolveOE k init (declareR name r))).ranOut =
            false := hro
        rw [defineR_ranOut] at hro2
        have hL2 : ∀ n ∈ optExprNids init,
            tableGet L n = tableGet (resolveOE k init (declareR name r)).table n := by
          intro n hn
          have h3 := hL n hn
          rwa [show (resolveS (k + 1) (.varS name init) r).table =
            (resolveOE k init (declareR name r)).table from defineR_table name _] at h3
        obtain ⟨t0, he0⟩ := declareR_errs name r
        obtain ⟨t1, he1⟩ := (pOE init (declareR name r)).2.1
        obtain ⟨heA, heB⟩ := errs_mid he0 he1 herrs2
        cases init with
        | none => exact RSt.varNone
        | some e2 =>
          have hInv1 : InvS (declareR name r).scopes := by
            rw [declareR_scopes]
            exact invS_dec hAT (wsVar hws)
          have hRE := ihOEB (some e2) (declareR name r) hInv1 hthis hnd hro2 heB
            (fun n hn => by rw [declareR_table]; exact hnone n hn)
            L (fun n hn => hL2 n hn) e2 rfl
          rw [declareR_scopes] at hRE
          exact RSt.varSome hRE
      | whileS c b =>
        obtain ⟨hndb, hwsb⟩ := wsWhile hws
        have hth := (Bool.and_eq_true _ _).mp hthis
        have hro2 : (resolveS k b (resolveE k c r)).ranOut = false := hro
        have hro1 := (pS b _ hwsb).2.2 hro2
        obtain ⟨t1, he1⟩ := (pE c r).2.1
        obtain ⟨t2, he2⟩ := (pS b (resolveE k c r) hwsb).2.1
        obtain ⟨heA, heB⟩ := errs_mid he1 he2 herrs
        have hsc1 : (resolveE k c r).scopes = r.scopes := (pE c r).1
        have hdisj : List.Disjoint (exprNids c) (stmtNids b) :=
          List.disjoint_of_nodup_append hnd
        have hREc := ihE c r (allTrueS_invS hAT) hth.1 hnd.of_append_left hro1 heA
          (fun n hn => hnone n (by simp [stmtNids, hn]))
          L (fun n hn => by
            have h3 : tableGet L n =
                tableGet (resolveS k b (resolveE k c r)).table n :=
              hL n (by simp [stmtNids, hn])
            rwa [tS b _ n (fun hmem => hdisj hn hmem)] at h3)
        have hRb := ihSB b (resolveE k c r) (by rw [hsc1]; exact hAT) hwsb hth.2
          hnd.of_append_right hro2 heB
          (fun n hn => by
            rw [tE c r n (fun hmem => hdisj hmem hn)]
            exact hnone n (by simp [stmtNids, hn]))
          L (fun n hn => hL n (by simp [stmtNids, hn]))
        rw [hsc1, nonDecl_upd hndb] at hRb
        exact RSt.whileS hREc hRb
    · -- statement lists
      intro ss r hAT hws hthis hnd hro herrs hnone L hL
      cases ss with
      | nil => exact RSl.nil
      | cons s rest =>
        obtain ⟨hwss, hwsrest⟩ := wsList hws
        have hth := (Bool.and_eq_true _ _).mp hthis
        have hro2 : (resolveSList k rest (resolveS k s r)).ranOut = false := hro
        have hro1 := (pSL rest _ hwsrest).2.2 hro2
        obtain ⟨t1, he1⟩ := (pS s r hwss).2.1
        obtain ⟨t2, he2⟩ := (pSL rest (resolveS k s r) hwsrest).2.1
        obtain ⟨heA, heB⟩ := errs_mid he1 he2 herrs
        have hdisj := List.disjoint_of_nodup_append hnd
        have hRS := ihSB s r hAT hwss hth.1 hnd.of_append_left hro1 heA
          (fun n hn => hnone n (by simp [stmtNidsList, hn]))
          L (fun n hn => by
            have h3 : tableGet L n =
                tableGet (resolveSList k rest (resolveS k s r)).table n :=
              hL n (by simp [stmtNidsList, hn])
            rwa [tSL rest _ n (fun hmem => hdisj hn hmem)] at h3)
        have hscope : (resolveS k s r).scopes = stmtScopesUpd s r.scopes :=
          (pS s r hwss).1 hro1
        have hRSl := ihSLB rest (resolveS k s r)
          (by rw [hscope]; exact allTrueS_upd hAT s) hwsrest hth.2
          hnd.of_append_right hro2 heB
          (fun n hn => by
            rw [tS s r n (fun hmem => hdisj hmem hn)]
            exact hnone n (by simp [stmtNidsList, hn]))
          L (fun n hn => hL n (by simp [stmtNidsList, hn]))
        rw [hscope] at hRSl
        exact RSl.cons hRS hRSl
    · -- optional statements
      intro os r hAT hws hthis hnd hro herrs hnone L hL
      cases os with
      | none => exact RStO.none
      | some s =>
        have h2 : isNonDecl s = true ∧ wellShapedS s = true := by
          simpa [wellShapedO, Bool.and_eq_true] using hws
        have hRS := ihSB s r hAT h2.2 hthis hnd hro herrs hnone L hL
        rw [nonDecl_upd h2.1] at hRS
        exact RStO.some hRS
    · -- function bodies
      intro params body kind r hAT hws hthis hnd hro herrs hnone L hL
      obtain ⟨hsc3, htb3, hro3, t3, herr3⟩ :=
        foldDD params (beginScopeR { r with currentFun := kind }) [] r.scopes (by simp)
      have hro4 : (resolveSList k body
          (params.foldl (fun acc p => defineR p (declareR p acc))
            (beginScopeR { r with currentFun := kind }))).ranOut = false := hro
      have he1 : (params.foldl (fun acc p => defineR p (declareR p acc))
          (beginScopeR { r with currentFun := kind })).errs = r.errs ++ t3 := herr3
      obtain ⟨t4, he4⟩ := (pSL body _ hws).2.1
      have herrs4 : (resolveSList k body
          (params.foldl (fun acc p => defineR p (declareR p acc))
            (beginScopeR { r with currentFun := kind }))).errs = r.errs := herrs
      obtain ⟨heA, heB⟩ := errs_mid he1 he4 herrs4
      have hATf : AllTrueS (params.foldl (fun acc p => defineR p (declareR p acc))
          (beginScopeR { r with currentFun := kind })).scopes := by
        rw [hsc3]
        exact allTrueS_cons (scAllTrue_foldSc scAllTrue_nil) hAT
      have hSL := ihSLB body _ hATf hws hthis hnd hro4 heB
        (fun n hn => by rw [htb3]; exact hnone n hn)
        L (fun n hn => hL n hn)
      rw [hsc3] at hSL
      exact ⟨_, hSL⟩

/-! ## Parser node identities are fresh

`printf` re-enters the parser at run time; the expressions it builds get
node identities at and above the parser state's counter (heap allocation
cannot collide with live objects), so they are absent from the side
table.  `PN nids lo m`: running `m` from any state whose counter is at
least `lo` only grows the counter, and every identity in the result is at
least `lo`. -/

def PN {α : Type} (nids : α → List Nat) (lo : Nat) (m : PM α) : Prop :=
  ∀ st, lo ≤ st.nextNid →
    match m st with
    | .ok (a, st2) => st.nextNid ≤ st2.nextNid ∧ ∀ n ∈ nids a, lo ≤ n
    | .error st2 => st.nextNid ≤ st2.nextNid

theorem PN_bind {α β : Type} {na : α → List Nat} {nb : β → List Nat} {lo : Nat}
    {m : PM α} {f : α → PM β} (hm : PN na lo m)
    (hf : ∀ a, (∀ n ∈ na a, lo ≤ n) → PN nb lo (f a)) :
    PN nb lo (m >>= f) := by
  intro st hlo
  have h1 := hm st hlo
  cases h2 : m st with
  | ok pair =>
    obtain ⟨a, st1⟩ := pair
    simp only [h2] at h1
    have hb : (m >>= f) st = f a st1 := by
      show (match m st with
        | .ok (a, st2) => f a st2
        | .error e => .error e) = f a st1
      rw [h2]
    rw [hb]
    have h3 := hf a h1.2 st1 (le_trans hlo h1.1)
    cases h4 : f a st1 with
    | ok pair2 =>
      obtain ⟨b, st2⟩ := pair2
      simp only [h4] at h3
      exact ⟨le_trans h1.1 h3.1, h3.2⟩
    | error st2 =>
      simp only [h4] at h3
      exact le_trans h1.1 h3
  | error st1 =>
    have hb : (m >>= f) st = .error st1 := by
      show (match m st with
        | .ok (a, st2) => f a st2
        | .error e => .error e) = .error st1
      rw [h2]
    rw [hb]
    simp only [h2] at h1
    exact h1

theorem PN_pure {β : Type} {nb : β → List Nat} {lo : Nat} (b : β)
    (hb : ∀ n ∈ nb b, lo ≤ n) : PN nb lo (pure b) :=
  fun st _ => ⟨le_refl _, hb⟩

theorem PN_freshNid {lo : Nat} : PN (fun n => [n]) lo freshNid := by
  intro st hlo
  refine ⟨by simp [freshNid], ?_⟩
  intro n hn
  simp at hn
  subst hn
  exact hlo

theorem PN_ite {α : Type} {nids : α → List Nat} {lo : Nat} {c : Prop} [Decidable c]
    {m1 m2 : PM α} (h1 : PN nids lo m1) (h2 : PN nids lo m2) :
    PN nids lo (if c then m1 else m2) := by
  split <;> assumption

/-- The computation never changes the identity counter. -/
def keepsNid {α : Type} (m : PM α) : Prop :=
  ∀ st, match m st with
    | .ok (_, st2) => st2.nextNid = st.nextNid
    | .error st2 => st2.nextNid = st.nextNid

theorem PN_of_keeps {α : Type} {m : PM α} (h : keepsNid m) (lo : Nat) :
    PN (fun _ => []) lo m := by
  intro st hlo
  have h1 := h st
  cases h2 : m st with
  | ok pair =>
    obtain ⟨a, st1⟩ := pair
    simp only [h2] at h1
    exact ⟨le_of_eq h1.symm, by simp⟩
  | error st1 =>
    simp only [h2] at h1
    exact le_of_eq h1.symm

theorem keeps_bind {α β : Type} {m : PM α} {f : α → PM β} (hm : keepsNid m)
    (hf : ∀ a, keepsNid (f a)) : keepsNid (m >>= f) := by
  intro st
  have h1 := hm st
  cases h2 : m st with
  | ok pair =>
    obtain ⟨a, st1⟩ := pair
    simp only [h2] at h1
    have hb : (m >>= f) st = f a st1 := by
      show (match m st with
        | .ok (a, st2) => f a st2
        | .error e => .error e) = f a st1
      rw [h2]
    rw [hb]
    have h3 := hf a st1
    cases h4 : f a st1 with
    | ok pair2 =>
      obtain ⟨b, st2⟩ := pair2
      simp only [h4] at h3
      exact h3.trans h1
    | error st2 =>
      simp only [h4] at h3
      exact h3.trans h1
  | error st1 =>
    have hb : (m >>= f) st = .error st1 := by
      show (match m st with
        | .ok (a, st2) => f a st2
        | .error e => .error e) = .error st1
      rw [h2]
    rw [hb]
    simp only [h2] at h1
    exact h1

theorem advanceT_nextNid (st : PState) : (advanceT st).2.nextNid = st.nextNid := by
  unfold advanceT
  split
  · rfl
  · split <;> rfl

theorem keeps_advanceP : keepsNid advanceP := by
  intro st
  have h := advanceT_nextNid st
  rcases hadv : advanceT st with ⟨t, st2⟩
  rw [hadv] at h
  show (match (Except.ok (advanceT st) : Except PState (Token × PState)) with
    | .ok (_, st2) => st2.nextNid = st.nextNid
    | .error st2 => st2.nextNid = st.nextNid)
  rw [hadv]
  exact h

theorem keeps_checkP (ty : TokenType) : keepsNid (checkP ty) := fun _ => rfl

theorem keeps_matchOneOf (tys : List TokenType) : keepsNid (matchOneOf tys) := by
  intro st
  have h := advanceT_nextNid st
  rcases hadv : advanceT st with ⟨t, st2⟩
  rw [hadv] at h
  unfold matchOneOf
  by_cases hc : tys.contains st.curr.type = true
  · rw [if_pos hc, hadv]
    exact h
  · rw [if_neg hc]

theorem keeps_logError (tok : Token) (msg : List Char) : keepsNid (logError tok msg) :=
  fun _ => rfl

theorem keeps_errorThrow {α : Type} (tok : Token) (msg : List Char) :
    keepsNid (errorThrow (α := α) tok msg) :=
  fun _ => rfl

theorem keeps_pConsume (ty : TokenType) (msg : List Char) : keepsNid (pConsume ty msg) := by
  intro st
  have h := advanceT_nextNid st
  rcases hadv : advanceT st with ⟨t, st2⟩
  rw [hadv] at h
  unfold pConsume
  by_cases hc : st.curr.type = ty
  · rw [if_pos hc, hadv]
    exact h
  · rw [if_neg hc]

theorem keeps_getStateP : keepsNid getStateP := fun _ => rfl

theorem PN_errorThrow {α : Type} {nids : α → List Nat} {lo : Nat} (tok : Token)
    (msg : List Char) : PN nids lo (errorThrow tok msg) :=
  fun _ _ => le_refl _

theorem PN_fuelOut {α : Type} {nids : α → List Nat} {lo : Nat} :
    PN nids lo (fuelOut (α := α)) :=
  fun _ _ => le_refl _

theorem exprNidsList_append (a b : List Expr) :
    exprNidsList (a ++ b) = exprNidsList a ++ exprNidsList b := by
  induction a with
  | nil => rfl
  | cons e rest ih => simp [exprNidsList, ih]

theorem keeps_pure {α : Type} (a : α) : keepsNid (pure (f := PM) a) := fun _ => rfl

/-- Freshness of parser-allocated node identities, for every function on
the expression path (the ones `Interpreter.eval` can reach): the result's
identities are at least the initial counter, and the counter never
decreases. -/
theorem parserFresh : ∀ k : Nat,
    (∀ lo, PN exprNids lo (pExpression k)) ∧
    (∀ lo, PN exprNids lo (pAssignment k)) ∧
    (∀ lo, PN exprNids lo (pOr k)) ∧
    (∀ lo e, (∀ n ∈ exprNids e, lo ≤ n) → PN exprNids lo (pOrLoop k e)) ∧
    (∀ lo, PN exprNids lo (pAnd k)) ∧
    (∀ lo e, (∀ n ∈ exprNids e, lo ≤ n) → PN exprNids lo (pAndLoop k e)) ∧
    (∀ lo, PN exprNids lo (pEquality k)) ∧
    (∀ lo e, (∀ n ∈ exprNids e, lo ≤ n) → PN exprNids lo (pEqLoop k e)) ∧
    (∀ lo, PN exprNids lo (pComparison k)) ∧
    (∀ lo e, (∀ n ∈ exprNids e, lo ≤ n) → PN exprNids lo (pCompLoop k e)) ∧
    (∀ lo, PN exprNids lo (pTerm k)) ∧
    (∀ lo e, (∀ n ∈ exprNids e, lo ≤ n) → PN exprNids lo (pTermLoop k e)) ∧
    (∀ lo, PN exprNids lo (pFactor k)) ∧
    (∀ lo e, (∀ n ∈ exprNids e, lo ≤ n) → PN exprNids lo (pFactorLoop k e)) ∧
    (∀ lo, PN exprNids lo (pUnary k)) ∧
    (∀ lo, PN exprNids lo (pCall k)) ∧
    (∀ lo e, (∀ n ∈ exprNids e, lo ≤ n) → PN exprNids lo (pCallLoop k e)) ∧
    (∀ lo e, (∀ n ∈ exprNids e, lo ≤ n) → PN exprNids lo (pFinishCall k e)) ∧
    (∀ lo acc, (∀ n ∈ exprNidsList acc, lo ≤ n) → PN exprNidsList lo (pArgsLoop k acc)) ∧
    (∀ lo, PN exprNids lo (pPrimary k)) := by
  intro k
  induction k with
  | zero =>
    refine ⟨fun lo => PN_fuelOut, fun lo => PN_fuelOut, fun lo => PN_fuelOut,
      fun lo e _ => PN_fuelOut, fun lo => PN_fuelOut, fun lo e _ => PN_fuelOut,
      fun lo => PN_fuelOut, fun lo e _ => PN_fuelOut, fun lo => PN_fuelOut,
      fun lo e _ => PN_fuelOut, fun lo => PN_fuelOut, fun lo e _ => PN_fuelOut,
      fun lo => PN_fuelOut, fun lo e _ => PN_fuelOut, fun lo => PN_fuelOut,
      fun lo => PN_fuelOut, fun lo e _ => PN_fuelOut, fun lo e _ => PN_fuelOut,
      fun lo acc _ => PN_fuelOut, fun lo => PN_fuelOut⟩
  | succ k ih =>
    obtain ⟨ihExpr, ihAsg, ihOr, ihOrL, ihAnd, ihAndL, ihEq, ihEqL, ihCmp, ihCmpL,
      ihTerm, ihTermL, ihFac, ihFacL, ihUn, ihCall, ihCallL, ihFin, ihArgs, ihPrim⟩ := ih
    refine ⟨?_, ?_, ?_, ?_, ?_, ?_, ?_, ?_, ?_, ?_, ?_, ?_, ?_, ?_, ?_, ?_, ?_, ?_, ?_, ?_⟩
    · exact fun lo => ihAsg lo
    · -- pAssignment
      intro lo
      refine PN_bind (ihOr lo) ?_
      intro e he
      refine PN_bind (PN_of_keeps (keeps_matchOneOf _) lo) ?_
      intro x _
      cases x with
      | some eq =>
        refine PN_bind (ihAsg lo) ?_
        intro value hv
        cases e <;>
          first
            | (refine PN_bind PN_freshNid ?_
               intro n hn
               refine PN_pure _ ?_
               intro m hm
               simp [exprNids] at hm
               rcases hm with rfl | hm
               · exact hn m (by simp)
               · exact hv m hm)
            | (refine PN_bind (PN_of_keeps (keeps_logError _ _) lo) ?_
               intro u _
               exact PN_pure _ he)
      | none => exact PN_pure _ he
    · exact fun lo => PN_bind (ihAnd lo) (fun e he => ihOrL lo e he)
    · -- pOrLoop
      intro lo e he
      refine PN_bind (PN_of_keeps (keeps_matchOneOf _) lo) ?_
      intro x _
      cases x with
      | some op =>
        refine PN_bind (ihAnd lo) ?_
        intro right hr
        refine PN_bind PN_freshNid ?_
        intro n hn
        refine ihOrL lo _ ?_
        intro m hm
        simp [exprNids] at hm
        rcases hm with rfl | hm | hm
        · exact hn m (by simp)
        · exact he m hm
        · exact hr m hm
      | none => exact PN_pure _ he
    · exact fun lo => PN_bind (ihEq lo) (fun e he => ihAndL lo e he)
    · -- pAndLoop
      intro lo e he
      refine PN_bind (PN_of_keeps (keeps_matchOneOf _) lo) ?_
      intro x _
      cases x with
      | some op =>
        refine PN_bind (ihEq lo) ?_
        intro right hr
        refine PN_bind PN_freshNid ?_
        intro n hn
        refine ihAndL lo _ ?_
        intro m hm
        simp [exprNids] at hm
        rcases hm with rfl | hm | hm
        · exact hn m (by simp)
        · exact he m hm
        · exact hr m hm
      | none => exact PN_pure _ he
    · exact fun lo => PN_bind (ihCmp lo) (fun e he => ihEqL lo e he)
    · -- pEqLoop
      intro lo e he
      refine PN_bind (PN_of_keeps (keeps_matchOneOf _) lo) ?_
      intro x _
      cases x with
      | some op =>
        refine PN_bind (ihCmp lo) ?_
        intro right hr
        refine PN_bind PN_freshNid ?_
        intro n hn
        refine ihEqL lo _ ?_
        intro m hm
        simp [exprNids] at hm
        rcases hm with rfl | hm | hm
        · exact hn m (by simp)
        · exact he m hm
        · exact hr m hm
      | none => exact PN_pure _ he
    · exact fun lo => PN_bind (ihTerm lo) (fun e he => ihCmpL lo e he)
    · -- pCompLoop
      intro lo e he
      refine PN_bind (PN_of_keeps (keeps_matchOneOf _) lo) ?_
      intro x _
      cases x with
      | some op =>
        refine PN_bind (ihTerm lo) ?_
        intro right hr
        refine PN_bind PN_freshNid ?_
        intro n hn
        refine ihCmpL lo _ ?_
        intro m hm
        simp [exprNids] at hm
        rcases hm with rfl | hm | hm
        · exact hn m (by simp)
        · exact he m hm
        · exact hr m hm
      | none => exact PN_pure _ he
    · exact fun lo => PN_bind (ihFac lo) (fun e he => ihTermL lo e he)
    · -- pTermLoop
      intro lo e he
      refine PN_bind (PN_of_keeps (keeps_matchOneOf _) lo) ?_
      intro x _
      cases x with
      | some op =>
        refine PN_bind (ihFac lo) ?_
        intro right hr
        refine PN_bind PN_freshNid ?_
        intro n hn
        refine ihTermL lo _ ?_
        intro m hm
        simp [exprNids] at hm
        rcases hm with rfl | hm | hm
        · exact hn m (by simp)
        · exact he m hm
        · exact hr m hm
      | none => exact PN_pure _ he
    · exact fun lo => PN_bind (ihUn lo) (fun e he => ihFacL lo e he)
    · -- pFactorLoop
      intro lo e he
      refine PN_bind (PN_of_keeps (keeps_matchOneOf _) lo) ?_
      intro x _
      cases x with
      | some op =>
        refine PN_bind (ihUn lo) ?_
        intro right hr
        refine PN_bind PN_freshNid ?_
        intro n hn
        refine ihFacL lo _ ?_
        intro m hm
        simp [exprNids] at hm
        rcases hm with rfl | hm | hm
        · exact hn m (by simp)
        · exact he m hm
        · exact hr m hm
      | none => exact PN_pure _ he
    · -- pUnary
      intro lo
      refine PN_bind (PN_of_keeps (keeps_matchOneOf _) lo) ?_
      intro x _
      cases x with
      | some op =>
        refine PN_bind (ihUn lo) ?_
        intro right hr
        refine PN_bind PN_freshNid ?_
        intro n hn
        refine PN_pure _ ?_
        intro m hm
        simp [exprNids] at hm
        rcases hm with rfl | hm
        · exact hn m (by simp)
        · exact hr m hm
      | none =>
        refine PN_bind (PN_of_keeps (keeps_matchOneOf _) lo) ?_
        intro y _
        cases y with
        | some op => exact PN_bind (ihUn lo) (fun _ _ => PN_errorThrow _ _)
        | none => exact ihCall lo
    · exact fun lo => PN_bind (ihPrim lo) (fun e he => ihCallL lo e he)
    · -- pCallLoop
      intro lo e he
      refine PN_bind (PN_of_keeps (keeps_matchOneOf _) lo) ?_
      intro x _
      cases x with
      | some op => exact PN_bind (ihFin lo e he) (fun e2 he2 => ihCallL lo e2 he2)
      | none => exact PN_pure _ he
    · -- pFinishCall
      intro lo e he
      refine PN_bind
        (PN_bind (PN_of_keeps (keeps_checkP _) lo)
          (fun b _ => PN_ite (PN_pure [] (by simp [exprNidsList]))
            (ihArgs lo [] (by simp [exprNidsList])))) ?_
      intro args hargs
      refine PN_bind (PN_of_keeps (keeps_pConsume _ _) lo) ?_
      intro paren _
      refine PN_bind PN_freshNid ?_
      intro n hn
      refine PN_pure _ ?_
      intro m hm
      simp [exprNids] at hm
      rcases hm with rfl | hm | hm
      · exact hn m (by simp)
      · exact he m hm
      · exact hargs m hm
    · -- pArgsLoop
      intro lo acc hacc
      unfold pArgsLoop
      have hrest : PN exprNidsList lo
          (do
            let a ← pExpression k
            let x ← matchOneOf [TokenType.COMMA]
            match x with
            | some _ => pArgsLoop k (acc ++ [a])
            | none => pure (acc ++ [a])) := by
        refine PN_bind (ihExpr lo) ?_
        intro a ha
        refine PN_bind (PN_of_keeps (keeps_matchOneOf _) lo) ?_
        intro x _
        have hext : ∀ n ∈ exprNidsList (acc ++ [a]), lo ≤ n := by
          intro m hm
          rw [exprNidsList_append] at hm
          simp [exprNidsList] at hm
          rcases hm with hm | hm
          · exact hacc m hm
          · exact ha m hm
        cases x with
        | some op => exact ihArgs lo _ hext
        | none => exact PN_pure _ hext
      split
      · refine PN_bind (PN_of_keeps keeps_getStateP lo) ?_
        intro st _
        refine PN_bind (PN_of_keeps (keeps_logError _ _) lo) ?_
        intro y _
        exact hrest
      · refine PN_bind (PN_of_keeps (keeps_pure ()) lo) ?_
        intro y _
        exact hrest
    · -- pPrimary
      intro lo
      refine PN_bind (PN_of_keeps (keeps_matchOneOf _) lo) ?_
      intro x1 _
      cases x1 with
      | some t =>
        refine PN_bind PN_freshNid ?_
        intro n hn
        exact PN_pure _ (by intro m hm; simp [exprNids] at hm; subst hm; exact hn m (by simp))
      | none =>
      refine PN_bind (PN_of_keeps (keeps_matchOneOf _) lo) ?_
      intro x2 _
      cases x2 with
      | some t =>
        refine PN_bind PN_freshNid ?_
        intro n hn
        exact PN_pure _ (by intro m hm; simp [exprNids] at hm; subst hm; exact hn m (by simp))
      | none =>
      refine PN_bind (PN_of_keeps (keeps_matchOneOf _) lo) ?_
      intro x3 _
      cases x3 with
      | some t =>
        refine PN_bind PN_freshNid ?_
        intro n hn
        exact PN_pure _ (by intro m hm; simp [exprNids] at hm; subst hm; exact hn m (by simp))
      | none =>
      refine PN_bind (PN_of_keeps (keeps_matchOneOf _) lo) ?_
      intro x4 _
      cases x4 with
      | some t =>
        refine PN_bind PN_freshNid ?_
        intro n hn
        exact PN_pure _ (by intro m hm; simp [exprNids] at hm; subst hm; exact hn m (by simp))
      | none =>
      refine PN_bind (PN_of_keeps (keeps_matchOneOf _) lo) ?_
      intro x5 _
      cases x5 with
      | some t =>
        refine PN_bind PN_freshNid ?_
        intro n hn
        exact PN_pure _ (by intro m hm; simp [exprNids] at hm; subst hm; exact hn m (by simp))
      | none =>
      refine PN_bind (PN_of_keeps (keeps_matchOneOf _) lo) ?_
      intro x6 _
      cases x6 with
      | some t =>
        refine PN_bind (ihExpr lo) ?_
        intro e he
        refine PN_bind (PN_of_keeps (keeps_pConsume _ _) lo) ?_
        intro u _
        refine PN_bind PN_freshNid ?_
        intro n hn
        refine PN_pure _ ?_
        intro m hm
        simp [exprNids] at hm
        rcases hm with rfl | hm
        · exact hn m (by simp)
        · exact he m hm
      | none =>
        exact PN_bind (PN_of_keeps keeps_getStateP lo) (fun st _ => PN_errorThrow _ _)

/-! ## Runtime conformance

The environment arena only ever grows: frames are appended and bindings
are added or overwritten, never removed, and `enclosing` links are final.
`Conf` ties the runtime chain from the current frame to the static scope
stack the resolver saw: every statically `True` name is bound in the
matching frame, and under the stack's bottom lies the rooted global
frame. -/

/-- Arena evolution: every frame survives with the same parent link and
at least its old binding keys. -/
def Ext (a b : EnvArena Value) : Prop :=
  ∀ e f, frameAt a e = some f → ∃ g, frameAt b e = some g ∧ g.enclosing = f.enclosing ∧
    ∀ n, (getBinding f.bindings n).isSome → (getBinding g.bindings n).isSome

theorem ext_refl (a : EnvArena Value) : Ext a a :=
  fun e f hf => ⟨f, hf, rfl, fun _ h => h⟩

theorem ext_trans {a b c : EnvArena Value} (h1 : Ext a b) (h2 : Ext b c) : Ext a c := by
  intro e f hf
  obtain ⟨g, hg, hge, hgb⟩ := h1 e f hf
  obtain ⟨g2, hg2, hg2e, hg2b⟩ := h2 e g hg
  exact ⟨g2, hg2, hg2e.trans hge, fun n hn => hg2b n (hgb n hn)⟩

theorem frameAt_lt {α : Type} {a : EnvArena α} {e : Nat} {f : Frame α}
    (h : frameAt a e = some f) : e < a.length := by
  by_contra hge
  rw [show frameAt a e = List.get? a e from rfl, List.get?_eq_none.mpr (by omega)] at h
  cases h

theorem ext_push (a : EnvArena Value) (p : Option Nat) :
    Ext a (a ++ [⟨[], p⟩]) := by
  intro e f hf
  refine ⟨f, ?_, rfl, fun _ h => h⟩
  show List.get? (a ++ [⟨[], p⟩]) e = some f
  rw [List.get?_append (frameAt_lt hf)]
  exact hf

theorem frameAt_set_self {α : Type} {a : EnvArena α} {i : Nat} {f : Frame α}
    (h : frameAt a i = some f) (g : Frame α) : frameAt (a.set i g) i = some g := by
  show List.get? (a.set i g) i = some g
  rw [List.get?_eq_getElem?]
  apply List.getElem?_set_eq_of_lt
  simpa using frameAt_lt h

theorem frameAt_set_ne {α : Type} (a : EnvArena α) (i : Nat) (g : Frame α) {e : Nat}
    (h : e ≠ i) : frameAt (a.set i g) e = frameAt a e := by
  show List.get? (a.set i g) e = List.get? a e
  rw [List.get?_eq_getElem?, List.get?_eq_getElem?, List.getElem?_set_ne (Ne.symm h)]

theorem ext_set {a : EnvArena Value} {i : Nat} {f : Frame Value} (g : Frame Value)
    (hf : frameAt a i = some f) (henc : g.enclosing = f.enclosing)
    (hsup : ∀ n, (getBinding f.bindings n).isSome → (getBinding g.bindings n).isSome) :
    Ext a (a.set i g) := by
  intro e f2 hf2
  by_cases he : e = i
  · subst he
    rw [hf] at hf2
    cases hf2
    exact ⟨g, frameAt_set_self hf g, henc, hsup⟩
  · exact ⟨f2, by rw [frameAt_set_ne a i g he]; exact hf2, rfl, fun _ h => h⟩

/-- A statically fully-defined name is bound in the frame. -/
def ScMatch (sc : ScopeT) (bs : List (List Char × Value)) : Prop :=
  ∀ n, getBinding sc n = some true → (getBinding bs n).isSome

inductive Conf (a : EnvArena Value) : Nat → List ScopeT → Prop where
  | global (gf : Frame Value) : frameAt a 0 = some gf → gf.enclosing = none →
      Conf a 0 []
  | push (e : Nat) (f : Frame Value) (p : Nat) (sc : ScopeT) (S : List ScopeT) :
      frameAt a e = some f → f.enclosing = some p → ScMatch sc f.bindings →
      Conf a p S → Conf a e (sc :: S)

theorem conf_mono {a b : EnvArena Value} {env : Nat} {S : List ScopeT}
    (hext : Ext a b) (h : Conf a env S) : Conf b env S := by
  induction h with
  | global gf hgf hge =>
    obtain ⟨g, hg, hge2, _⟩ := hext 0 gf hgf
    exact Conf.global g hg (hge2.trans hge)
  | push e f p sc S hf he hm hc ih =>
    obtain ⟨g, hg, hge2, hgb⟩ := hext e f hf
    exact Conf.push e g p sc S hg (hge2.trans he) (fun n hn => hgb n (hm n hn)) ih

theorem conf_frame {a : EnvArena Value} {env : Nat} {S : List ScopeT}
    (h : Conf a env S) : ∃ f, frameAt a env = some f := by
  cases h with
  | global gf hgf _ => exact ⟨gf, hgf⟩
  | push e f p sc S hf _ _ _ => exact ⟨f, hf⟩

/-- Well-formedness of runtime values: no class or instance value can
exist in this snapshot (a `class` statement raises the host `TypeError`
before constructing one); a function value closes over a conforming
environment whose body is statically resolved, and is never an
initializer. -/
def ValWF (L : Table) (a : EnvArena Value) : Value → Prop
  | .fn f => f.isInit = false ∧
      ∃ S, Conf a f.enclosing S ∧ RFunB L S f.decl
  | .cls _ => False
  | .inst _ => False
  | _ => True

theorem valWF_mono {L : Table} {a b : EnvArena Value} {v : Value}
    (hext : Ext a b) (h : ValWF L a v) : ValWF L b v := by
  cases v with
  | fn f =>
    obtain ⟨hinit, S, hconf, hfb⟩ := h
    exact ⟨hinit, S, conf_mono hext hconf, hfb⟩
  | cls c => exact h.elim
  | inst i => exact h.elim
  | _ => trivial

/-- Every value stored in any frame is well-formed. -/
def StoredWF (L : Table) (a : EnvArena Value) : Prop :=
  ∀ e f n v, frameAt a e = some f → getBinding f.bindings n = some v → ValWF L a v

/-- The global frame exists and has no parent. -/
def GlobalsOK (a : EnvArena Value) : Prop :=
  ∃ gf, frameAt a 0 = some gf ∧ gf.enclosing = none

theorem globals_mono {a b : EnvArena Value} (hext : Ext a b) (h : GlobalsOK a) :
    GlobalsOK b := by
  obtain ⟨gf, hgf, hge⟩ := h
  obtain ⟨g, hg, hge2, _⟩ := hext 0 gf hgf
  exact ⟨g, hg, hge2.trans hge⟩

/-- The run-state invariant: rooted globals, well-formed stored values,
no instances, and an identity counter past every table key. -/
def StateWF (L : Table) (nid0 : Nat) (st : RtState) : Prop :=
  GlobalsOK st.envs ∧ StoredWF L st.envs ∧ st.instances = [] ∧ nid0 ≤ st.nextNid

theorem stored_push {L : Table} {a : EnvArena Value} (h : StoredWF L a) (p : Option Nat) :
    StoredWF L (a ++ [⟨[], p⟩]) := by
  intro e f n v hf hb
  by_cases he : e < a.length
  · rw [show frameAt (a ++ [⟨[], p⟩]) e = List.get? (a ++ [⟨[], p⟩]) e from rfl,
      List.get?_append he] at hf
    exact valWF_mono (ext_push a p) (h e f n v hf hb)
  · have : e = a.length ∨ a.length + 1 ≤ e := by omega
    rcases this with he2 | he2
    · subst he2
      rw [show frameAt (a ++ [⟨[], p⟩]) a.length = List.get? (a ++ [⟨[], p⟩]) a.length
          from rfl, List.get?_concat_length] at hf
      cases hf
      simp [getBinding] at hb
    · rw [show frameAt (a ++ [⟨[], p⟩]) e = List.get? (a ++ [⟨[], p⟩]) e from rfl,
        List.get?_eq_none.mpr (by simp; omega)] at hf
      cases hf

theorem stored_set {L : Table} {a : EnvArena Value} {i : Nat} {f : Frame Value}
    {nm : List Char} {v : Value} (h : StoredWF L a) (hf : frameAt a i = some f)
    (hv : ValWF L (a.set i ⟨setBinding f.bindings nm v, f.enclosing⟩) v) :
    StoredWF L (a.set i ⟨setBinding f.bindings nm v, f.enclosing⟩) := by
  have hext : Ext a (a.set i ⟨setBinding f.bindings nm v, f.enclosing⟩) := by
    refine ext_set _ hf rfl ?_
    intro n hn
    rw [getBinding_setBinding]
    split
    · simp
    · exact hn
  intro e g n w hg hb
  by_cases he : e = i
  · subst he
    rw [frameAt_set_self hf _] at hg
    cases hg
    rw [getBinding_setBinding] at hb
    by_cases hn : n = nm
    · rw [if_pos hn] at hb
      cases hb
      exact hv
    · rw [if_neg hn] at hb
      exact valWF_mono hext (h _ f n w hf hb)
  · rw [frameAt_set_ne a i _ he] at hg
    exact valWF_mono hext (h e g n w hg hb)

/-! ## Safety of the distance-indexed and global environment operations
under conformance -/

theorem conf_getAt {a : EnvArena Value} {env : Nat} {S : List ScopeT}
    {d : Nat} {name : List Char} (hconf : Conf a env S)
    (hflag : flagAt S d name = some true) :
    ∃ v, getAtE a env d name = .ok v ∧
      ∃ i g, frameAt a i = some g ∧ getBinding g.bindings name = some v := by
  induction d generalizing env S with
  | zero =>
    cases hconf with
    | global gf hgf hge => simp [flagAt] at hflag
    | push e f p sc S2 hf he hm hc =>
      have hsc : getBinding sc name = some true := by simpa [flagAt] using hflag
      obtain ⟨v, hv⟩ := Option.isSome_iff_exists.mp (hm name hsc)
      refine ⟨v, ?_, env, f, hf, hv⟩
      simp [getAtE, ancestorE, hf, hv]
  | succ d ih =>
    cases hconf with
    | global gf hgf hge => simp [flagAt] at hflag
    | push e f p sc S2 hf he hm hc =>
      have hflag2 : flagAt S2 d name = some true := by simpa [flagAt] using hflag
      obtain ⟨v, hv, i, g, hg, hgb⟩ := ih hc hflag2
      refine ⟨v, ?_, i, g, hg, hgb⟩
      have hstep : getAtE a env (d + 1) name = getAtE a p d name := by
        unfold getAtE
        rw [show ancestorE a (some env) (d + 1) = ancestorE a (some p) d from by
          simp [ancestorE, hf, he]]
      rw [hstep]
      exact hv

theorem conf_assignAt {a : EnvArena Value} {env : Nat} {S : List ScopeT}
    {d : Nat} (hconf : Conf a env S) (hd : d < S.length) (name : Token) (v : Value) :
    ∃ i g, frameAt a i = some g ∧
      assignAtE a env d name v =
        .ok (a.set i ⟨setBinding g.bindings name.lexeme v, g.enclosing⟩) := by
  induction d generalizing env S with
  | zero =>
    cases hconf with
    | global gf hgf hge => simp at hd
    | push e f p sc S2 hf he hm hc =>
      refine ⟨env, f, hf, ?_⟩
      simp [assignAtE, ancestorE, hf]
  | succ d ih =>
    cases hconf with
    | global gf hgf hge => simp at hd
    | push e f p sc S2 hf he hm hc =>
      obtain ⟨i, g, hg, hok⟩ := ih hc (by simpa using hd)
      refine ⟨i, g, hg, ?_⟩
      have hstep : assignAtE a env (d + 1) name v = assignAtE a p d name v := by
        unfold assignAtE
        rw [show ancestorE a (some env) (d + 1) = ancestorE a (some p) d from by
          simp [ancestorE, hf, he]]
      rw [hstep]
      exact hok

theorem global_getE {a : EnvArena Value} (h : GlobalsOK a) (name : Token) :
    (∃ v, getE a 0 name = .ok v ∧
      ∃ f, frameAt a 0 = some f ∧ getBinding f.bindings name.lexeme = some v) ∨
    getE a 0 name = .error (.lox name (undefinedVarMsg name.lexeme)) := by
  obtain ⟨gf, hgf, hge⟩ := h
  cases hb : getBinding gf.bindings name.lexeme with
  | some v =>
    exact Or.inl ⟨v, by simp [getE, getEAux, hgf, hb], gf, hgf, hb⟩
  | none =>
    exact Or.inr (by simp [getE, getEAux, hgf, hb, hge])

theorem global_assignE {a : EnvArena Value} (h : GlobalsOK a) (name : Token) (v : Value) :
    (∃ f, frameAt a 0 = some f ∧
      assignE a 0 name v =
        .ok (a.set 0 ⟨setBinding f.bindings name.lexeme v, f.enclosing⟩)) ∨
    assignE a 0 name v = .error (.lox name (undefinedVarMsg name.lexeme)) := by
  obtain ⟨gf, hgf, hge⟩ := h
  by_cases hb : (getBinding gf.bindings name.lexeme).isSome
  · exact Or.inl ⟨gf, hgf, by simp [assignE, assignEAux, hgf, hb]⟩
  · exact Or.inr (by simp [assignE, assignEAux, hgf, hb, hge])

/-- Statically declaring a name cannot break frame conformance (the
declared-only flag is `False`). -/
theorem conf_dec {a : EnvArena Value} {env : Nat} {S : List ScopeT}
    (h : Conf a env S) (nm : List Char) : Conf a env (decScopes nm S) := by
  cases h with
  | global gf hgf hge => exact Conf.global gf hgf hge
  | push e f p sc S2 hf he hm hc =>
    refine Conf.push env f p _ S2 hf he ?_ hc
    intro n hn
    rw [getBinding_setBinding] at hn
    by_cases hnm : n = nm
    · rw [if_pos hnm] at hn
      cases hn
    · rw [if_neg hnm] at hn
      exact hm n hn

/-- Defining a name in the current frame realises declare-then-define on
the static stack. -/
theorem conf_define {a : EnvArena Value} {env : Nat} {S : List ScopeT} {f : Frame Value}
    (h : Conf a env S) (hf : frameAt a env = some f) (nm : List Char) (v : Value) :
    Conf (a.set env ⟨setBinding f.bindings nm v, f.enclosing⟩) env
      (defScopes nm (decScopes nm S)) := by
  have hext : Ext a (a.set env ⟨setBinding f.bindings nm v, f.enclosing⟩) := by
    refine ext_set _ hf rfl ?_
    intro n hn
    rw [getBinding_setBinding]
    split
    · simp
    · exact hn
  cases h with
  | global gf hgf hge =>
    rw [hgf] at hf
    cases hf
    refine Conf.global _ (frameAt_set_self hgf _) hge
  | push e f2 p sc S2 hf2 he hm hc =>
    rw [hf2] at hf
    cases hf
    refine Conf.push env _ p _ S2 (frameAt_set_self hf2 _) he ?_ (conf_mono hext hc)
    intro n hn
    rw [getBinding_setBinding] at hn
    rw [getBinding_setBinding]
    by_cases hnm : n = nm
    · simp [hnm]
    · rw [if_neg hnm] at hn
      rw [getBinding_setBinding, if_neg hnm] at hn
      rw [if_neg hnm]
      exact hm n hn

/-- `_visit_binary` after evaluation yields a primitive value, a Lox
error, or (unreachable operator tokens) the embedding's `hostBug`. -/
theorem binOp_cases (op : Token) (l r : Value) :
    (∃ v, binOp op l r = .ok v ∧
      (match v with
        | .num _ => True
        | .bool _ => True
        | .str _ => True
        | _ => False)) ∨
    (∃ m, binOp op l r = .error (.lox op m)) ∨
    binOp op l r = .error .hostBug := by
  cases hop : op.type <;> simp only [binOp, hop] <;>
    first
      | (exact Or.inr (Or.inr rfl))
      | (exact Or.inr (Or.inr trivial))
      | (refine Or.inl ⟨_, rfl, trivial⟩)
      | (split
         · first
            | (refine Or.inl ⟨_, rfl, trivial⟩)
            | (split
               · exact Or.inr (Or.inl ⟨_, rfl⟩)
               · refine Or.inl ⟨_, rfl, trivial⟩)
         · exact Or.inr (Or.inl ⟨_, rfl⟩))
      | (cases l <;> cases r <;>
          first
            | (refine Or.inl ⟨_, rfl, trivial⟩)
            | (exact Or.inr (Or.inl ⟨_, rfl⟩)))

/-! ## Binding the parameters of a call -/

/-- The parameter-definition fold of `LoxFunction.__call__`. -/
def foldDefs (eid : Nat) (params : List Token) (args : List Value) (st1 : RtState) :
    RtState :=
  (params.zip args).foldl (fun acc pa => rtDefine acc eid pa.1.lexeme pa.2) st1

theorem paramScope_names {params : List Token} {sc : ScopeT} {n : List Char} {b : Bool}
    (h : getBinding (foldSc params sc) n = some b) :
    n ∈ params.map (·.lexeme) ∨ getBinding sc n = some b := by
  induction params generalizing sc with
  | nil => exact Or.inr h
  | cons p ps ih =>
    rcases ih h with hm | hold
    · exact Or.inl (by simp at hm ⊢; tauto)
    · rw [getBinding_setBinding] at hold
      by_cases hn : n = p.lexeme
      · exact Or.inl (by simp [hn])
      · rw [if_neg hn, getBinding_setBinding, if_neg hn] at hold
        exact Or.inr hold

theorem paramScope_mem {params : List Token} {n : List Char} {b : Bool}
    (h : getBinding (paramScope params) n = some b) : n ∈ params.map (·.lexeme) := by
  rcases paramScope_names h with hm | hold
  · exact hm
  · simp [getBinding] at hold

theorem fold_defines (L : Table) (eid : Nat) :
    ∀ (params : List Token) (args : List Value) (st1 : RtState) (f0 : Frame Value),
    args.length = params.length →
    frameAt st1.envs eid = some f0 →
    StoredWF L st1.envs →
    (∀ v ∈ args, ValWF L st1.envs v) →
    Ext st1.envs (foldDefs eid params args st1).envs ∧
    (foldDefs eid params args st1).instances = st1.instances ∧
    (foldDefs eid params args st1).nextNid = st1.nextNid ∧
    StoredWF L (foldDefs eid params args st1).envs ∧
    ∃ fb, frameAt (foldDefs eid params args st1).envs eid = some fb ∧
      fb.enclosing = f0.enclosing ∧
      (∀ p ∈ params, (getBinding fb.bindings p.lexeme).isSome) := by
  intro params
  induction params with
  | nil =>
    intro args st1 f0 hlen hf hst hargs
    exact ⟨ext_refl _, rfl, rfl, hst, f0, hf, rfl, by simp⟩
  | cons p ps ih =>
    intro args st1 f0 hlen hf hst hargs
    match args with
    | a :: as =>
      have hstep : foldDefs eid (p :: ps) (a :: as) st1 =
          foldDefs eid ps as (rtDefine st1 eid p.lexeme a) := rfl
      have hdef : (rtDefine st1 eid p.lexeme a).envs =
          st1.envs.set eid ⟨setBinding f0.bindings p.lexeme a, f0.enclosing⟩ := by
        show (defineE st1.envs eid p.lexeme a) = _
        unfold defineE
        rw [hf]
      have hext1 : Ext st1.envs (rtDefine st1 eid p.lexeme a).envs := by
        rw [hdef]
        refine ext_set _ hf rfl ?_
        intro n hn
        rw [getBinding_setBinding]
        split
        · simp
        · exact hn
      have hf1 : frameAt (rtDefine st1 eid p.lexeme a).envs eid =
          some ⟨setBinding f0.bindings p.lexeme a, f0.enclosing⟩ := by
        rw [hdef]
        exact frameAt_set_self hf _
      have hst1 : StoredWF L (rtDefine st1 eid p.lexeme a).envs := by
        rw [hdef]
        exact stored_set hst hf
          (valWF_mono (by rw [← hdef]; exact hext1) (hargs a (by simp)))
      have hargs1 : ∀ v ∈ as, ValWF L (rtDefine st1 eid p.lexeme a).envs v :=
        fun v hv => valWF_mono hext1 (hargs v (by simp [hv]))
      obtain ⟨hext2, hinst2, hnid2, hst2, fb, hfb, hfbenc, hfbp⟩ :=
        ih as (rtDefine st1 eid p.lexeme a) _ (by simpa using hlen) hf1 hst1 hargs1
      rw [← hstep] at hext2 hinst2 hnid2 hst2 hfb
      refine ⟨ext_trans hext1 hext2, hinst2, hnid2, hst2, fb, hfb, hfbenc, ?_⟩
      intro p2 hp2
      rcases List.mem_cons.mp hp2 with hp2 | hp2
      · subst hp2
        obtain ⟨g, hg, _, hgb⟩ :=
          hext2 eid ⟨setBinding f0.bindings p2.lexeme a, f0.enclosing⟩ hf1
        rw [hfb] at hg
        cases hg
        exact hgb p2.lexeme (by rw [getBinding_setBinding_self]; rfl)
      · exact hfbp p2 hp2

/-! ## The interpretation post-conditions

The run may fail — with a Lox error, the embedding's fuel artifact
`hostBug`, `printf`'s `hostTypeError`/`hostParseError` — but never with
the host `KeyError`/`AttributeError` of `get_at`/`assign_at`; the arena
only grows, the state invariant is maintained, and produced values are
well-formed.  `Return` signals never escape an expression evaluation. -/

def EPost (L : Table) (nid0 : Nat) (pre : RtState) : RRes Value → Prop
  | .ok v st2 => Ext pre.envs st2.envs ∧ StateWF L nid0 st2 ∧ ValWF L st2.envs v
  | .ret _ _ => False
  | .err er st2 => Ext pre.envs st2.envs ∧ StateWF L nid0 st2 ∧
      er ≠ .hostKeyError ∧ er ≠ .hostAttrError

def LPost (L : Table) (nid0 : Nat) (pre : RtState) : RRes (List Value) → Prop
  | .ok vs st2 => Ext pre.envs st2.envs ∧ StateWF L nid0 st2 ∧
      ∀ v ∈ vs, ValWF L st2.envs v
  | .ret _ _ => False
  | .err er st2 => Ext pre.envs st2.envs ∧ StateWF L nid0 st2 ∧
      er ≠ .hostKeyError ∧ er ≠ .hostAttrError

def PPost (L : Table) (nid0 : Nat) (pre : RtState) : RRes (List Char) → Prop
  | .ok _ st2 => Ext pre.envs st2.envs ∧ StateWF L nid0 st2
  | .ret _ _ => False
  | .err er st2 => Ext pre.envs st2.envs ∧ StateWF L nid0 st2 ∧
      er ≠ .hostKeyError ∧ er ≠ .hostAttrError

def UPost (L : Table) (nid0 : Nat) (pre : RtState) (env : Nat) (S2 : List ScopeT) :
    RRes Unit → Prop
  | .ok _ st2 => Ext pre.envs st2.envs ∧ StateWF L nid0 st2 ∧ Conf st2.envs env S2
  | .ret v st2 => Ext pre.envs st2.envs ∧ StateWF L nid0 st2 ∧ ValWF L st2.envs v
  | .err er st2 => Ext pre.envs st2.envs ∧ StateWF L nid0 st2 ∧
      er ≠ .hostKeyError ∧ er ≠ .hostAttrError

theorem lox_ne_host (t : Token) (m : List Char) :
    (RTErr.lox t m ≠ .hostKeyError) ∧ (RTErr.lox t m ≠ .hostAttrError) := by
  constructor <;> simp

theorem bug_ne_host : (RTErr.hostBug ≠ .hostKeyError) ∧ (RTErr.hostBug ≠ .hostAttrError) := by
  constructor <;> simp

theorem type_ne_host :
    (RTErr.hostTypeError ≠ .hostKeyError) ∧ (RTErr.hostTypeError ≠ .hostAttrError) := by
  constructor <;> simp

theorem parse_ne_host :
    (RTErr.hostParseError ≠ .hostKeyError) ∧ (RTErr.hostParseError ≠ .hostAttrError) := by
  constructor <;> simp

/-! ### Weakening and sequencing of the post-conditions -/

theorem epost_step {L : Table} {nid0 : Nat} {st st1 : RtState} {r : RRes Value}
    (hext : Ext st.envs st1.envs) (h : EPost L nid0 st1 r) : EPost L nid0 st r := by
  cases r with
  | ok v st2 => exact ⟨ext_trans hext h.1, h.2⟩
  | ret v st2 => exact h.elim
  | err er st2 => exact ⟨ext_trans hext h.1, h.2⟩

theorem lpost_step {L : Table} {nid0 : Nat} {st st1 : RtState} {r : RRes (List Value)}
    (hext : Ext st.envs st1.envs) (h : LPost L nid0 st1 r) : LPost L nid0 st r := by
  cases r with
  | ok vs st2 => exact ⟨ext_trans hext h.1, h.2⟩
  | ret v st2 => exact h.elim
  | err er st2 => exact ⟨ext_trans hext h.1, h.2⟩

theorem ppost_step {L : Table} {nid0 : Nat} {st st1 : RtState} {r : RRes (List Char)}
    (hext : Ext st.envs st1.envs) (h : PPost L nid0 st1 r) : PPost L nid0 st r := by
  cases r with
  | ok s st2 => exact ⟨ext_trans hext h.1, h.2⟩
  | ret v st2 => exact h.elim
  | err er st2 => exact ⟨ext_trans hext h.1, h.2⟩

theorem upost_step {L : Table} {nid0 : Nat} {st st1 : RtState} {env : Nat}
    {S2 : List ScopeT} {r : RRes Unit}
    (hext : Ext st.envs st1.envs) (h : UPost L nid0 st1 env S2 r) :
    UPost L nid0 st env S2 r := by
  cases r with
  | ok u st2 => exact ⟨ext_trans hext h.1, h.2⟩
  | ret v st2 => exact ⟨ext_trans hext h.1, h.2⟩
  | err er st2 => exact ⟨ext_trans hext h.1, h.2⟩

theorem epost_andThen {L : Table} {nid0 : Nat} {st : RtState} {r : RRes Value}
    {f : Value → RtState → RRes Value} (h : EPost L nid0 st r)
    (hf : ∀ v st1, Ext st.envs st1.envs → StateWF L nid0 st1 → ValWF L st1.envs v →
      EPost L nid0 st1 (f v st1)) :
    EPost L nid0 st (r.andThen f) := by
  cases r with
  | ok v st1 =>
    obtain ⟨he, hw, hv⟩ := h
    exact epost_step he (hf v st1 he hw hv)
  | ret v st1 => exact h.elim
  | err er st1 => exact h

theorem lpost_bindE {L : Table} {nid0 : Nat} {st : RtState} {r : RRes Value}
    {f : Value → RtState → RRes (List Value)} (h : EPost L nid0 st r)
    (hf : ∀ v st1, Ext st.envs st1.envs → StateWF L nid0 st1 → ValWF L st1.envs v →
      LPost L nid0 st1 (f v st1)) :
    LPost L nid0 st (r.andThen f) := by
  cases r with
  | ok v st1 =>
    obtain ⟨he, hw, hv⟩ := h
    exact lpost_step he (hf v st1 he hw hv)
  | ret v st1 => exact h.elim
  | err er st1 => exact h

theorem lpost_bindL {L : Table} {nid0 : Nat} {st : RtState} {r : RRes (List Value)}
    {f : List Value → RtState → RRes (List Value)} (h : LPost L nid0 st r)
    (hf : ∀ vs st1, Ext st.envs st1.envs → StateWF L nid0 st1 →
      (∀ v ∈ vs, ValWF L st1.envs v) → LPost L nid0 st1 (f vs st1)) :
    LPost L nid0 st (r.andThen f) := by
  cases r with
  | ok vs st1 =>
    obtain ⟨he, hw, hv⟩ := h
    exact lpost_step he (hf vs st1 he hw hv)
  | ret v st1 => exact h.elim
  | err er st1 => exact h

theorem epost_bindL {L : Table} {nid0 : Nat} {st : RtState} {r : RRes (List Value)}
    {f : List Value → RtState → RRes Value} (h : LPost L nid0 st r)
    (hf : ∀ vs st1, Ext st.envs st1.envs → StateWF L nid0 st1 →
      (∀ v ∈ vs, ValWF L st1.envs v) → EPost L nid0 st1 (f vs st1)) :
    EPost L nid0 st (r.andThen f) := by
  cases r with
  | ok vs st1 =>
    obtain ⟨he, hw, hv⟩ := h
    exact epost_step he (hf vs st1 he hw hv)
  | ret v st1 => exact h.elim
  | err er st1 => exact h

theorem upost_bindE {L : Table} {nid0 : Nat} {st : RtState} {env : Nat}
    {S2 : List ScopeT} {r : RRes Value} {f : Value → RtState → RRes Unit}
    (h : EPost L nid0 st r)
    (hf : ∀ v st1, Ext st.envs st1.envs → StateWF L nid0 st1 → ValWF L st1.envs v →
      UPost L nid0 st1 env S2 (f v st1)) :
    UPost L nid0 st env S2 (r.andThen f) := by
  cases r with
  | ok v st1 =>
    obtain ⟨he, hw, hv⟩ := h
    exact upost_step he (hf v st1 he hw hv)
  | ret v st1 => exact h.elim
  | err er st1 => exact h

theorem upost_seq {L : Table} {nid0 : Nat} {st : RtState} {env : Nat}
    {S1 S2 : List ScopeT} {r : RRes Unit} {f : Unit → RtState → RRes Unit}
    (h : UPost L nid0 st env S1 r)
    (hf : ∀ st1, Ext st.envs st1.envs → StateWF L nid0 st1 → Conf st1.envs env S1 →
      UPost L nid0 st1 env S2 (f () st1)) :
    UPost L nid0 st env S2 (r.andThen f) := by
  cases r with
  | ok u st1 =>
    obtain ⟨he, hw, hc⟩ := h
    cases u
    exact upost_step he (hf st1 he hw hc)
  | ret v st1 => exact h
  | err er st1 => exact h

theorem ppost_bindE {L : Table} {nid0 : Nat} {st : RtState} {r : RRes Value}
    {f : Value → RtState → RRes (List Char)} (h : EPost L nid0 st r)
    (hf : ∀ v st1, Ext st.envs st1.envs → StateWF L nid0 st1 → ValWF L st1.envs v →
      PPost L nid0 st1 (f v st1)) :
    PPost L nid0 st (r.andThen f) := by
  cases r with
  | ok v st1 =>
    obtain ⟨he, hw, hv⟩ := h
    exact ppost_step he (hf v st1 he hw hv)
  | ret v st1 => exact h.elim
  | err er st1 => exact h

theorem ppost_seq {L : Table} {nid0 : Nat} {st : RtState} {r : RRes (List Char)}
    {f : List Char → RtState → RRes (List Char)} (h : PPost L nid0 st r)
    (hf : ∀ s st1, Ext st.envs st1.envs → StateWF L nid0 st1 →
      PPost L nid0 st1 (f s st1)) :
    PPost L nid0 st (r.andThen f) := by
  cases r with
  | ok s st1 =>
    obtain ⟨he, hw⟩ := h
    exact ppost_step he (hf s st1 he hw)
  | ret v st1 => exact h.elim
  | err er st1 => exact h

theorem epost_bindP {L : Table} {nid0 : Nat} {st : RtState} {r : RRes (List Char)}
    {f : List Char → RtState → RRes Value} (h : PPost L nid0 st r)
    (hf : ∀ s st1, Ext st.envs st1.envs → StateWF L nid0 st1 →
      EPost L nid0 st1 (f s st1)) :
    EPost L nid0 st (r.andThen f) := by
  cases r with
  | ok s st1 =>
    obtain ⟨he, hw⟩ := h
    exact epost_step he (hf s st1 he hw)
  | ret v st1 => exact h.elim
  | err er st1 => exact h

/-! ### Small state-update facts -/

theorem ext_bind {a : EnvArena Value} {i : Nat} {g : Frame Value}
    (hg : frameAt a i = some g) (nm : List Char) (v : Value) :
    Ext a (a.set i ⟨setBinding g.bindings nm v, g.enclosing⟩) := by
  refine ext_set _ hg rfl ?_
  intro n hn
  rw [getBinding_setBinding]
  split
  · simp
  · exact hn

theorem statewf_bind {L : Table} {nid0 : Nat} {st1 : RtState} {i : Nat}
    {g : Frame Value} (hwf1 : StateWF L nid0 st1) (hg : frameAt st1.envs i = some g)
    {nm : List Char} {v : Value} (hv : ValWF L st1.envs v) :
    StateWF L nid0
      { st1 with envs := st1.envs.set i ⟨setBinding g.bindings nm v, g.enclosing⟩ } :=
  ⟨globals_mono (ext_bind hg nm v) hwf1.1,
   stored_set hwf1.2.1 hg (valWF_mono (ext_bind hg nm v) hv),
   hwf1.2.2.1, hwf1.2.2.2⟩

theorem rtDefine_eq {st : RtState} {e : Nat} {f : Frame Value}
    (hf : frameAt st.envs e = some f) (nm : List Char) (v : Value) :
    rtDefine st e nm v =
      { st with envs := st.envs.set e ⟨setBinding f.bindings nm v, f.enclosing⟩ } := by
  show { st with envs := defineE st.envs e nm v } = _
  unfold defineE
  rw [hf]

/-- `_lookup_variable` under conformance: a table hit reads a statically
fully-defined name (never the host `KeyError`), a miss reads the global
frame (`Undefined variable` at worst). -/
theorem lookup_safe {L : Table} {nid0 env : Nat} {S : List ScopeT} {st : RtState}
    (hwf : StateWF L nid0 st) (hconf : Conf st.envs env S) {nid : Nat} {name : Token}
    (hro : ReadOK L S nid name.lexeme) :
    EPost L nid0 st (lookupVariable L env name nid st) := by
  unfold lookupVariable
  cases htg : tableGet L nid with
  | some d =>
    obtain ⟨v, hok, i, g, hg, hgb⟩ := conf_getAt hconf (hro d htg)
    show EPost L nid0 st (liftEx st (getAtE st.envs env d name.lexeme))
    rw [hok]
    exact ⟨ext_refl _, hwf, hwf.2.1 i g name.lexeme v hg hgb⟩
  | none =>
    show EPost L nid0 st (liftEx st (getE st.envs 0 name))
    rcases global_getE hwf.1 name with ⟨v, hok, g, hg, hgb⟩ | herr
    · rw [hok]
      exact ⟨ext_refl _, hwf, hwf.2.1 0 g name.lexeme v hg hgb⟩
    · rw [herr]
      exact ⟨ext_refl _, hwf, (lox_ne_host _ _).1, (lox_ne_host _ _).2⟩

/-! ### Definitional unfoldings of the evaluator at positive fuel -/

theorem callFn_succ (L : Table) (k : Nat) (f : FnVal) (args : List Value)
    (st : RtState) :
    callFn L (k + 1) f args st =
      (match execBlockStmts L k st.envs.length (FunDecl.body f.decl)
          (foldDefs st.envs.length (FunDecl.params f.decl) args
            { st with envs := st.envs ++ [⟨[], some f.enclosing⟩] }) with
        | .ret v st3 =>
          if f.isInit then liftEx st3 (getAtE st3.envs f.enclosing 0 "this".toList)
          else .ok v st3
        | .ok _ st3 =>
          if f.isInit then liftEx st3 (getAtE st3.envs f.enclosing 0 "this".toList)
          else .ok .nil st3
        | .err e st3 => .err e st3) := rfl

theorem execS_block_succ (L : Table) (k env : Nat) (stmts : List Stmt) (st : RtState) :
    execS L (k + 1) env (.block stmts) st =
      execBlockStmts L k st.envs.length stmts
        { st with envs := st.envs ++ [⟨[], some env⟩] } := rfl

theorem execS_funcS_succ (L : Table) (k env : Nat) (decl : FunDecl) (st : RtState) :
    execS L (k + 1) env (.funcS decl) st =
      .ok () (rtDefine { st with nextOid := st.nextOid + 1 } env
        (FunDecl.name decl).lexeme (.fn ⟨st.nextOid, decl, env, false⟩)) := rfl

theorem evalInterp_succ (L : Table) (k env : Nat) (code : List Char) (st : RtState) :
    evalInterp L (k + 1) env code st =
      (match pExpression (32 * (code.length + 2))
          (match (scanChars code).1 with
            | [] => (⟨⟨.EOF, [], none, 0, 0⟩, [], st.nextNid, []⟩ : PState)
            | t :: ts => ⟨t, ts, st.nextNid, []⟩) with
        | .error pst =>
          .err .hostParseError
            { st with
                nextNid := pst.nextNid,
                logged := (st.logged ++ (scanChars code).2) ++ pst.errs.map Prod.snd }
        | .ok (e, pst) =>
          match evalE L k env e
              { st with
                  nextNid := pst.nextNid,
                  logged := (st.logged ++ (scanChars code).2) ++ pst.errs.map Prod.snd } with
          | .ok v st3 => .ok v st3
          | .ret v st3 => .ret v st3
          | .err (.lox _ m) st3 => .ok .nil { st3 with logged := st3.logged ++ [m] }
          | .err er st3 => .err er st3) := rfl

/-! ### The simulation: a statically resolved program never trips the
distance-indexed operations

By induction on fuel, simultaneously over the mutually recursive
evaluator functions: under conformance of the frame chain with the
resolver's static scope stack, every run outcome satisfies its
post-condition — in particular the error is never `hostKeyError` or
`hostAttrError`, the two host exceptions of `get_at`/`assign_at`. -/

theorem evalSim (L : Table) (nid0 : Nat)
    (hTB : ∀ n d, tableGet L n = some d → n < nid0) : ∀ k : Nat,
    (∀ env e st S, StateWF L nid0 st → Conf st.envs env S → REx L S e →
      EPost L nid0 st (evalE L k env e st)) ∧
    (∀ env es st S, StateWF L nid0 st → Conf st.envs env S → RExList L S es →
      LPost L nid0 st (evalArgs L k env es st)) ∧
    (∀ env cv args st, StateWF L nid0 st → (∃ S, Conf st.envs env S) →
      ValWF L st.envs cv → (∀ v ∈ args, ValWF L st.envs v) →
      args.length = arityOf cv →
      EPost L nid0 st (callValue L k env cv args st)) ∧
    (∀ f args st, StateWF L nid0 st → ValWF L st.envs (.fn f) →
      (∀ v ∈ args, ValWF L st.envs v) →
      args.length = (FunDecl.params f.decl).length →
      EPost L nid0 st (callFn L k f args st)) ∧
    (∀ env nv args st, StateWF L nid0 st → (∃ S, Conf st.envs env S) →
      EPost L nid0 st (nativeCall L k env nv args st)) ∧
    (∀ env fmt st, StateWF L nid0 st → (∃ S, Conf st.envs env S) →
      PPost L nid0 st (printfFmt L k env fmt st)) ∧
    (∀ env code st, StateWF L nid0 st → (∃ S, Conf st.envs env S) →
      EPost L nid0 st (evalInterp L k env code st)) ∧
    (∀ env s st S S2, StateWF L nid0 st → Conf st.envs env S → RSt L S S2 s →
      UPost L nid0 st env S2 (execS L k env s st)) ∧
    (∀ env c body st S, StateWF L nid0 st → Conf st.envs env S → REx L S c →
      RSt L S S body → UPost L nid0 st env S (execWhile L k env c body st)) ∧
    (∀ env ss st S S2, StateWF L nid0 st → Conf st.envs env S → RSl L S S2 ss →
      UPost L nid0 st env S2 (execBlockStmts L k env ss st)) := by
  intro k
  induction k with
  | zero =>
    refine ⟨?_, ?_, ?_, ?_, ?_, ?_, ?_, ?_, ?_, ?_⟩
    · intro env e st S hwf _ _
      exact ⟨ext_refl _, hwf, bug_ne_host.1, bug_ne_host.2⟩
    · intro env es st S hwf _ _
      exact ⟨ext_refl _, hwf, bug_ne_host.1, bug_ne_host.2⟩
    · intro env cv args st hwf _ _ _ _
      exact ⟨ext_refl _, hwf, bug_ne_host.1, bug_ne_host.2⟩
    · intro f args st hwf _ _ _
      exact ⟨ext_refl _, hwf, bug_ne_host.1, bug_ne_host.2⟩
    · intro env nv args st hwf _
      exact ⟨ext_refl _, hwf, bug_ne_host.1, bug_ne_host.2⟩
    · intro env fmt st hwf _
      exact ⟨ext_refl _, hwf, bug_ne_host.1, bug_ne_host.2⟩
    · intro env code st hwf _
      exact ⟨ext_refl _, hwf, bug_ne_host.1, bug_ne_host.2⟩
    · intro env s st S S2 hwf _ _
      exact ⟨ext_refl _, hwf, bug_ne_host.1, bug_ne_host.2⟩
    · intro env c body st S hwf _ _ _
      exact ⟨ext_refl _, hwf, bug_ne_host.1, bug_ne_host.2⟩
    · intro env ss st S S2 hwf _ _
      exact ⟨ext_refl _, hwf, bug_ne_host.1, bug_ne_host.2⟩
  | succ k ih =>
    obtain ⟨ihE, ihA, ihV, ihF, ihN, ihP, ihI, ihS, ihW, ihB⟩ := ih
    refine ⟨?_, ?_, ?_, ?_, ?_, ?_, ?_, ?_, ?_, ?_⟩
    · -- evalE
      intro env e st S hwf hconf hrex
      cases hrex with
      | assign hv ha =>
        rename_i nid name value
        simp only [evalE]
        refine epost_andThen (ihE env value st S hwf hconf hv) ?_
        intro val st1 he1 hw1 hv1
        cases htg : tableGet L nid with
        | some d =>
          obtain ⟨i, g, hg, hok⟩ :=
            conf_assignAt (conf_mono he1 hconf) (ha d htg) name val
          have hav : assignVariable L env name nid val st1 = .ok ()
              { st1 with envs :=
                st1.envs.set i ⟨setBinding g.bindings name.lexeme val, g.enclosing⟩ } := by
            simp only [assignVariable, htg, hok]
          rw [hav]
          exact ⟨ext_bind hg _ _, statewf_bind hw1 hg hv1, trivial⟩
        | none =>
          rcases global_assignE hw1.1 name val with ⟨g, hg, hok⟩ | herr
          · have hav : assignVariable L env name nid val st1 = .ok ()
                { st1 with envs :=
                  st1.envs.set 0 ⟨setBinding g.bindings name.lexeme val, g.enclosing⟩ } := by
              simp only [assignVariable, htg, hok]
            rw [hav]
            exact ⟨ext_bind hg _ _, statewf_bind hw1 hg hv1, trivial⟩
          · have hav : assignVariable L env name nid val st1 =
                .err (.lox name (undefinedVarMsg name.lexeme)) st1 := by
              simp only [assignVariable, htg, herr]
            rw [hav]
            exact ⟨ext_refl _, hw1, (lox_ne_host _ _).1, (lox_ne_host _ _).2⟩
      | binary hl hr =>
        rename_i n l op r
        simp only [evalE]
        refine epost_andThen (ihE env l st S hwf hconf hl) ?_
        intro lv st1 he1 hw1 _
        refine epost_andThen (ihE env r st1 S hw1 (conf_mono he1 hconf) hr) ?_
        intro rv st2 he2 hw2 _
        rcases binOp_cases op lv rv with ⟨v, hok, hprim⟩ | ⟨m, herr⟩ | hbug
        · rw [hok]
          refine ⟨ext_refl _, hw2, ?_⟩
          cases v <;> first | trivial | exact hprim.elim
        · rw [herr]
          exact ⟨ext_refl _, hw2, (lox_ne_host _ _).1, (lox_ne_host _ _).2⟩
        · rw [hbug]
          exact ⟨ext_refl _, hw2, bug_ne_host.1, bug_ne_host.2⟩
      | call hc hargs =>
        rename_i n callee paren args
        simp only [evalE]
        refine epost_andThen (ihE env callee st S hwf hconf hc) ?_
        intro cv st1 he1 hw1 hcv
        refine epost_bindL (ihA env args st1 S hw1 (conf_mono he1 hconf) hargs) ?_
        intro vs st2 he2 hw2 hvs
        cases hcall : isCallable cv with
        | false =>
          exact ⟨ext_refl _, hw2, (lox_ne_host _ _).1, (lox_ne_host _ _).2⟩
        | true =>
          by_cases hlen : vs.length = arityOf cv
          · rw [if_neg (not_not_intro hlen)]
            show EPost L nid0 st2 (callValue L k env cv vs st2)
            exact ihV env cv vs st2 hw2
              ⟨S, conf_mono (ext_trans he1 he2) hconf⟩ (valWF_mono he2 hcv) hvs hlen
          · rw [if_pos hlen]
            exact ⟨ext_refl _, hw2, (lox_ne_host _ _).1, (lox_ne_host _ _).2⟩
      | get hobj =>
        rename_i n obj name
        simp only [evalE]
        refine epost_andThen (ihE env obj st S hwf hconf hobj) ?_
        intro ov st1 he1 hw1 hov
        cases ov
        case inst i => exact hov.elim
        all_goals exact ⟨ext_refl _, hw1, (lox_ne_host _ _).1, (lox_ne_host _ _).2⟩
      | grouping hi =>
        rename_i n inner
        simp only [evalE]
        exact ihE env inner st S hwf hconf hi
      | literal =>
        rename_i n v
        simp only [evalE]
        refine ⟨ext_refl _, hwf, ?_⟩
        cases v <;> trivial
      | logical hl hr =>
        rename_i n l op r
        simp only [evalE]
        refine epost_andThen (ihE env l st S hwf hconf hl) ?_
        intro lv st1 he1 hw1 hlv
        have hr1 : EPost L nid0 st1 (evalE L k env r st1) :=
          ihE env r st1 S hw1 (conf_mono he1 hconf) hr
        cases hop : op.type
        case OR =>
          cases htr : isTruthy lv
          · exact hr1
          · exact ⟨ext_refl _, hw1, hlv⟩
        case AND =>
          cases htr : isTruthy lv
          · exact ⟨ext_refl _, hw1, hlv⟩
          · exact hr1
        all_goals exact hr1
      | setE hval hobj =>
        rename_i n obj name value
        simp only [evalE]
        refine epost_andThen (ihE env obj st S hwf hconf hobj) ?_
        intro ov st1 he1 hw1 hov
        cases ov
        case inst i => exact hov.elim
        all_goals exact ⟨ext_refl _, hw1, (lox_ne_host _ _).1, (lox_ne_host _ _).2⟩
      | this hro =>
        rename_i nid kw
        simp only [evalE]
        exact lookup_safe hwf hconf hro
      | unary ho =>
        rename_i n op operand
        simp only [evalE]
        refine epost_andThen (ihE env operand st S hwf hconf ho) ?_
        intro v st1 he1 hw1 _
        cases hop : op.type
        case MINUS =>
          cases hnum : isNumV v
          · exact ⟨ext_refl _, hw1, (lox_ne_host _ _).1, (lox_ne_host _ _).2⟩
          · exact ⟨ext_refl _, hw1, trivial⟩
        case BANG => exact ⟨ext_refl _, hw1, trivial⟩
        all_goals exact ⟨ext_refl _, hw1, bug_ne_host.1, bug_ne_host.2⟩
      | var hro =>
        rename_i nid name
        simp only [evalE]
        exact lookup_safe hwf hconf hro
    · -- evalArgs
      intro env es st S hwf hconf hrl
      cases hrl with
      | nil =>
        simp only [evalArgs]
        exact ⟨ext_refl _, hwf, by simp⟩
      | cons he hrest =>
        rename_i e rest
        simp only [evalArgs]
        refine lpost_bindE (ihE env e st S hwf hconf he) ?_
        intro v st1 he1 hw1 hv1
        refine lpost_bindL (ihA env rest st1 S hw1 (conf_mono he1 hconf) hrest) ?_
        intro vs st2 he2 hw2 hvs
        refine ⟨ext_refl _, hw2, ?_⟩
        intro w hwmem
        rcases List.mem_cons.mp hwmem with hwm | hwm
        · subst hwm
          exact valWF_mono he2 hv1
        · exact hvs w hwm
    · -- callValue
      intro env cv args st hwf hex hcv hargs hlen
      cases cv
      case fn f => exact ihF f args st hwf hcv hargs hlen
      case cls c => exact hcv.elim
      case inst i => exact hcv.elim
      case native nv => exact ihN env nv args st hwf hex
      all_goals exact ⟨ext_refl _, hwf, bug_ne_host.1, bug_ne_host.2⟩
    · -- callFn
      intro f args st hwf hfwf hargs hlen
      obtain ⟨hinit, Sf, hconf, hfb⟩ := hfwf
      rw [callFn_succ, hinit]
      cases hfd : f.decl with
      | mk dn dp db =>
        rw [hfd] at hfb hlen
        simp only [FunDecl.params] at hlen
        cases hfb with
        | mk hsl =>
          rename_i S2
          simp only [FunDecl.params, FunDecl.body]
          have hf0 : frameAt ({ st with
                envs := st.envs ++ [⟨[], some f.enclosing⟩] } : RtState).envs
              st.envs.length = some ⟨[], some f.enclosing⟩ := by
            show List.get? (st.envs ++ [⟨[], some f.enclosing⟩]) st.envs.length = _
            exact List.get?_concat_length _ _
          have hext1 : Ext st.envs
              ({ st with envs := st.envs ++ [⟨[], some f.enclosing⟩] } : RtState).envs :=
            ext_push _ _
          have hwf1 : StateWF L nid0
              { st with envs := st.envs ++ [⟨[], some f.enclosing⟩] } :=
            ⟨globals_mono hext1 hwf.1, stored_push hwf.2.1 _, hwf.2.2.1, hwf.2.2.2⟩
          obtain ⟨hext2, hinst2, hnid2, hst2, fb, hfb2, hfbenc, hfbp⟩ :=
            fold_defines L st.envs.length dp args
              { st with envs := st.envs ++ [⟨[], some f.enclosing⟩] }
              ⟨[], some f.enclosing⟩ hlen hf0 hwf1.2.1
              (fun v hv => valWF_mono hext1 (hargs v hv))
          have hwf2 : StateWF L nid0 (foldDefs st.envs.length dp args
              { st with envs := st.envs ++ [⟨[], some f.enclosing⟩] }) := by
            refine ⟨globals_mono hext2 hwf1.1, hst2, ?_, ?_⟩
            · rw [hinst2]
              exact hwf1.2.2.1
            · rw [hnid2]
              exact hwf1.2.2.2
          have hconf2 : Conf (foldDefs st.envs.length dp args
              { st with envs := st.envs ++ [⟨[], some f.enclosing⟩] }).envs
              st.envs.length (paramScope dp :: Sf) := by
            refine Conf.push st.envs.length fb f.enclosing _ _ hfb2 (by rw [hfbenc]) ?_
              (conf_mono (ext_trans hext1 hext2) hconf)
            intro nm hn
            obtain ⟨p, hp, hpn⟩ := List.mem_map.mp (paramScope_mem hn)
            rw [← hpn]
            exact hfbp p hp
          have hrun := ihB st.envs.length db (foldDefs st.envs.length dp args
              { st with envs := st.envs ++ [⟨[], some f.enclosing⟩] })
            (paramScope dp :: Sf) S2 hwf2 hconf2 hsl
          cases hr : execBlockStmts L k st.envs.length db (foldDefs st.envs.length dp args
              { st with envs := st.envs ++ [⟨[], some f.enclosing⟩] }) with
          | ok u st3 =>
            rw [hr] at hrun
            exact ⟨ext_trans hext1 (ext_trans hext2 hrun.1), hrun.2.1, trivial⟩
          | ret v st3 =>
            rw [hr] at hrun
            exact ⟨ext_trans hext1 (ext_trans hext2 hrun.1), hrun.2.1, hrun.2.2⟩
          | err er st3 =>
            rw [hr] at hrun
            exact ⟨ext_trans hext1 (ext_trans hext2 hrun.1), hrun.2.1,
              hrun.2.2.1, hrun.2.2.2⟩
    · -- nativeCall
      intro env nv args st hwf hex
      cases nv with
      | clock => exact ⟨ext_refl _, hwf, trivial⟩
      | printf =>
        rcases args with _ | ⟨v0, _ | ⟨v1, vrest⟩⟩
        · exact ⟨ext_refl _, hwf, bug_ne_host.1, bug_ne_host.2⟩
        · cases v0
          case str fmt =>
            show EPost L nid0 st ((printfFmt L k env fmt st).andThen fun out st1 =>
              .ok .nil { st1 with output := st1.output ++ [out] })
            refine epost_bindP (ihP env fmt st hwf hex) ?_
            intro out st1 he1 hw1
            exact ⟨ext_refl _, hw1, trivial⟩
          all_goals exact ⟨ext_refl _, hwf, type_ne_host.1, type_ne_host.2⟩
        · cases v0 <;> exact ⟨ext_refl _, hwf, bug_ne_host.1, bug_ne_host.2⟩
    · -- printfFmt
      intro env fmt st hwf hex
      cases hfm : findFmtMatch fmt with
      | none =>
        show PPost L nid0 st (printfFmt L (k + 1) env fmt st)
        simp only [printfFmt, hfm]
        exact ⟨ext_refl _, hwf⟩
      | some trip =>
        obtain ⟨before, grp, after⟩ := trip
        simp only [printfFmt, hfm]
        refine ppost_bindE (ihI env grp st hwf hex) ?_
        intro v st1 he1 hw1 _
        obtain ⟨S, hconf⟩ := hex
        refine ppost_seq (ihP env after st1 hw1 ⟨S, conf_mono he1 hconf⟩) ?_
        intro out st2 he2 hw2
        exact ⟨ext_refl _, hw2⟩
    · -- evalInterp
      intro env code st hwf hex
      obtain ⟨S, hconf⟩ := hex
      rw [evalInterp_succ]
      have main : ∀ pst0 : PState, pst0.nextNid = st.nextNid →
          EPost L nid0 st (match pExpression (32 * (code.length + 2)) pst0 with
            | .error pst =>
              .err .hostParseError
                { st with
                    nextNid := pst.nextNid,
                    logged := (st.logged ++ (scanChars code).2) ++ pst.errs.map Prod.snd }
            | .ok (e, pst) =>
              match evalE L k env e
                  { st with
                      nextNid := pst.nextNid,
                      logged := (st.logged ++ (scanChars code).2) ++
                        pst.errs.map Prod.snd } with
              | .ok v st3 => .ok v st3
              | .ret v st3 => .ret v st3
              | .err (.lox _ m) st3 => .ok .nil { st3 with logged := st3.logged ++ [m] }
              | .err er st3 => .err er st3) := by
        intro pst0 hnid
        have hPN := (parserFresh (32 * (code.length + 2))).1 st.nextNid pst0
          (le_of_eq hnid.symm)
        cases hp : pExpression (32 * (code.length + 2)) pst0 with
        | error pst =>
          simp only [hp] at hPN
          rw [hnid] at hPN
          exact ⟨ext_refl _, ⟨hwf.1, hwf.2.1, hwf.2.2.1, le_trans hwf.2.2.2 hPN⟩,
            parse_ne_host.1, parse_ne_host.2⟩
        | ok epr =>
          obtain ⟨e, pst⟩ := epr
          simp only [hp] at hPN
          obtain ⟨hmono, hfresh⟩ := hPN
          rw [hnid] at hmono
          have hwf2 : StateWF L nid0 { st with
              nextNid := pst.nextNid,
              logged := (st.logged ++ (scanChars code).2) ++ pst.errs.map Prod.snd } :=
            ⟨hwf.1, hwf.2.1, hwf.2.2.1, le_trans hwf.2.2.2 hmono⟩
          have htf : ∀ n ∈ exprNids e, tableGet L n = none := by
            intro n hn
            cases htg : tableGet L n with
            | none => rfl
            | some d =>
              exact absurd (hTB n d htg)
                (Nat.not_lt.mpr (le_trans hwf.2.2.2 (hfresh n hn)))
          have hev := ihE env e _ S hwf2 hconf (tfreeREx L S e htf)
          show EPost L nid0 st (match evalE L k env e
              { st with
                  nextNid := pst.nextNid,
                  logged := (st.logged ++ (scanChars code).2) ++
                    pst.errs.map Prod.snd } with
            | .ok v st3 => .ok v st3
            | .ret v st3 => .ret v st3
            | .err (.lox _ m) st3 => .ok .nil { st3 with logged := st3.logged ++ [m] }
            | .err er st3 => .err er st3)
          cases hev2 : evalE L k env e { st with
              nextNid := pst.nextNid,
              logged := (st.logged ++ (scanChars code).2) ++ pst.errs.map Prod.snd } with
          | ok v st3 =>
            rw [hev2] at hev
            exact hev
          | ret v st3 =>
            rw [hev2] at hev
            exact hev.elim
          | err er st3 =>
            rw [hev2] at hev
            obtain ⟨he3, hw3, hk, hA⟩ := hev
            cases er with
            | lox t m => exact ⟨he3, hw3, trivial⟩
            | hostKeyError => exact absurd rfl hk
            | hostAttrError => exact absurd rfl hA
            | hostTypeError => exact ⟨he3, hw3, type_ne_host.1, type_ne_host.2⟩
            | hostParseError => exact ⟨he3, hw3, parse_ne_host.1, parse_ne_host.2⟩
            | hostBug => exact ⟨he3, hw3, bug_ne_host.1, bug_ne_host.2⟩
      cases hscan : (scanChars code).1 with
      | nil => exact main ⟨⟨.EOF, [], none, 0, 0⟩, [], st.nextNid, []⟩ rfl
      | cons t ts => exact main ⟨t, ts, st.nextNid, []⟩ rfl
    · -- execS
      intro env s st S S2 hwf hconf hrst
      cases hrst with
      | block hsl =>
        rename_i T2 stmts
        rw [execS_block_succ]
        have hext1 : Ext st.envs (st.envs ++ [⟨[], some env⟩]) := ext_push _ _
        have hwf1 : StateWF L nid0 { st with envs := st.envs ++ [⟨[], some env⟩] } :=
          ⟨globals_mono hext1 hwf.1, stored_push hwf.2.1 _, hwf.2.2.1, hwf.2.2.2⟩
        have hconf1 : Conf (st.envs ++ [⟨[], some env⟩]) st.envs.length
            (([] : ScopeT) :: S) := by
          refine Conf.push _ ⟨[], some env⟩ env [] S ?_ rfl ?_ (conf_mono hext1 hconf)
          · show List.get? (st.envs ++ [⟨[], some env⟩]) st.envs.length = _
            exact List.get?_concat_length _ _
          · intro nm hn
            simp [getBinding] at hn
        have hrun := ihB st.envs.length stmts
          { st with envs := st.envs ++ [⟨[], some env⟩] } (([] : ScopeT) :: S) T2
          hwf1 hconf1 hsl
        cases hr : execBlockStmts L k st.envs.length stmts
            { st with envs := st.envs ++ [⟨[], some env⟩] } with
        | ok u st3 =>
          rw [hr] at hrun
          exact ⟨ext_trans hext1 hrun.1, hrun.2.1,
            conf_mono (ext_trans hext1 hrun.1) hconf⟩
        | ret v st3 =>
          rw [hr] at hrun
          exact ⟨ext_trans hext1 hrun.1, hrun.2⟩
        | err er st3 =>
          rw [hr] at hrun
          exact ⟨ext_trans hext1 hrun.1, hrun.2⟩
      | classS =>
        exact ⟨ext_refl _, hwf, type_ne_host.1, type_ne_host.2⟩
      | exprS hre =>
        rename_i e
        simp only [execS]
        refine upost_bindE (ihE env e st S hwf hconf hre) ?_
        intro v st1 he1 hw1 _
        exact ⟨ext_refl _, hw1, conf_mono he1 hconf⟩
      | funcS hfb =>
        rename_i d
        rw [execS_funcS_succ]
        obtain ⟨f0, hf0⟩ := conf_frame hconf
        have hf0b : frameAt ({ st with nextOid := st.nextOid + 1 } : RtState).envs env =
            some f0 := hf0
        rw [rtDefine_eq hf0b]
        refine ⟨ext_bind hf0 _ _, ?_, ?_⟩
        · refine ⟨globals_mono (ext_bind hf0 _ _) hwf.1,
            stored_set hwf.2.1 hf0 ?_, hwf.2.2.1, hwf.2.2.2⟩
          exact ⟨rfl, defScopes (FunDecl.name d).lexeme
              (decScopes (FunDecl.name d).lexeme S),
            conf_define hconf hf0 _ _, hfb⟩
        · exact conf_define hconf hf0 _ _
      | ifS hc ht hoe =>
        rename_i c t e
        simp only [execS]
        refine upost_bindE (ihE env c st S hwf hconf hc) ?_
        intro cv st1 he1 hw1 _
        have hconf1 := conf_mono he1 hconf
        cases htr : isTruthy cv
        · cases hoe with
          | none => exact ⟨ext_refl _, hw1, hconf1⟩
          | some hs2 =>
            rename_i s2
            exact ihS env s2 st1 S S hw1 hconf1 hs2
        · exact ihS env t st1 S S hw1 hconf1 ht
      | printS hre =>
        rename_i e
        simp only [execS]
        refine upost_bindE (ihE env e st S hwf hconf hre) ?_
        intro v st1 he1 hw1 _
        exact ⟨ext_refl _, hw1, conf_mono he1 hconf⟩
      | returnNone =>
        exact ⟨ext_refl _, hwf, trivial⟩
      | returnSome hre =>
        rename_i kw e
        simp only [execS]
        refine upost_bindE (ihE env e st S hwf hconf hre) ?_
        intro v st1 he1 hw1 hv1
        exact ⟨ext_refl _, hw1, hv1⟩
      | varNone =>
        rename_i name
        simp only [execS]
        obtain ⟨f0, hf0⟩ := conf_frame hconf
        rw [rtDefine_eq hf0]
        exact ⟨ext_bind hf0 _ _, statewf_bind hwf hf0 trivial,
          conf_define hconf hf0 _ _⟩
      | varSome hre =>
        rename_i name e
        simp only [execS]
        refine upost_bindE (ihE env e st (decScopes name.lexeme S) hwf
          (conf_dec hconf name.lexeme) hre) ?_
        intro v st1 he1 hw1 hv1
        have hconf1 : Conf st1.envs env S := conf_mono he1 hconf
        obtain ⟨f1, hf1⟩ := conf_frame hconf1
        rw [rtDefine_eq hf1]
        exact ⟨ext_bind hf1 _ _, statewf_bind hw1 hf1 hv1,
          conf_define hconf1 hf1 _ _⟩
      | whileS hc hb =>
        rename_i c b
        exact ihW env c b st S hwf hconf hc hb
    · -- execWhile
      intro env c body st S hwf hconf hc hb
      simp only [execWhile]
      refine upost_bindE (ihE env c st S hwf hconf hc) ?_
      intro cv st1 he1 hw1 _
      have hconf1 := conf_mono he1 hconf
      cases htr : isTruthy cv
      · exact ⟨ext_refl _, hw1, hconf1⟩
      · refine upost_seq (ihS env body st1 S S hw1 hconf1 hb) ?_
        intro st2 he2 hw2 hconf2
        exact ihW env c body st2 S hw2 hconf2 hc hb
    · -- execBlockStmts
      intro env ss st S S2 hwf hconf hsl
      cases hsl with
      | nil => exact ⟨ext_refl _, hwf, hconf⟩
      | cons hs hrest =>
        rename_i S1 s rest
        simp only [execBlockStmts]
        refine upost_seq (ihS env s st S S1 hwf hconf hs) ?_
        intro st1 he1 hw1 hconf1
        exact ihB env rest st1 S1 S2 hw1 hconf1 hrest

/-- An error escaping `Interpreter.interpret` comes straight from the
statement loop (the boundary catches only Lox runtime errors). -/
theorem interpretStmts_err {L : Table} {fuel : Nat} {stmts : List Stmt}
    {st st2 : RtState} {e : RTErr}
    (h : interpretStmts L fuel stmts st = .err e st2) :
    execBlockStmts L fuel 0 stmts st = .err e st2 := by
  unfold interpretStmts at h
  cases hx : execBlockStmts L fuel 0 stmts st with
  | ok u st1 =>
    rw [hx] at h
    cases h
  | ret v st1 =>
    rw [hx] at h
    cases h
  | err er st1 =>
    rw [hx] at h
    cases er with
    | lox t m => cases h
    | hostKeyError => exact h
    | hostAttrError => exact h
    | hostTypeError => exact h
    | hostParseError => exact h
    | hostBug => exact h

/-- C1, amended: for every program within the parser's shape (no name is
`this`, non-declarations in `if`/`while` branches, distinct node
identities all below the interpreter's identity seed `nid0`) that the
resolver processes without reporting an error and without exhausting its
fuel, interpretation under the resolver's side table never fails with
the host `KeyError` or `AttributeError` of `get_at`/`assign_at`: every
table-recorded read (`Variable`/`This`) walks its recorded distance to a
frame that binds the lexeme at that moment, and every recorded `Assign`
distance stays within the frame chain.  (The original claim — that the
reached frame binds the lexeme for *every* recorded expression, making
`get_at` of it succeed — is refuted by
`C1_resolved_frame_unbound_counterexample`: for a recorded `Assign`
inside its own `var` initializer the frame does not yet bind the lexeme;
`assign_at` succeeds only by creating the binding.) -/
theorem C1_resolved_run_no_host_lookup_errors
    (prog : List Stmt) (nid0 rfuel : Nat) (clock0 : ℚ)
    (hws : wellShapedSList prog = true)
    (hthis : thisOKSList prog = true)
    (hnd : (stmtNidsList prog).Nodup)
    (hbound : ∀ n ∈ stmtNidsList prog, n < nid0)
    (hro : (runResolver rfuel prog).ranOut = false)
    (herrs : (runResolver rfuel prog).errs = []) :
    ∀ fuel e st2,
      interpretStmts (runResolver rfuel prog).table fuel prog
        (initRtState nid0 clock0) = .err e st2 →
      e ≠ .hostKeyError ∧ e ≠ .hostAttrError := by
  have hTB : ∀ n d, tableGet (runResolver rfuel prog).table n = some d → n < nid0 := by
    intro n d htg
    by_cases hmem : n ∈ stmtNidsList prog
    · exact hbound n hmem
    · have hne := (resolverTable rfuel).2.2.2.2.1 prog initRState n hmem
      rw [show runResolver rfuel prog = resolveSList rfuel prog initRState from rfl,
        hne] at htg
      cases htg
  have hsl := (resolverBridge rfuel).2.2.2.2.1 prog initRState
    (fun sc hsc => absurd hsc (List.not_mem_nil sc)) hws hthis hnd hro herrs
    (fun n _ => rfl) (runResolver rfuel prog).table (fun n _ => rfl)
  have hwf0 : StateWF (runResolver rfuel prog).table nid0 (initRtState nid0 clock0) := by
    refine ⟨⟨⟨[("clock".toList, .native .clock), ("printf".toList, .native .printf)],
      none⟩, rfl, rfl⟩, ?_, rfl, le_refl nid0⟩
    intro e f n v hf hb
    cases e with
    | zero =>
      cases hf
      simp only [getBinding] at hb
      split at hb
      · cases hb
        trivial
      · split at hb
        · cases hb
          trivial
        · cases hb
    | succ e => cases hf
  have hconf0 : Conf (initRtState nid0 clock0).envs 0 [] :=
    Conf.global ⟨[("clock".toList, .native .clock), ("printf".toList, .native .printf)],
      none⟩ rfl rfl
  intro fuel e st2 hrun
  have hx := interpretStmts_err hrun
  have hub := (evalSim (runResolver rfuel prog).table nid0 hTB
      fuel).2.2.2.2.2.2.2.2.2 0 prog (initRtState nid0 clock0) []
    (listScopesUpd prog initRState.scopes) hwf0 hconf0 hsl
  rw [hx] at hub
  exact ⟨hub.2.2.1, hub.2.2.2⟩

/-- `{ var a = 1; print a; }` — the `print a` read is recorded in the
side table at distance 0. -/
def C1wprog : List Stmt :=
  [Stmt.block
    [Stmt.varS ⟨.IDENTIFIER, ['a'], none, 11, 1⟩ (some (.literal 0 (.num 1))),
     Stmt.printS (.var 1 ⟨.IDENTIFIER, ['a'], none, 20, 1⟩)]]

theorem C1_resolved_run_no_host_lookup_errors_witness :
    wellShapedSList C1wprog = true ∧ thisOKSList C1wprog = true ∧
    (stmtNidsList C1wprog).Nodup ∧ (∀ n ∈ stmtNidsList C1wprog, n < 2) ∧
    (runResolver 10 C1wprog).ranOut = false ∧ (runResolver 10 C1wprog).errs = [] ∧
    ∀ fuel e st2,
      interpretStmts (runResolver 10 C1wprog).table fuel C1wprog
        (initRtState 2 0) = .err e st2 →
      e ≠ .hostKeyError ∧ e ≠ .hostAttrError :=
  ⟨rfl, rfl, by decide, by decide, rfl, rfl,
   C1_resolved_run_no_host_lookup_errors C1wprog 2 10 0 rfl rfl (by decide)
     (by decide) rfl rfl⟩

end Pylox
